import Mathlib

/-!
Verification development for the Node Group Organizer solver (`solver.js`).

The JavaScript source is shallowly embedded below.  JS numbers are modelled
by `Rat` (the concrete inputs of interest are small integers/rationals, for
which JS float arithmetic is exact), node ids by `String`, and JS objects
used as string-keyed dictionaries by insertion-ordered association lists
(`ObjMap`).  Code that can raise a run-time error (the local search reads
the undeclared variable `numFixed`, and is invoked with the number `0` in
place of its `fixedGroupsParam` array) is embedded in `Except String`,
where `.error` models a thrown exception.
-/

unseal Rat.add Rat.mul Rat.sub Rat.inv

/-- JS string-keyed object with number values, as an insertion-ordered
association list (JS object keys here are never array indices, so JS
preserves insertion order). -/
abbrev ObjMap := List (String × Rat)

/-- JS `obj[k] = v`: update in place if the key exists, else append. -/
def objSet (m : ObjMap) (k : String) (v : Rat) : ObjMap :=
  if m.any (fun p => p.1 = k) then m.map (fun p => if p.1 = k then (k, v) else p)
  else m ++ [(k, v)]

/-- JS `obj[k]`: the value at `k`, if present. -/
def objGet (m : ObjMap) (k : String) : Option Rat :=
  (m.find? (fun p => p.1 = k)).map (·.2)

/-- A node: `{id, nodeWeight}` (the UI label is irrelevant to the solver). -/
structure Node where
  id : String
  nodeWeight : Rat
deriving DecidableEq, Repr

/-- The template-literal key `a|b` used by the solver for the pair (a, b). -/
def linkKey (a b : String) : String := a ++ "|" ++ b

/-- solver.js `getPairLinkWeight`: `ab || ba` in symmetric mode (JS `||`
yields `ba` exactly when `ab` is `0`), `ab + ba` otherwise. -/
def getPairLinkWeight (m : ObjMap) (a b : String) (symmetricLinks : Bool) : Rat :=
  let ab := (objGet m (linkKey a b)).getD 0
  let ba := (objGet m (linkKey b a)).getD 0
  if symmetricLinks then (if ab ≠ 0 then ab else ba) else ab + ba

/-- solver.js `getLinkWeight` (an alias of `getPairLinkWeight`). -/
def getLinkWeight (m : ObjMap) (a b : String) (symmetricLinks : Bool) : Rat :=
  getPairLinkWeight m a b symmetricLinks

/-- solver.js `nodesById[id].nodeWeight`; the JS object is built by a loop in
which a later node with the same id overwrites an earlier one (hence the
lookup on the reversed list).  The solver only ever looks up ids of `nodes`. -/
def nodesByIdWeight (nodes : List Node) (id : String) : Rat :=
  ((nodes.reverse.find? (fun n => n.id = id)).map (·.nodeWeight)).getD 0

/-- solver.js `groupNodeWeightSum`: sum of the member nodes' weights. -/
def groupNodeWeightSum (group : List String) (w : String → Rat) : Rat :=
  group.foldl (fun s id => s + w id) 0

/-- solver.js `groupCombinedWeight`: sum of pair link weights over the
unordered member pairs `i < j`, in loop order. -/
def groupCombinedWeight (m : ObjMap) (sym : Bool) : List String → Rat
  | [] => 0
  | a :: rest =>
      rest.foldl (fun s b => s + getPairLinkWeight m a b sym) 0 + groupCombinedWeight m sym rest

/-- solver.js `nodeHasAnyLink`: some other listed id has a nonzero link. -/
def nodeHasAnyLink (nodeId : String) (allIds : List String) (m : ObjMap) (sym : Bool) : Bool :=
  allIds.any (fun other => other ≠ nodeId ∧ getLinkWeight m nodeId other sym ≠ 0)

/-- solver.js `solutionTotalWeight`: sum of the groups' combined weights. -/
def solutionTotalWeight (groups : List (List String)) (m : ObjMap) (sym : Bool) : Rat :=
  groups.foldl (fun s g => s + groupCombinedWeight m sym g) 0

/-- Per-group detail record of a registered solution. -/
structure GroupDetail where
  nodeIds : List String
  nodeWeightSum : Rat
  combinedWeight : Rat
deriving DecidableEq, Repr

/-- solver.js `buildGroupDetails`. -/
def buildGroupDetails (groups : List (List String)) (m : ObjMap) (w : String → Rat)
    (sym : Bool) : List GroupDetail :=
  groups.map (fun g => ⟨g, groupNodeWeightSum g w, groupCombinedWeight m sym g⟩)

/-- A registered solution. -/
structure Solution where
  groups : List (List String)
  freeNodes : List String
  totalWeight : Rat
  groupDetails : List GroupDetail
deriving DecidableEq, Repr

/-- Keep the first occurrence of each element (JS `new Set(...)` iteration
order / first-occurrence deduplication). -/
def firstDedupAux [DecidableEq α] (seen : List α) : List α → List α
  | [] => []
  | x :: xs => if x ∈ seen then firstDedupAux seen xs else x :: firstDedupAux (x :: seen) xs

/-- First-occurrence deduplication. -/
def firstDedup [DecidableEq α] (l : List α) : List α := firstDedupAux [] l

/-- Lexicographic comparison of character lists (the JS default sort
comparator compares UTF-16 code units; on the scalar values these agree). -/
def strLtData : List Char → List Char → Bool
  | [], [] => false
  | [], _ :: _ => true
  | _ :: _, [] => false
  | a :: as, b :: bs =>
      if a.toNat < b.toNat then true
      else if b.toNat < a.toNat then false
      else strLtData as bs

/-- Lexicographic string comparison. -/
def strLt (a b : String) : Bool := strLtData a.data b.data

/-- Insert a string into an ascending list (JS default array sort order). -/
def insertStrLe (x : String) : List String → List String
  | [] => [x]
  | y :: ys => if strLt x y then x :: y :: ys else y :: insertStrLe x ys

/-- JS `[...arr].sort()` on strings: ascending lexicographic sort. -/
def sortStrings (l : List String) : List String := l.foldl (fun acc x => insertStrLe x acc) []

/-- JS `Array.prototype.join(sep)`. -/
def joinSep (sep : String) : List String → String
  | [] => ""
  | [x] => x
  | x :: y :: xs => x ++ sep ++ joinSep sep (y :: xs)

/-- solver.js `solutionKey`: canonical dedup key of a candidate solution. -/
def solutionKey (groups : List (List String)) (freeNodes : List String) : String :=
  let groupPart := joinSep "|" (sortStrings (groups.map (fun g => joinSep "," (sortStrings g))))
  let freePart := joinSep "," (sortStrings freeNodes)
  if freePart ≠ "" then groupPart ++ "||free:" ++ freePart else groupPart

/-- solver.js `solutionHasDuplicateNodes`: the flattened id list must have
exactly `totalNodeCount` entries and no duplicates. -/
def solutionHasDuplicateNodes (groups : List (List String)) (freeNodes : List String)
    (totalNodeCount : Nat) : Bool :=
  let allIds := groups.flatten ++ freeNodes
  if allIds.length ≠ totalNodeCount then true
  else (firstDedup allIds).length ≠ totalNodeCount

/-- solver.js `variance`: population variance (0 on the empty list). -/
def variance (values : List Rat) : Rat :=
  if values.length = 0 then 0
  else
    let n : Rat := values.length
    let mean := values.foldl (fun s x => s + x) 0 / n
    values.foldl (fun s x => s + (x - mean) ^ 2) 0 / n

/-- Options of `computeGroups` with their JS defaults in `defaultOptions`. -/
structure Options where
  allowFreeNodes : Bool
  symmetricLinks : Bool
  balanceGroupWeightsFactor : Rat
  bonusPerGroup : Rat
  fixedGroups : List (List String)
deriving DecidableEq, Repr

/-- The JS default options object. -/
def defaultOptions : Options := ⟨false, true, 0, 0, []⟩

/-- solver.js `solutionScore` (closure over the options). -/
def solutionScore (opts : Options) (sol : Solution) : Rat :=
  let score := sol.totalWeight + opts.bonusPerGroup * (sol.groups.length : Rat)
  if opts.balanceGroupWeightsFactor > 0 ∧ sol.groupDetails.length > 0 then
    score - opts.balanceGroupWeightsFactor * variance (sol.groupDetails.map (·.combinedWeight))
  else score

/-- Insert a solution into a score-descending list, after any entry of equal
score (this reproduces the stable JS sort with comparator
`(a, b) => score(b) - score(a)`). -/
def insertSolDesc (score : Solution → Rat) (x : Solution) : List Solution → List Solution
  | [] => [x]
  | y :: ys => if score x > score y then x :: y :: ys else y :: insertSolDesc score x ys

/-- Stable sort by score descending (JS `Array.prototype.sort` is stable and
the comparator is consistent, so the result is the stable descending order). -/
def sortSolutionsDesc (score : Solution → Rat) (l : List Solution) : List Solution :=
  l.foldl (fun acc x => insertSolDesc score x acc) []

/-- The mutable state captured by solver.js `addSolution`: the `seen` key set
and the bounded `solutions` array. -/
structure Archive where
  seen : List String
  sols : List Solution
deriving DecidableEq, Repr

/-- The empty archive. -/
def archEmpty : Archive := ⟨[], []⟩

/-- Build the `Solution` record pushed by solver.js `addSolution`. -/
def mkSolution (m : ObjMap) (w : String → Rat) (sym : Bool)
    (groups : List (List String)) (freeNodes : List String) : Solution :=
  let details := buildGroupDetails groups m w sym
  let totalWeight := details.foldl (fun s d => s + d.combinedWeight) 0
  ⟨groups, freeNodes, totalWeight, details⟩

/-- solver.js `addSolution`: reject duplicates, dedup by key, push, re-sort
by score descending, truncate to 10. -/
def addSolution (opts : Options) (m : ObjMap) (w : String → Rat) (totalNodeCount : Nat)
    (st : Archive) (groups : List (List String)) (freeNodes : List String) : Archive :=
  if solutionHasDuplicateNodes groups freeNodes totalNodeCount then st
  else
    let key := solutionKey groups freeNodes
    if key ∈ st.seen then st
    else
      let sol := mkSolution m w opts.symmetricLinks groups freeNodes
      ⟨key :: st.seen, (sortSolutionsDesc (solutionScore opts) (st.sols ++ [sol])).take 10⟩

/-- solver.js `isWasteful` (inside `pruneWastefulSolutions`): some group of
size above one has a member with zero link to every other member. -/
def isWastefulSolution (m : ObjMap) (sym : Bool) (sol : Solution) : Bool :=
  sol.groupDetails.any (fun gd =>
    1 < gd.nodeIds.length ∧
    gd.nodeIds.any (fun id =>
      gd.nodeIds.all (fun other => other = id ∨ getLinkWeight m id other sym = 0)))

/-- solver.js `pruneWastefulSolutions`: drop wasteful solutions when at least
one non-wasteful one is present. -/
def pruneWastefulSolutions (m : ObjMap) (sym : Bool) (sols : List Solution) : List Solution :=
  if sols.any (fun s => ¬ isWastefulSolution m sym s) then
    sols.filter (fun s => ¬ isWastefulSolution m sym s)
  else sols

/-- solver.js `validate`.  The interpolated numeric values of the JS message
strings are omitted; no claim depends on the message text. -/
def validate (nodes : List Node) (_linkMatrix : ObjMap) (minCombined maxCombined : Rat) :
    List String :=
  (if nodes.length = 0 then ["At least one node is required."] else [])
    ++ (if minCombined > maxCombined then
          ["minimumCombinedWeight must be <= maximumCombinedWeight."] else [])
    ++ (nodes.filter (fun n => n.nodeWeight > maxCombined)).map
        (fun n => "Node " ++ n.id ++ " has nodeWeight exceeding maximumCombinedWeight.")

/-- A candidate (groups, freeNodes) pair produced by the searches. -/
structure Cand where
  groups : List (List String)
  free : List String
deriving DecidableEq, Repr

/-- Members (in position order) of group `g` under assignment prefix `a`
(solver.js scans `assignment[0..pos]`; `zip` restricts to that window). -/
def membersAt (ids : List String) (a : List Int) (g : Int) : List String :=
  ((a.zip ids).filter (fun p => p.1 = g)).map (·.2)

/-- Group indices already used by the assignment prefix, in first-occurrence
order (JS `Set` iteration order). -/
def usedGroupsOf (pre : List Int) : List Int :=
  firstDedup (pre.filter (fun v => 0 ≤ v))

/-- JS `Math.max(...usedGroups) + 1`, or `0` when no group is used yet. -/
def nextNewOf (used : List Int) : Int :=
  match used with
  | [] => 0
  | x :: xs => (xs.foldl (fun acc v => if v > acc then v else acc) x) + 1

/-- Insert an integer into an ascending list. -/
def insertIntLe (x : Int) : List Int → List Int
  | [] => [x]
  | y :: ys => if x < y then x :: y :: ys else y :: insertIntLe x ys

/-- Ascending sort of integers (JS object integer-like keys iterate in
ascending numeric order, whatever the insertion order). -/
def sortIntsAsc (l : List Int) : List Int := l.foldl (fun acc x => insertIntLe x acc) []

/-- Groups of a complete assignment, in ascending group-index order
(solver.js builds `groupMap` and takes `Object.values`). -/
def candGroupsOf (ids : List String) (a : List Int) : List (List String) :=
  (sortIntsAsc (usedGroupsOf a)).map (membersAt ids a)

/-- Free nodes of a complete assignment (entries assigned `-1`). -/
def candFreeOf (ids : List String) (a : List Int) : List String :=
  membersAt ids a (-1)

/-- solver.js `exhaustiveSearch` recursion, defunctionalized: instead of
calling the `addSolution` callback it returns the emitted candidates in DFS
order (the callback does not influence the enumeration).  `fuel` equals
`ids.length - pre.length` throughout; `maxGroups = ids.length`. -/
def exhRec (ids : List String) (w : String → Rat) (minC maxC : Rat) (allowFree : Bool) :
    Nat → List Int → List Cand
  | 0, a =>
      let groups := candGroupsOf ids a
      if groups.all (fun g =>
          minC ≤ groupNodeWeightSum g w ∧ groupNodeWeightSum g w ≤ maxC) then
        [⟨groups, candFreeOf ids a⟩]
      else []
  | fuel + 1, pre =>
      (if allowFree then exhRec ids w minC maxC allowFree fuel (pre ++ [-1]) else [])
        ++ ((usedGroupsOf pre).flatMap (fun g =>
              if groupNodeWeightSum (membersAt ids (pre ++ [g]) g) w ≤ maxC then
                exhRec ids w minC maxC allowFree fuel (pre ++ [g])
              else []))
        ++ (let nn := nextNewOf (usedGroupsOf pre)
            if nn < (ids.length : Int) then exhRec ids w minC maxC allowFree fuel (pre ++ [nn])
            else [])

/-- All candidates registered by solver.js `exhaustiveSearch`, in call order. -/
def exhaustiveCands (ids : List String) (w : String → Rat) (minC maxC : Rat)
    (allowFree : Bool) : List Cand :=
  exhRec ids w minC maxC allowFree ids.length []

/-- One step of the mulberry32 generator on the unsigned 32-bit state:
returns the next state and the raw 32-bit output (the JS call returns
`output / 2^32`, which float64 represents exactly). -/
def mulberry32Next (t : Nat) : Nat × Nat :=
  let M : Nat := 4294967296
  let t1 := ((t ^^^ (t >>> 15)) * (t ||| 1)) % M
  let c := ((t1 ^^^ (t1 >>> 7)) * (t1 ||| 61)) % M
  let t2 := t1 ^^^ ((t1 + c) % M)
  (t2, t2 ^^^ (t2 >>> 14))

/-- Initial mulberry32 state: `seed + 0x6d2b79f5` (exact for small seeds). -/
def mulberryInit (seed : Nat) : Nat := (seed + 0x6d2b79f5) % 4294967296

/-- Swap two positions of a list (JS array destructuring swap). -/
def listSwap (l : List α) (i j : Nat) : List α :=
  match l.get? i, l.get? j with
  | some x, some y => (l.set i y).set j x
  | _, _ => l

/-- Fisher–Yates phase of solver.js `shuffleWithSeed`: `i` counts down;
`Math.floor(rng() * (i + 1))` equals Nat division of `r * (i + 1)` by `2^32`
(exact in float64 for the sizes at hand). -/
def shuffleAux (t : Nat) (l : List α) : Nat → List α
  | 0 => l
  | Nat.succ k =>
      let i := Nat.succ k
      let next := mulberry32Next t
      let j := (next.2 * (i + 1)) / 4294967296
      shuffleAux next.1 (listSwap l i j) k

/-- solver.js `shuffleWithSeed` (on a copy of the array). -/
def shuffleWithSeed (l : List α) (seed : Nat) : List α :=
  shuffleAux (mulberryInit seed) l (l.length - 1)

/-- An edge of the greedy constructor. -/
structure Edge where
  a : String
  b : String
  w : Rat
deriving DecidableEq, Repr

/-- Edge list over the pairs `i < j` with nonzero resolved link weight, in
double-loop order. -/
def buildEdges (m : ObjMap) (sym : Bool) : List String → List Edge
  | [] => []
  | x :: rest =>
      (rest.filterMap (fun y =>
        let wxy := getLinkWeight m x y sym
        if wxy ≠ 0 then some ⟨x, y, wxy⟩ else none)) ++ buildEdges m sym rest

/-- Insert an edge into a weight-descending list, after entries of equal
weight.  The JS comparator breaks exact ties with a fresh `rng() - 0.5`,
which makes it inconsistent; per ECMA-262 the resulting order is then
implementation-defined, and we model the stable weight-descending outcome. -/
def insertEdgeDesc (x : Edge) : List Edge → List Edge
  | [] => [x]
  | y :: ys => if x.w > y.w then x :: y :: ys else y :: insertEdgeDesc x ys

/-- Sort edges by weight descending (see `insertEdgeDesc`). -/
def sortEdgesDesc (l : List Edge) : List Edge :=
  l.foldl (fun acc x => insertEdgeDesc x acc) []

/-- Greedy constructor state: the group list and the assigned-id set. -/
structure GBState where
  groups : List (List String)
  assigned : List String
deriving DecidableEq, Repr

/-- Append `outside` to the first group that contains `inG` and keeps the
node-weight sum within `maxC` (solver.js scans `groups` in order and keeps
scanning past groups without capacity). -/
def tryAppendToGroupContaining (w : String → Rat) (maxC : Rat) (inG outside : String) :
    List (List String) → Option (List (List String))
  | [] => none
  | g :: rest =>
      if inG ∈ g ∧ groupNodeWeightSum g w + w outside ≤ maxC then some ((g ++ [outside]) :: rest)
      else (tryAppendToGroupContaining w maxC inG outside rest).map (fun gs => g :: gs)

/-- Edge phase step of solver.js `greedyBuild`. -/
def greedyEdgeStep (w : String → Rat) (maxC : Rat) (st : GBState) (e : Edge) : GBState :=
  if e.a ∈ st.assigned ∧ e.b ∈ st.assigned then st
  else if e.a ∉ st.assigned ∧ e.b ∉ st.assigned ∧ w e.a + w e.b ≤ maxC then
    ⟨st.groups ++ [[e.a, e.b]], st.assigned ++ [e.a, e.b]⟩
  else
    let inG := if e.a ∈ st.assigned then e.a else e.b
    let outside := if e.a ∈ st.assigned then e.b else e.a
    if outside ∈ st.assigned then st
    else
      match tryAppendToGroupContaining w maxC inG outside st.groups with
      | some gs => ⟨gs, st.assigned ++ [outside]⟩
      | none => st

/-- Append `id` to the first group with spare capacity. -/
def firstGroupWithCapacity (w : String → Rat) (maxC : Rat) (id : String) :
    List (List String) → Option (List (List String))
  | [] => none
  | g :: rest =>
      if groupNodeWeightSum g w + w id ≤ maxC then some ((g ++ [id]) :: rest)
      else (firstGroupWithCapacity w maxC id rest).map (fun gs => g :: gs)

/-- Unassigned-node phase step shared by both greedy constructors
(`linkScanIds` is `ids` in `greedyBuild` and `allIds` in the fixed variant). -/
def placeLooseStep (m : ObjMap) (sym : Bool) (w : String → Rat) (maxC : Rat)
    (allowFree : Bool) (linkScanIds : List String) (acc : GBState × List String)
    (id : String) : GBState × List String :=
  let st := acc.1
  let free := acc.2
  if id ∈ st.assigned then acc
  else if allowFree ∧ ¬ nodeHasAnyLink id linkScanIds m sym then (st, free ++ [id])
  else
    match firstGroupWithCapacity w maxC id st.groups with
    | some gs => (⟨gs, st.assigned ++ [id]⟩, free)
    | none =>
        if allowFree then (st, free ++ [id])
        else (⟨st.groups ++ [[id]], st.assigned ++ [id]⟩, free)

/-- Result of a greedy construction / repair / local search. -/
structure GreedyResult where
  groups : List (List String)
  freeNodes : List String
deriving DecidableEq, Repr

/-- Find the first `j ≠ i` whose group merges with `gi` within `maxC`
(solver.js inner `j` loop of the merge passes).  Fuel-structured recursion:
`merged.length + 1` fuel covers every `j`. -/
def findMergeJ (w : String → Rat) (maxC : Rat) (merged : List (List String))
    (gi : List String) (i : Nat) : Nat → Nat → Option Nat
  | 0, _ => none
  | fuel + 1, j =>
    if h : j < merged.length then
      if i = j then findMergeJ w maxC merged gi i fuel (j + 1)
      else if groupNodeWeightSum (gi ++ merged[j]) w ≤ maxC then some j
      else findMergeJ w maxC merged gi i fuel (j + 1)
    else none

/-- Apply a merge in solver.js `mergeSmallGroups`: `merged[i] = combined;
merged.splice(j, 1)`. -/
def applyMergePlain (merged : List (List String)) (i j : Nat) (combined : List String) :
    List (List String) :=
  (merged.set i combined).eraseIdx j

/-- Apply a merge in solver.js `mergeSmallGroupsWithFixed`: the combined
group lands at `min i j` and `max i j` is removed. -/
def applyMergeFixed (merged : List (List String)) (i j : Nat) (combined : List String) :
    List (List String) :=
  (merged.set (Nat.min i j) combined).eraseIdx (Nat.max i j)

/-- One scan of the merge-pass `for` loop: find the first index whose group
is under `minC` and can act (merge, or be freed), and apply that action.
`fixedIds = none` models `mergeSmallGroups`, `some s` the `WithFixed`
variant with fixed-id set `s` (which places merges differently and never
frees a group overlapping `s`).  Returns `none` when no action applies. -/
def mergeScan (w : String → Rat) (minC maxC : Rat) (allowFree : Bool)
    (fixedIds : Option (List String)) (merged : List (List String)) (free : List String) :
    Nat → Nat → Option (List (List String) × List String)
  | 0, _ => none
  | fuel + 1, i =>
    if h : i < merged.length then
      let gi := merged[i]
      if groupNodeWeightSum gi w ≥ minC then
        mergeScan w minC maxC allowFree fixedIds merged free fuel (i + 1)
      else
        match findMergeJ w maxC merged gi i (merged.length + 1) 0 with
        | some j =>
            match fixedIds with
            | none => some (applyMergePlain merged i j (gi ++ merged.getD j []), free)
            | some _ => some (applyMergeFixed merged i j (gi ++ merged.getD j []), free)
        | none =>
            let groupHasFixed := match fixedIds with
              | none => false
              | some s => gi.any (fun id => id ∈ s)
            if allowFree ∧ groupHasFixed = false then some (merged.eraseIdx i, free ++ gi)
            else mergeScan w minC maxC allowFree fixedIds merged free fuel (i + 1)
    else none

/-- The `while (changed)` loop of the merge passes.  Every applied action
removes exactly one group, so `groups.length + 1` fuel always reaches the
fixpoint. -/
def mergeLoop (w : String → Rat) (minC maxC : Rat) (allowFree : Bool)
    (fixedIds : Option (List String)) :
    Nat → List (List String) × List String → List (List String) × List String
  | 0, st => st
  | fuel + 1, (merged, free) =>
      match mergeScan w minC maxC allowFree fixedIds merged free (merged.length + 1) 0 with
      | none => (merged, free)
      | some st => mergeLoop w minC maxC allowFree fixedIds fuel st

/-- solver.js `mergeSmallGroups`: merge/free under-min groups, then check
every remaining group against both bounds. -/
def mergeSmallGroups (groups : List (List String)) (w : String → Rat) (minC maxC : Rat)
    (allowFree : Bool) (freeNodes : List String) : Option GreedyResult :=
  let st := mergeLoop w minC maxC allowFree none (groups.length + 1) (groups, freeNodes)
  if st.1.all (fun g => minC ≤ groupNodeWeightSum g w ∧ groupNodeWeightSum g w ≤ maxC) then
    some ⟨st.1, st.2⟩
  else none

/-- solver.js `mergeSmallGroupsWithFixed`. -/
def mergeSmallGroupsWithFixed (groups : List (List String)) (w : String → Rat)
    (minC maxC : Rat) (allowFree : Bool) (freeNodes : List String)
    (fixedGroupsParam : List (List String)) : Option GreedyResult :=
  let st := mergeLoop w minC maxC allowFree (some fixedGroupsParam.flatten)
    (groups.length + 1) (groups, freeNodes)
  if st.1.all (fun g => minC ≤ groupNodeWeightSum g w ∧ groupNodeWeightSum g w ≤ maxC) then
    some ⟨st.1, st.2⟩
  else none

/-- solver.js `greedyBuild`. -/
def greedyBuild (ids : List String) (w : String → Rat) (m : ObjMap) (minC maxC : Rat)
    (seed : Nat) (allowFree sym : Bool) : Option GreedyResult :=
  let shuffled := shuffleWithSeed ids seed
  let edges := sortEdgesDesc (buildEdges m sym ids)
  let st0 := edges.foldl (greedyEdgeStep w maxC) ⟨[], []⟩
  let acc := shuffled.foldl (placeLooseStep m sym w maxC allowFree ids) (st0, [])
  if acc.1.groups.any (fun g => groupNodeWeightSum g w < minC) then
    mergeSmallGroups acc.1.groups w minC maxC allowFree acc.2
  else some ⟨acc.1.groups, acc.2⟩

/-- Edge phase step of solver.js `greedyBuildWithFixed`. -/
def greedyFixedEdgeStep (w : String → Rat) (maxC : Rat) (freeSet : List String)
    (st : GBState) (e : Edge) : GBState :=
  if e.a ∈ st.assigned ∧ e.b ∈ st.assigned then st
  else
    let inG : Option String :=
      if e.a ∈ st.assigned then some e.a else if e.b ∈ st.assigned then some e.b else none
    match inG with
    | some inGroup =>
        let outside := if inGroup = e.a then e.b else e.a
        match tryAppendToGroupContaining w maxC inGroup outside st.groups with
        | some gs => ⟨gs, st.assigned ++ [outside]⟩
        | none => st
    | none =>
        if e.a ∈ freeSet ∧ e.b ∈ freeSet ∧ w e.a + w e.b ≤ maxC then
          ⟨st.groups ++ [[e.a, e.b]], st.assigned ++ [e.a, e.b]⟩
        else st

/-- solver.js `greedyBuildWithFixed`. -/
def greedyBuildWithFixed (freeIds : List String) (fixedGroups : List (List String))
    (w : String → Rat) (m : ObjMap) (minC maxC : Rat) (seed : Nat) (allowFree sym : Bool) :
    Option GreedyResult :=
  let groups0 := fixedGroups
  let assigned0 := fixedGroups.flatten
  let allIds := firstDedup (freeIds ++ assigned0)
  let edges := sortEdgesDesc (buildEdges m sym allIds)
  let st0 := edges.foldl (greedyFixedEdgeStep w maxC freeIds) ⟨groups0, assigned0⟩
  let shuffledFree := shuffleWithSeed freeIds (seed + 1000)
  let acc := shuffledFree.foldl (placeLooseStep m sym w maxC allowFree allIds) (st0, [])
  if acc.1.groups.any (fun g => groupNodeWeightSum g w < minC) then
    mergeSmallGroupsWithFixed acc.1.groups w minC maxC allowFree acc.2 fixedGroups
  else some ⟨acc.1.groups, acc.2⟩

/-- JS `arr.map((x, idx) => ...)` helper, indices from `i`. -/
def jsMapIdxAux (f : Nat → α → β) : Nat → List α → List β
  | _, [] => []
  | i, x :: xs => f i x :: jsMapIdxAux f (i + 1) xs

/-- JS `arr.map((x, idx) => ...)`. -/
def jsMapIdx (f : Nat → α → β) (l : List α) : List β := jsMapIdxAux f 0 l

/-- Local-search state: the current best groups, free list and total. -/
structure LS where
  best : List (List String)
  bestFree : List String
  bestTotal : Rat
deriving DecidableEq, Repr

/-- The `fixedGroupsParam` argument of solver.js `localSearch`.  The solver
passes the number `0` on the no-fixed-groups path and the fixed-group array
on the other path, so only these two shapes are modelled. -/
inductive FixedArg where
  | num : Int → FixedArg
  | arr : List (List String) → FixedArg
deriving DecidableEq, Repr

/-- JS `nodeToFixedGroup.get(id)`: the `Map` is filled per fixed group in
order, so a duplicated id maps to the last fixed group containing it. -/
def nodeToFixedGroup (fgs : List (List String)) (id : String) : Option (List String) :=
  (fgs.filter (fun fg => id ∈ fg)).getLast?

/-- Body of one `gj` iteration of the relocate scan (solver.js lines
589–637).  Returns the updated state and whether this step set `improved`.
`.error` models the `TypeError` of reading `best[gi]` after an acceptance
shrank `best` below `gi` (the JS loop keeps running on the mutated array). -/
def relocStep (m : ObjMap) (sym : Bool) (w : String → Rat) (minC maxC : Rat)
    (nodesToMove : List String) (gi j : Nat) (st : LS) : Except String (LS × Bool) :=
  if gi = j then .ok (st, false)
  else
    match st.best.get? gi with
    | none => .error "TypeError: Cannot read properties of undefined"
    | some src =>
      match st.best.get? j with
      | none => .ok (st, false)
      | some dst =>
        let srcAfter := src.filter (fun id => id ∉ nodesToMove)
        let dstAfter := dst ++ nodesToMove
        if srcAfter.length > 0 then
          let srcSum := groupNodeWeightSum srcAfter w
          let dstSum := groupNodeWeightSum dstAfter w
          if srcSum < minC ∨ dstSum > maxC then .ok (st, false)
          else
            let candidate := jsMapIdx (fun idx g =>
              if idx = gi then srcAfter else if idx = j then dstAfter else g) st.best
            let total := solutionTotalWeight candidate m sym
            if total > st.bestTotal then .ok (⟨candidate, st.bestFree, total⟩, true)
            else .ok (st, false)
        else
          let removed := st.best.eraseIdx gi
          let adjustedGj := if j > gi then j - 1 else j
          let candidate := jsMapIdx (fun idx g => if idx = adjustedGj then dstAfter else g) removed
          let dstSum := groupNodeWeightSum dstAfter w
          if dstSum > maxC then .ok (st, false)
          else if candidate.any (fun g =>
              groupNodeWeightSum g w < minC ∨ groupNodeWeightSum g w > maxC) then .ok (st, false)
          else
            let total := solutionTotalWeight candidate m sym
            if total > st.bestTotal then .ok (⟨candidate, st.bestFree, total⟩, true)
            else .ok (st, false)

/-- The `gj` loop of the relocate scan.  `best` never grows during it, so
fuel `st.best.length + 1` always reaches the loop exit. -/
def gjLoop (m : ObjMap) (sym : Bool) (w : String → Rat) (minC maxC : Rat)
    (nodesToMove : List String) (gi : Nat) :
    Nat → Nat → LS → Bool → Except String (LS × Bool)
  | 0, _, st, impr => .ok (st, impr)
  | fuel + 1, j, st, impr =>
      if j < st.best.length then
        match relocStep m sym w minC maxC nodesToMove gi j st with
        | .error e => .error e
        | .ok (st2, acc) => gjLoop m sym w minC maxC nodesToMove gi fuel (j + 1) st2 (impr || acc)
      else .ok (st, impr)

/-- The `ni` loop of the relocate scan (solver.js lines 582–675).  After the
`gj` loop, the source evaluates `allowFreeNodes && gi >= numFixed` where
`numFixed` is not in scope (it is local to `computeGroups`), so with
`allowFreeNodes` set this raises a `ReferenceError`; the whole
move-node-to-free block it guards is unreachable.  `ni` only advances while
no move was accepted, so `best` is unchanged along it and the group length
bounds the iterations. -/
def niLoop (m : ObjMap) (sym : Bool) (w : String → Rat) (minC maxC : Rat)
    (allowFree : Bool) (fgs : List (List String)) (gi : Nat) :
    Nat → Nat → LS → Except String (LS × Bool)
  | 0, _, st => .ok (st, false)
  | fuel + 1, ni, st =>
      match st.best.get? gi with
      | none => .error "TypeError: Cannot read properties of undefined"
      | some g =>
        if hni : ni < g.length then
          let node := g[ni]
          let fixedGroup := nodeToFixedGroup fgs node
          let nodesToMove := match fixedGroup with
            | some fg => fg.filter (fun id => id ∈ g)
            | none => [node]
          let skip : Bool := match fixedGroup with
            | some fg => nodesToMove.length ≠ fg.length
            | none => false
          if skip ∨ nodesToMove.length = 0 then
            niLoop m sym w minC maxC allowFree fgs gi fuel (ni + 1) st
          else
            match gjLoop m sym w minC maxC nodesToMove gi (st.best.length + 1) 0 st false with
            | .error e => .error e
            | .ok (st2, impr) =>
                if allowFree then .error "ReferenceError: numFixed is not defined"
                else if impr then .ok (st2, true)
                else niLoop m sym w minC maxC allowFree fgs gi fuel (ni + 1) st2
        else .ok (st, false)

/-- The `gi` loop of the relocate scan; `gi` only advances while nothing
improved, so `best` is unchanged along it. -/
def giLoop (m : ObjMap) (sym : Bool) (w : String → Rat) (minC maxC : Rat)
    (allowFree : Bool) (fgs : List (List String)) :
    Nat → Nat → LS → Except String (LS × Bool)
  | 0, _, st => .ok (st, false)
  | fuel + 1, gi, st =>
      if gi < st.best.length then
        let glen := (((st.best.get? gi).map List.length).getD 0)
        match niLoop m sym w minC maxC allowFree fgs gi (glen + 1) 0 st with
        | .error e => .error e
        | .ok (st2, impr) =>
            if impr then .ok (st2, true)
            else giLoop m sym w minC maxC allowFree fgs fuel (gi + 1) st2
      else .ok (st, false)

/-- Inner `gj` loop of the move-free-node-into-group phase (solver.js lines
683–696); runs only while nothing improved. -/
def freeGjLoop (m : ObjMap) (sym : Bool) (w : String → Rat) (maxC : Rat)
    (node : String) (fi : Nat) : Nat → Nat → LS → LS × Bool
  | 0, _, st => (st, false)
  | fuel + 1, j, st =>
      if hj : j < st.best.length then
        let dstAfter := st.best[j] ++ [node]
        if groupNodeWeightSum dstAfter w > maxC then
          freeGjLoop m sym w maxC node fi fuel (j + 1) st
        else
          let candidate := jsMapIdx (fun idx g => if idx = j then dstAfter else g) st.best
          let total := solutionTotalWeight candidate m sym
          if total > st.bestTotal then
            (⟨candidate, st.bestFree.eraseIdx fi, total⟩, true)
          else freeGjLoop m sym w maxC node fi fuel (j + 1) st
      else (st, false)

/-- Outer `fi` loop of the move-free-node-into-group phase (solver.js lines
681–697). -/
def freeFiLoop (m : ObjMap) (sym : Bool) (w : String → Rat) (maxC : Rat) :
    Nat → Nat → LS → LS × Bool
  | 0, _, st => (st, false)
  | fuel + 1, fi, st =>
      if hfi : fi < st.bestFree.length then
        let node := st.bestFree[fi]
        let r := freeGjLoop m sym w maxC node fi (st.best.length + 1) 0 st
        if r.2 then (r.1, true)
        else freeFiLoop m sym w maxC fuel (fi + 1) r.1
      else (st, false)

/-- One iteration of the `for (iter …)` loop of solver.js `localSearch`.
If neither the relocate scan nor the free-node phase improves, control
reaches the swap phase `for (let gi = numFixed; …)`, whose initializer reads
the undeclared `numFixed` and raises a `ReferenceError`; so an iteration
either returns an improved state or raises. -/
def lsIteration (m : ObjMap) (sym : Bool) (w : String → Rat) (minC maxC : Rat)
    (allowFree : Bool) (fgs : List (List String)) (st : LS) : Except String LS :=
  match giLoop m sym w minC maxC allowFree fgs (st.best.length + 1) 0 st with
  | .error e => .error e
  | .ok (st1, impr1) =>
      if impr1 then .ok st1
      else
        let r := if allowFree ∧ st1.bestFree.length > 0 then
            freeFiLoop m sym w maxC (st1.bestFree.length + 1) 0 st1
          else (st1, false)
        if r.2 then .ok r.1
        else .error "ReferenceError: numFixed is not defined"

/-- The bounded iteration loop (`iter < 200 && improved`); an iteration that
finds no improvement raises inside `lsIteration`, so reaching fuel 0 models
the 200-iteration exit. -/
def lsLoop (m : ObjMap) (sym : Bool) (w : String → Rat) (minC maxC : Rat)
    (allowFree : Bool) (fgs : List (List String)) : Nat → LS → Except String LS
  | 0, st => .ok st
  | fuel + 1, st =>
      match lsIteration m sym w minC maxC allowFree fgs st with
      | .error e => .error e
      | .ok st2 => lsLoop m sym w minC maxC allowFree fgs fuel st2

/-- solver.js `localSearch`.  When the caller passes the number `0` as
`fixedGroupsParam` (the no-fixed-groups path of `computeGroups` does), the
very first statement `for (const fg of fixedGroupsParam)` raises a
`TypeError`, because a number is not iterable. -/
def localSearch (initialGroups : List (List String)) (initialFreeNodes : List String)
    (_ids : List String) (w : String → Rat) (m : ObjMap) (minC maxC : Rat)
    (allowFree sym : Bool) (fixedGroupsParam : FixedArg) : Except String GreedyResult :=
  match fixedGroupsParam with
  | .num _ => .error "TypeError: fixedGroupsParam is not iterable"
  | .arr fgs =>
      let st0 : LS := ⟨initialGroups, initialFreeNodes,
        solutionTotalWeight initialGroups m sym⟩
      match lsLoop m sym w minC maxC allowFree fgs 200 st0 with
      | .error e => .error e
      | .ok st => .ok ⟨st.best, st.bestFree⟩

/-- The effective fixed groups of `computeGroups`: drop non-empty-ness and
unknown ids exactly as the source does (`rawFixedGroups.filter(g => g.length
> 0).map(g => g.filter(id => idSet.has(id))).filter(g => g.length > 0)`; the
`Array.isArray` test is vacuous under this typing). -/
def effectiveFixedGroups (ids : List String) (raw : List (List String)) :
    List (List String) :=
  ((raw.filter (fun g => g ≠ [])).map (fun g => g.filter (fun id => id ∈ ids))).filter
    (fun g => g ≠ [])

/-- The small-instance test of `computeGroups`:
`ids.length <= (allowFreeNodes ? 12 : 16)`. -/
def isSmallInstance (ids : List String) (allowFree : Bool) : Bool :=
  ids.length ≤ (if allowFree then 12 else 16)

/-- One restart of the no-fixed-groups path of `computeGroups` (lines
178–188): greedy build, register, then local search — which the source calls
with `0` as `fixedGroupsParam`, so a successful greedy build always ends in
a thrown `TypeError`. -/
def seedStep (nodes : List Node) (m : ObjMap) (minC maxC : Rat) (opts : Options)
    (ids : List String) (arch : Archive) (seed : Nat) : Except String Archive :=
  let w := nodesByIdWeight nodes
  match greedyBuild ids w m minC maxC seed opts.allowFreeNodes opts.symmetricLinks with
  | none => .ok arch
  | some res =>
      let arch1 := addSolution opts m w ids.length arch res.groups res.freeNodes
      match localSearch res.groups res.freeNodes ids w m minC maxC
          opts.allowFreeNodes opts.symmetricLinks (FixedArg.num 0) with
      | .error e => .error e
      | .ok improved => .ok (addSolution opts m w ids.length arch1 improved.groups improved.freeNodes)

/-- One restart of the fixed-groups path of `computeGroups` (lines 190–200). -/
def seedStepFixed (nodes : List Node) (m : ObjMap) (minC maxC : Rat) (opts : Options)
    (ids freeIds : List String) (fixedGroups : List (List String))
    (arch : Archive) (seed : Nat) : Except String Archive :=
  let w := nodesByIdWeight nodes
  match greedyBuildWithFixed freeIds fixedGroups w m minC maxC seed
      opts.allowFreeNodes opts.symmetricLinks with
  | none => .ok arch
  | some res =>
      let arch1 := addSolution opts m w ids.length arch res.groups res.freeNodes
      match localSearch res.groups res.freeNodes ids w m minC maxC
          opts.allowFreeNodes opts.symmetricLinks (FixedArg.arr fixedGroups) with
      | .error e => .error e
      | .ok improved => .ok (addSolution opts m w ids.length arch1 improved.groups improved.freeNodes)

/-- The search phase of `computeGroups`: exhaustive registration on small
no-fixed instances, then the 20 seeded restarts. -/
def solveArchive (nodes : List Node) (m : ObjMap) (minC maxC : Rat) (opts : Options)
    (ids : List String) (fixedGroups : List (List String)) : Except String Archive :=
  let w := nodesByIdWeight nodes
  if fixedGroups.length = 0 then
    let arch0 :=
      if isSmallInstance ids opts.allowFreeNodes then
        (exhaustiveCands ids w minC maxC opts.allowFreeNodes).foldl
          (fun st c => addSolution opts m w ids.length st c.groups c.free) archEmpty
      else archEmpty
    (List.range 20).foldlM (seedStep nodes m minC maxC opts ids) arch0
  else
    let freeIds := ids.filter (fun id => id ∉ fixedGroups.flatten)
    (List.range 20).foldlM (seedStepFixed nodes m minC maxC opts ids freeIds fixedGroups) archEmpty

/-- The final shaping of `computeGroups`: prune, optional re-sort, and the
`optimal` flag (computed from the pruned list). -/
def finishSolve (m : ObjMap) (opts : Options) (isSmall : Bool) (numFixed : Nat)
    (arch : Archive) : List Solution × Option Bool :=
  let sols1 := pruneWastefulSolutions m opts.symmetricLinks arch.sols
  let sols2 := if opts.balanceGroupWeightsFactor > 0 then
      sortSolutionsDesc (solutionScore opts) sols1
    else sols1
  (sols2, some (isSmall && numFixed == 0 && decide (sols2.length > 0)))

/-- The result object of `computeGroups`.  The two early error returns build
`{solutions: [], errors}` without an `optimal` property, which is modelled
by `optimal = none` (JS `undefined`). -/
structure SolveResult where
  solutions : List Solution
  optimal : Option Bool
  errors : List String
deriving DecidableEq, Repr

/-- solver.js `computeGroups`.  A `.error` result models an uncaught
run-time exception escaping the call. -/
def computeGroups (nodes : List Node) (linkMatrix : ObjMap) (minC maxC : Rat)
    (opts : Options) : Except String SolveResult :=
  let errors := validate nodes linkMatrix minC maxC
  if errors.length > 0 then .ok ⟨[], none, errors⟩
  else
    let ids := nodes.map (·.id)
    let w := nodesByIdWeight nodes
    let fixedGroups := effectiveFixedGroups ids opts.fixedGroups
    if ¬ fixedGroups.flatten.Nodup then
      .ok ⟨[], none, ["Fixed groups must not contain duplicate nodes."]⟩
    else if fixedGroups.any (fun g => groupNodeWeightSum g w > maxC) then
      .ok ⟨[], none, ["A fixed group exceeds maximum combined weight."]⟩
    else
      match solveArchive nodes linkMatrix minC maxC opts ids fixedGroups with
      | .error e => .error e
      | .ok arch =>
          let fin := finishSolve linkMatrix opts (isSmallInstance ids opts.allowFreeNodes)
            fixedGroups.length arch
          .ok ⟨fin.1, fin.2, []⟩

/-- A `{from, to, linkWeight}` record (`from` is a Lean keyword, so the
fields are named `src`/`dst`). -/
structure LinkRec where
  src : String
  dst : String
  linkWeight : Rat
deriving DecidableEq, Repr

/-- solver.js `buildLinkMatrix`: fold the records into the string-keyed
object under the template key `from|to`. -/
def buildLinkMatrix (linkWeights : List LinkRec) : ObjMap :=
  linkWeights.foldl (fun mtx r => objSet mtx (linkKey r.src r.dst) r.linkWeight) []

/-- JS `String.prototype.split` with a one-character separator, on the
character list. -/
def splitCharList (c : Char) : List Char → List (List Char)
  | [] => [[]]
  | x :: xs =>
      if x = c then [] :: splitCharList c xs
      else
        match splitCharList c xs with
        | [] => [[x]]
        | h :: t => (x :: h) :: t

/-- JS `key.split('|')`. -/
def jsSplitChar (c : Char) (s : String) : List String :=
  (splitCharList c s.data).map (fun l => String.mk l)

/-- solver.js `matrixToList`.  The destructuring `const [from, to] =
key.split('|')` keeps only the first two fragments; a key with no `'|'`
leaves `to` as JS `undefined`, which later stringifies as `"undefined"`,
modelled by that default. -/
def matrixToList (linkMatrix : ObjMap) : List LinkRec :=
  linkMatrix.map (fun p =>
    let parts := jsSplitChar '|' p.1
    ⟨(parts.head?).getD "", (parts.get? 1).getD "undefined", p.2⟩)

deriving instance DecidableEq for Except

/-- Concrete solver input: one node of weight 10 (the shape of the test
suite's `single node` case). -/
def nodesOne : List Node := [⟨"a", 10⟩]

/-- Concrete 4-node instance: weights 2, 2, 5, 5; bounds `[7, 7]`; links
`a-b: 10`, `a-c: 8`, `a-d: 2`, `b-c: 1`.  Every greedy restart pairs `a, b`
(weight 4) and then cannot repair, so all 20 restarts are discarded and
`computeGroups` returns the exhaustive solutions. -/
def nodesFour : List Node := [⟨"a", 2⟩, ⟨"b", 2⟩, ⟨"c", 5⟩, ⟨"d", 5⟩]

/-- Link table of the 4-node instance. -/
def linksFour : ObjMap := [("a|b", 10), ("a|c", 8), ("a|d", 2), ("b|c", 1)]

/-- Options carrying a fixed group whose only id is not a node id, so the
effective fixed-group list is empty. -/
def optsPhantomFixed : Options := ⟨false, true, 0, 0, [["z"]]⟩

/-- The result `computeGroups` returns on the 4-node instance: the
exhaustive search registers `{a,c},{b,d}` (totalWeight 8, wasteful: `b` and
`d` are not linked) and `{a,d},{b,c}` (totalWeight 3, non-wasteful); the
wasteful filter then removes the better one. -/
def resultFour : SolveResult :=
  ⟨[⟨[["a","d"],["b","c"]], [], 3, [⟨["a","d"],7,2⟩, ⟨["b","c"],7,1⟩]⟩], some true, []⟩

/-- Weight map of the two-node fixed-group repair counterexample. -/
def wFix : String → Rat := nodesByIdWeight [⟨"f", 1⟩, ⟨"x", 2⟩]

/-- The claim-C4 comparison predicate: `gs, free` is a partition of `ids`
into non-empty groups whose node-weight sums lie within the bounds. -/
def validPartition (ids : List String) (w : String → Rat) (minC maxC : Rat)
    (gs : List (List String)) (free : List String) : Prop :=
  (gs.flatten ++ free).Perm ids ∧
  (∀ g ∈ gs, g ≠ []) ∧
  (∀ g ∈ gs, minC ≤ groupNodeWeightSum g w ∧ groupNodeWeightSum g w ≤ maxC)

/-- Wastefulness of a raw group list (matching `isWasteful` on the group
details built from it): some group of size above one has a member with zero
resolved link to every other member. -/
def wastefulGroups (m : ObjMap) (sym : Bool) (gs : List (List String)) : Prop :=
  ∃ g ∈ gs, 1 < g.length ∧
    ∃ id ∈ g, ∀ other ∈ g, other = id ∨ getLinkWeight m id other sym = 0

/-- Key-injectivity of a candidate list: distinct enumerated candidates have
distinct canonical keys.  This holds for all sane node-id alphabets (ids
free of `','` and `'|'`); it is decidable on any concrete instance. -/
def KeysInjective (cs : List Cand) : Prop :=
  ∀ c ∈ cs, ∀ d ∈ cs, solutionKey c.groups c.free = solutionKey d.groups d.free → c = d

/-- Equality of group lists up to group order and member order: a middle
list matches the first groupwise by member permutation and is a permutation
of the second. -/
def groupsEquiv (gs1 gs2 : List (List String)) : Prop :=
  ∃ mid, List.Forall₂ (fun a b => a.Perm b) gs1 mid ∧ mid.Perm gs2

/-- Options with `symmetricLinks` off and everything else at the solver's
defaults (used to exercise the `ab + ba` pair-weight mode, which is
symmetric in `a, b` for every link table). -/
def optsAsym : Options := ⟨false, false, 0, 0, []⟩

/-- The archive property tracked by the optimality argument, for a reference
score `thr`: some retained non-wasteful solution scores at least `thr`, or
the archive is full (10 entries) and every retained solution scores at least
`thr`. -/
def archOmega (opts : Options) (m : ObjMap) (thr : Rat) (arch : Archive) : Prop :=
  (∃ s ∈ arch.sols, isWastefulSolution m opts.symmetricLinks s = false ∧
    thr ≤ solutionScore opts s) ∨
  (arch.sols.length = 10 ∧ ∀ s ∈ arch.sols, thr ≤ solutionScore opts s)


/-! ### Helper lemmas -/

theorem localSearch_num_error (gs : List (List String)) (free ids : List String)
    (w : String → Rat) (m : ObjMap) (minC maxC : Rat) (af sym : Bool) (k : Int) :
    localSearch gs free ids w m minC maxC af sym (FixedArg.num k)
      = .error "TypeError: fixedGroupsParam is not iterable" := rfl

theorem seedStep_ok (nodes : List Node) (m : ObjMap) (minC maxC : Rat) (opts : Options)
    (ids : List String) (arch arch2 : Archive) (seed : Nat)
    (h : seedStep nodes m minC maxC opts ids arch seed = .ok arch2) :
    arch2 = arch ∧
      greedyBuild ids (nodesByIdWeight nodes) m minC maxC seed
        opts.allowFreeNodes opts.symmetricLinks = none := by
  cases hg : greedyBuild ids (nodesByIdWeight nodes) m minC maxC seed
      opts.allowFreeNodes opts.symmetricLinks with
  | none =>
      simp only [seedStep, hg] at h
      exact ⟨(Except.ok.injEq _ _ ▸ h).symm, rfl⟩
  | some res =>
      simp only [seedStep, hg, localSearch_num_error] at h
      exact Except.noConfusion h

theorem foldlM_except_inv {α β : Type} (f : α → β → Except String α) (P : α → Prop)
    (hf : ∀ a b a', P a → f a b = .ok a' → P a') :
    ∀ (l : List β) (a a' : α), P a → l.foldlM f a = .ok a' → P a'
  | [], a, a', hP, h => by
      simp only [List.foldlM_nil] at h
      cases h
      exact hP
  | b :: bs, a, a', hP, h => by
      simp only [List.foldlM_cons] at h
      cases hfa : f a b with
      | error e =>
          rw [hfa] at h
          simp only [bind, Except.bind] at h
          exact Except.noConfusion h
      | ok a1 =>
          rw [hfa] at h
          simp only [bind, Except.bind] at h
          exact foldlM_except_inv f P hf bs a1 a' (hf a b a1 hP hfa) h

theorem computeGroups_ok_cases (nodes : List Node) (m : ObjMap) (minC maxC : Rat)
    (opts : Options) (r : SolveResult)
    (h : computeGroups nodes m minC maxC opts = .ok r) :
    (r.errors ≠ [] ∧ r.solutions = [] ∧ r.optimal = none) ∨
    (r.errors = [] ∧ ∃ arch,
      solveArchive nodes m minC maxC opts (nodes.map (·.id))
        (effectiveFixedGroups (nodes.map (·.id)) opts.fixedGroups) = .ok arch ∧
      r.solutions = (finishSolve m opts (isSmallInstance (nodes.map (·.id)) opts.allowFreeNodes)
        (effectiveFixedGroups (nodes.map (·.id)) opts.fixedGroups).length arch).1 ∧
      r.optimal = (finishSolve m opts (isSmallInstance (nodes.map (·.id)) opts.allowFreeNodes)
        (effectiveFixedGroups (nodes.map (·.id)) opts.fixedGroups).length arch).2) := by
  unfold computeGroups at h
  by_cases h1 : (validate nodes m minC maxC).length > 0
  · rw [if_pos h1] at h
    cases h
    left
    refine ⟨?_, rfl, rfl⟩
    show validate nodes m minC maxC ≠ []
    intro he
    rw [he] at h1
    simp at h1
  · rw [if_neg h1] at h
    by_cases h2 : ¬ (effectiveFixedGroups (nodes.map (·.id)) opts.fixedGroups).flatten.Nodup
    · rw [if_pos h2] at h
      cases h
      exact Or.inl ⟨by simp, rfl, rfl⟩
    · rw [if_neg h2] at h
      by_cases h3 : (effectiveFixedGroups (nodes.map (·.id)) opts.fixedGroups).any
          (fun g => groupNodeWeightSum g (nodesByIdWeight nodes) > maxC)
      · rw [if_pos h3] at h
        cases h
        exact Or.inl ⟨by simp, rfl, rfl⟩
      · rw [if_neg h3] at h
        cases harch : solveArchive nodes m minC maxC opts (nodes.map (·.id))
            (effectiveFixedGroups (nodes.map (·.id)) opts.fixedGroups) with
        | error e => rw [harch] at h; cases h
        | ok arch =>
            rw [harch] at h
            cases h
            exact Or.inr ⟨rfl, arch, rfl, rfl, rfl⟩

/-! ### Claim C1 -/

/-- C1: the claim states that on every input passing validation and the
fixed-group checks, `computeGroups` runs to completion and returns a
`{solutions, optimal, errors}` object with no run-time error.  The code
contradicts it: on the valid single-node input (node weight 10, bounds
`[5, 15]` — exactly the test suite's `single node` case, which asserts
`solutions.length > 0`), the greedy restart succeeds and `computeGroups`
then calls `localSearch` with the number `0` as `fixedGroupsParam`; the
statement `for (const fg of fixedGroupsParam)` raises
`TypeError: 0 is not iterable`, which escapes `computeGroups` uncaught.
(Had it got further, the local search also reads the undeclared variable
`numFixed`.)  The spec and the test suite document the no-exception intent,
so the code is at fault. -/
theorem C1_computeGroups_raises_on_valid_input :
    computeGroups nodesOne [] 5 15 defaultOptions
      = .error "TypeError: fixedGroupsParam is not iterable" := by decide

/-! ### Claim C6 -/

/-- C6 counterexample: on the empty node list `computeGroups` returns a
result with non-empty `errors` whose `optimal` field is absent (JS
`undefined`, modelled as `none`) rather than the boolean `false` that the
claim asserts: the early error returns build `{solutions: [], errors}`
without an `optimal` property. -/
theorem C6_counterexample :
    computeGroups [] [] 0 100 defaultOptions
        = .ok ⟨[], none, ["At least one node is required."]⟩ ∧
    (⟨[], none, ["At least one node is required."]⟩ : SolveResult).errors ≠ [] ∧
    (⟨[], none, ["At least one node is required."]⟩ : SolveResult).optimal ≠ some false :=
  ⟨by decide, by decide, by decide⟩

/-- C6 (amended): whenever `computeGroups` returns a result with a non-empty
`errors` list, the `solutions` list is empty and the `optimal` flag is
absent (JS `undefined` — falsy, but not the boolean `false`). -/
theorem C6_errors_imply_empty_solutions (nodes : List Node) (m : ObjMap)
    (minC maxC : Rat) (opts : Options) (r : SolveResult)
    (hok : computeGroups nodes m minC maxC opts = .ok r)
    (herr : r.errors ≠ []) : r.solutions = [] ∧ r.optimal = none := by
  rcases computeGroups_ok_cases nodes m minC maxC opts r hok with
    ⟨_, hs, ho⟩ | ⟨he, _⟩
  · exact ⟨hs, ho⟩
  · exact absurd he herr

/-- C6 witness: the amended theorem applied to the empty-node-list input. -/
theorem C6_witness :
    (⟨[], none, ["At least one node is required."]⟩ : SolveResult).solutions = [] ∧
    (⟨[], none, ["At least one node is required."]⟩ : SolveResult).optimal = none :=
  C6_errors_imply_empty_solutions [] [] 0 100 defaultOptions
    ⟨[], none, ["At least one node is required."]⟩ (by decide) (by decide)

/-! ### Claim C9 -/

theorem finishSolve_snd (m : ObjMap) (opts : Options) (isSmall : Bool) (numFixed : Nat)
    (arch : Archive) :
    (finishSolve m opts isSmall numFixed arch).2
      = some (isSmall && numFixed == 0 && decide ((finishSolve m opts isSmall numFixed arch).1.length > 0)) := rfl

/-- C9 counterexample: the claim says `optimal = true` implies the call had
no fixed groups.  But `computeGroups` filters the supplied fixed groups
against the node-id set before counting them: a call whose `fixedGroups`
option is the non-empty `[["z"]]` (with `"z"` not a node id) still runs the
exhaustive no-fixed-groups path and returns `optimal = true`. -/
theorem C9_counterexample :
    computeGroups nodesFour linksFour 7 7 optsPhantomFixed = .ok resultFour ∧
    resultFour.optimal = some true ∧
    optsPhantomFixed.fixedGroups ≠ [] :=
  ⟨by decide, by decide, by decide⟩

/-- C9 (amended): if `computeGroups` returns `optimal = true` then the
effective fixed-group list (after discarding empty groups and ids that are
not node ids) is empty, the node count is at most 16 (12 when
`allowFreeNodes`), and at least one solution is returned; `optimal` is
computed only on the exhaustive-capable path, never from greedy or local
search results alone. -/
theorem C9_optimal_implies_exhaustive (nodes : List Node) (m : ObjMap)
    (minC maxC : Rat) (opts : Options) (r : SolveResult)
    (hok : computeGroups nodes m minC maxC opts = .ok r)
    (hopt : r.optimal = some true) :
    effectiveFixedGroups (nodes.map (·.id)) opts.fixedGroups = [] ∧
    nodes.length ≤ (if opts.allowFreeNodes then 12 else 16) ∧
    r.solutions ≠ [] := by
  rcases computeGroups_ok_cases nodes m minC maxC opts r hok with
    ⟨_, _, ho⟩ | ⟨_, arch, _, hs, ho⟩
  · rw [ho] at hopt; exact absurd hopt (by simp)
  · rw [finishSolve_snd] at ho
    rw [ho] at hopt
    have hb := Option.some.injEq _ _ ▸ hopt
    simp only [Bool.and_eq_true, beq_iff_eq, decide_eq_true_eq] at hb
    obtain ⟨⟨hsmall, hzero⟩, hlen⟩ := hb
    refine ⟨List.length_eq_zero.mp hzero, ?_, ?_⟩
    · have := hsmall
      unfold isSmallInstance at this
      simpa [List.length_map] using this
    · rw [hs]
      exact List.length_pos.mp hlen

/-- C9 witness: the amended theorem applied to the plain 4-node instance,
whose result is `optimal = some true` with one solution. -/
theorem C9_witness :
    effectiveFixedGroups (nodesFour.map (·.id)) defaultOptions.fixedGroups = [] ∧
    nodesFour.length ≤ (if defaultOptions.allowFreeNodes then 12 else 16) ∧
    resultFour.solutions ≠ [] :=
  C9_optimal_implies_exhaustive nodesFour linksFour 7 7 defaultOptions resultFour
    (by decide) (by decide)

/-! ### Claim C7 -/

theorem mergeScan_fixed_free_spec (w : String → Rat) (minC maxC : Rat) (af : Bool)
    (s : List String) (merged : List (List String)) (fr : List String) :
    ∀ (fuel i : Nat) (m2 : List (List String)) (fr2 : List String),
      mergeScan w minC maxC af (some s) merged fr fuel i = some (m2, fr2) →
      fr2 = fr ∨ ∃ gi : List String, fr2 = fr ++ gi ∧ ∀ id ∈ gi, id ∉ s
  | 0, i, m2, fr2, h => by simp [mergeScan] at h
  | fuel + 1, i, m2, fr2, h => by
      rw [mergeScan] at h
      dsimp only at h
      split at h
      · split at h
        · exact mergeScan_fixed_free_spec w minC maxC af s merged fr fuel (i + 1) m2 fr2 h
        · split at h
          · cases h
            exact Or.inl rfl
          · split at h
            · rename_i hcond
              cases h
              refine Or.inr ⟨_, rfl, ?_⟩
              intro id hid hmem
              have hany := hcond.2
              rw [List.any_eq_false] at hany
              exact hany id hid (by simpa using hmem)
            · exact mergeScan_fixed_free_spec w minC maxC af s merged fr fuel (i + 1) m2 fr2 h
      · exact Option.noConfusion h

theorem mergeLoop_fixed_free_inv (w : String → Rat) (minC maxC : Rat) (af : Bool)
    (s : List String) :
    ∀ (fuel : Nat) (st : List (List String) × List String) (id : String),
      id ∈ (mergeLoop w minC maxC af (some s) fuel st).2 → id ∈ st.2 ∨ id ∉ s
  | 0, st, id, h => Or.inl h
  | fuel + 1, (merged, fr), id, h => by
      rw [mergeLoop] at h
      cases hscan : mergeScan w minC maxC af (some s) merged fr (merged.length + 1) 0 with
      | none => rw [hscan] at h; exact Or.inl h
      | some st2 =>
          rw [hscan] at h
          rcases mergeLoop_fixed_free_inv w minC maxC af s fuel st2 id h with h2 | h2
          · rcases mergeScan_fixed_free_spec w minC maxC af s merged fr
                (merged.length + 1) 0 st2.1 st2.2 (by rw [hscan]) with he | ⟨gi, he, hgi⟩
            · rw [he] at h2; exact Or.inl h2
            · rw [he] at h2
              rcases List.mem_append.mp h2 with h3 | h3
              · exact Or.inl h3
              · exact Or.inr (hgi id h3)
          · exact Or.inr h2

/-- C7 counterexample: the claim says the fixed-group-aware repair pass
never involves a fixed-group-overlapping group in a merge.  But the merge
branch of `mergeSmallGroupsWithFixed` has no fixed-group test (only the
freeing branch does): with fixed group `["f"]` (weight 1), a second group
`["x"]` (weight 2) and bounds `[3, 10]`, the under-minimum fixed group is
merged with `["x"]` and leaves repair as `["f", "x"]`, not with exactly its
original members. -/
theorem C7_counterexample :
    mergeSmallGroupsWithFixed [["f"], ["x"]] wFix 3 10 false [] [["f"]]
        = some ⟨[["f", "x"]], []⟩ ∧
    ∃ g ∈ [["f", "x"]], "f" ∈ g ∧ g ≠ ["f"] :=
  ⟨by decide, by decide⟩

/-- C7 (amended): during `mergeSmallGroupsWithFixed`, a group that overlaps
a fixed group's nodes is never freed (the freeing branch tests
`groupHasFixed`), so every id newly added to the free list is a non-fixed
id; but such groups can take part in merges (absorbing or being absorbed),
so a fixed group may leave repair with additional members. -/
theorem C7_fixed_overlapping_groups_never_freed (groups : List (List String))
    (w : String → Rat) (minC maxC : Rat) (allowFree : Bool)
    (freeNodes : List String) (fgs : List (List String)) (res : GreedyResult)
    (hok : mergeSmallGroupsWithFixed groups w minC maxC allowFree freeNodes fgs = some res) :
    ∀ id ∈ res.freeNodes, id ∈ freeNodes ∨ id ∉ fgs.flatten := by
  intro id hid
  unfold mergeSmallGroupsWithFixed at hok
  dsimp only at hok
  split at hok
  · cases hok
    exact mergeLoop_fixed_free_inv w minC maxC allowFree fgs.flatten
      (groups.length + 1) (groups, freeNodes) id hid
  · exact Option.noConfusion hok

/-- C7 witness: the amended theorem applied to a repair run that frees an
under-minimum non-fixed group (`allowFreeNodes` on): the freed id `"x"` is
not a fixed id. -/
theorem C7_witness :
    mergeSmallGroupsWithFixed [["f", "f2"], ["x"]] (nodesByIdWeight [⟨"f", 2⟩, ⟨"f2", 2⟩, ⟨"x", 1⟩])
        3 4 true [] [["f", "f2"]] = some ⟨[["f", "f2"]], ["x"]⟩ ∧
    ("x" ∈ ([] : List String) ∨ "x" ∉ [["f", "f2"]].flatten) :=
  ⟨by decide,
   C7_fixed_overlapping_groups_never_freed [["f", "f2"], ["x"]]
     (nodesByIdWeight [⟨"f", 2⟩, ⟨"f2", 2⟩, ⟨"x", 1⟩]) 3 4 true [] [["f", "f2"]]
     ⟨[["f", "f2"]], ["x"]⟩ (by decide) "x" (by decide)⟩

/-! ### Claim C8 -/

/-- C8 counterexample: the claim says a relocate move that empties its
source group is accepted whenever the new total is greater than or equal to
the old one.  On a concrete score-neutral move (two weight-1 nodes, no
links, bounds `[1, 2]`, moving `"a"` from its singleton group into `["b"]`)
every legality condition of the claim holds and the new total equals the
old, yet the embedded relocate step leaves the state unchanged and reports
no improvement — line 631 of the source tests `total > bestTotal`, strictly. -/
theorem C8_counterexample :
    relocStep [] true (nodesByIdWeight [⟨"a", 1⟩, ⟨"b", 1⟩]) 1 2 ["a"] 0 1
        ⟨[["a"], ["b"]], [], 0⟩ = .ok (⟨[["a"], ["b"]], [], 0⟩, false) ∧
    ["a"].filter (fun id => id ∉ ["a"]) = [] ∧
    solutionTotalWeight [["b", "a"]] [] true ≥ (⟨[["a"], ["b"]], [], 0⟩ : LS).bestTotal ∧
    groupNodeWeightSum (["b"] ++ ["a"]) (nodesByIdWeight [⟨"a", 1⟩, ⟨"b", 1⟩]) ≤ 2 ∧
    (1 : Rat) ≤ groupNodeWeightSum ["b", "a"] (nodesByIdWeight [⟨"a", 1⟩, ⟨"b", 1⟩]) := by
  refine ⟨by decide, by decide, by decide, by decide, by decide⟩

/-- C8 (amended): the group-to-group relocate move with an emptied source
group is accepted exactly when the new total strictly exceeds the old one
(score-neutral moves are rejected); the relaxed `new total ≥ old total`
test of the source exists only in the move-node-to-free branch, which is
unreachable because its guard `allowFreeNodes && gi >= numFixed` reads the
undeclared `numFixed` and raises before the test can run. -/
theorem C8_relocate_empty_source_strict (m : ObjMap) (sym : Bool) (w : String → Rat)
    (minC maxC : Rat) (ntm : List String) (gi j : Nat) (st : LS) (src dst : List String)
    (hne : gi ≠ j)
    (hsrc : st.best.get? gi = some src)
    (hdst : st.best.get? j = some dst)
    (hempty : src.filter (fun id => id ∉ ntm) = [])
    (hmax : ¬ groupNodeWeightSum (dst ++ ntm) w > maxC)
    (hvalid : (jsMapIdx (fun idx g => if idx = (if j > gi then j - 1 else j) then dst ++ ntm else g)
        (st.best.eraseIdx gi)).any
        (fun g => groupNodeWeightSum g w < minC ∨ groupNodeWeightSum g w > maxC) = false) :
    relocStep m sym w minC maxC ntm gi j st =
      (if solutionTotalWeight (jsMapIdx (fun idx g =>
            if idx = (if j > gi then j - 1 else j) then dst ++ ntm else g)
            (st.best.eraseIdx gi)) m sym > st.bestTotal
       then .ok (⟨jsMapIdx (fun idx g =>
              if idx = (if j > gi then j - 1 else j) then dst ++ ntm else g)
              (st.best.eraseIdx gi), st.bestFree,
            solutionTotalWeight (jsMapIdx (fun idx g =>
              if idx = (if j > gi then j - 1 else j) then dst ++ ntm else g)
              (st.best.eraseIdx gi)) m sym⟩, true)
       else .ok (st, false)) := by
  unfold relocStep
  rw [if_neg hne, hsrc, hdst]
  dsimp only
  rw [hempty]
  simp only [List.length_nil, gt_iff_lt, lt_self_iff_false, if_false]
  rw [if_neg hmax, if_neg (by rw [hvalid]; exact Bool.noConfusion)]

/-- C8 witness: the amended theorem applied to a strictly improving
empty-source relocate (link `b→a` of weight 5), which is accepted. -/
theorem C8_witness :
    relocStep [("b|a", 5)] true (nodesByIdWeight [⟨"a", 1⟩, ⟨"b", 1⟩]) 1 2 ["a"] 0 1
        ⟨[["a"], ["b"]], [], 0⟩ = .ok (⟨[["b", "a"]], [], 5⟩, true) :=
  (C8_relocate_empty_source_strict [("b|a", 5)] true (nodesByIdWeight [⟨"a", 1⟩, ⟨"b", 1⟩])
    1 2 ["a"] 0 1 ⟨[["a"], ["b"]], [], 0⟩ ["a"] ["b"]
    (by decide) (by decide) (by decide) (by decide) (by decide) (by decide)).trans (by decide)

/-! ### Claim C10 -/

theorem splitCharList_ne_nil (c : Char) (cs : List Char) : splitCharList c cs ≠ [] := by
  cases cs with
  | nil => simp [splitCharList]
  | cons x xs =>
      rw [splitCharList]
      split
      · simp
      · split
        · simp
        · simp

theorem splitCharList_no_sep (c : Char) (cs : List Char) (h : c ∉ cs) :
    splitCharList c cs = [cs] := by
  induction cs with
  | nil => rfl
  | cons x xs ih =>
      rw [splitCharList, if_neg (by rintro rfl; exact h (List.mem_cons_self x xs))]
      rw [ih (fun hc => h (List.mem_cons_of_mem x hc))]

theorem splitCharList_append (c : Char) (as bs : List Char) (h : c ∉ as) :
    splitCharList c (as ++ c :: bs) = as :: splitCharList c bs := by
  induction as with
  | nil => simp [splitCharList]
  | cons x xs ih =>
      rw [List.cons_append, splitCharList,
        if_neg (by rintro rfl; exact h (List.mem_cons_self x xs))]
      rw [ih (fun hc => h (List.mem_cons_of_mem x hc))]

theorem linkKey_data (a b : String) : (linkKey a b).data = a.data ++ '|' :: b.data := by
  show (a ++ "|" ++ b).data = a.data ++ '|' :: b.data
  rw [String.data_append, String.data_append, List.append_assoc]
  rfl

theorem jsSplitChar_linkKey (a b : String) (ha : '|' ∉ a.data) (hb : '|' ∉ b.data) :
    jsSplitChar '|' (linkKey a b) = [a, b] := by
  unfold jsSplitChar
  rw [linkKey_data, splitCharList_append '|' a.data b.data ha,
    splitCharList_no_sep '|' b.data hb]
  simp

theorem objSet_fresh (m : ObjMap) (k : String) (v : Rat)
    (h : k ∉ m.map Prod.fst) : objSet m k v = m ++ [(k, v)] := by
  unfold objSet
  rw [if_neg]
  intro hc
  rcases List.any_eq_true.mp hc with ⟨p, hp, hpk⟩
  exact h (List.mem_map.mpr ⟨p, hp, by simpa using hpk⟩)

theorem buildLinkMatrix_foldl (l : List LinkRec) :
    ∀ acc : ObjMap,
      (∀ r ∈ l, linkKey r.src r.dst ∉ acc.map Prod.fst) →
      (l.map (fun r => linkKey r.src r.dst)).Nodup →
      l.foldl (fun mtx r => objSet mtx (linkKey r.src r.dst) r.linkWeight) acc
        = acc ++ l.map (fun r => (linkKey r.src r.dst, r.linkWeight)) := by
  induction l with
  | nil => intro acc _ _; simp
  | cons r rest ih =>
      intro acc hfresh hnodup
      rw [List.foldl_cons, objSet_fresh acc _ _ (hfresh r (List.mem_cons_self r rest))]
      rw [List.map_cons, List.nodup_cons] at hnodup
      rw [ih (acc ++ [(linkKey r.src r.dst, r.linkWeight)]) ?_ hnodup.2]
      · simp
      · intro r2 hr2
        rw [List.map_append, List.mem_append]
        rintro (hk | hk)
        · exact hfresh r2 (List.mem_cons_of_mem r hr2) hk
        · simp only [List.map_cons, List.map_nil, List.mem_singleton] at hk
          exact hnodup.1 (hk ▸ List.mem_map.mpr ⟨r2, hr2, hk.symm ▸ rfl⟩)

theorem buildLinkMatrix_eq_map (l : List LinkRec)
    (hnodup : (l.map (fun r => linkKey r.src r.dst)).Nodup) :
    buildLinkMatrix l = l.map (fun r => (linkKey r.src r.dst, r.linkWeight)) := by
  unfold buildLinkMatrix
  rw [buildLinkMatrix_foldl l [] (by simp) hnodup]
  simp

/-- C10 counterexample: the claim asserts the two helpers are lossless
inverses on all sparse link data.  They are not: `buildLinkMatrix` joins
`from` and `to` with the delimiter `'|'`, and `matrixToList` splits on that
same character — a record whose `from` id itself contains `'|'` (here
`{from: "a|b", to: "c"}`) round-trips to a different record
`{from: "a", to: "b"}`. -/
theorem C10_counterexample :
    matrixToList (buildLinkMatrix [⟨"a|b", "c", 1⟩]) = [⟨"a", "b", 1⟩] ∧
    ([⟨"a", "b", (1 : Rat)⟩] : List LinkRec) ≠ [⟨"a|b", "c", 1⟩] :=
  ⟨by decide, by decide⟩

/-- C10 (amended): the helpers are mutually inverse on well-formed data:
for records whose ids contain no `'|'` and whose `(from, to)` keys are
pairwise distinct, `matrixToList (buildLinkMatrix l) = l`; and for tables
whose every key is `a ++ "|" ++ b` with `'|'`-free `a, b` and whose keys
are distinct (JS objects always have distinct keys),
`buildLinkMatrix (matrixToList m) = m`. -/
theorem C10_roundtrip_wellformed :
    (∀ l : List LinkRec,
      (∀ r ∈ l, '|' ∉ r.src.data ∧ '|' ∉ r.dst.data) →
      (l.map (fun r => linkKey r.src r.dst)).Nodup →
      matrixToList (buildLinkMatrix l) = l) ∧
    (∀ m : ObjMap,
      (∀ p ∈ m, ∃ a b : String, '|' ∉ a.data ∧ '|' ∉ b.data ∧ p.1 = linkKey a b) →
      (m.map Prod.fst).Nodup →
      buildLinkMatrix (matrixToList m) = m) := by
  constructor
  · intro l hpf hnodup
    rw [buildLinkMatrix_eq_map l hnodup]
    unfold matrixToList
    rw [List.map_map]
    refine List.map_congr_left ?_ |>.trans (List.map_id l)
    intro r hr
    rcases hpf r hr with ⟨ha, hb⟩
    simp only [Function.comp_apply, id_eq]
    rw [jsSplitChar_linkKey r.src r.dst ha hb]
    rfl
  · intro m hwf hnodup
    have hmtl : matrixToList m = m.map (fun p =>
        (⟨(jsSplitChar '|' p.1).head?.getD "", ((jsSplitChar '|' p.1).get? 1).getD "undefined",
          p.2⟩ : LinkRec)) := rfl
    have hkeys : (matrixToList m).map (fun r => linkKey r.src r.dst) = m.map Prod.fst := by
      rw [hmtl, List.map_map]
      refine List.map_congr_left ?_
      intro p hp
      rcases hwf p hp with ⟨a, b, ha, hb, hk⟩
      simp only [Function.comp_apply]
      rw [hk, jsSplitChar_linkKey a b ha hb]
      exact hk.symm ▸ rfl
    rw [buildLinkMatrix_eq_map (matrixToList m) (hkeys ▸ hnodup)]
    rw [hmtl, List.map_map]
    refine List.map_congr_left ?_ |>.trans (List.map_id m)
    intro p hp
    rcases hwf p hp with ⟨a, b, ha, hb, hk⟩
    simp only [Function.comp_apply, id_eq]
    rw [hk, jsSplitChar_linkKey a b ha hb]
    exact Prod.ext (by simp [hk]) rfl

/-- C10 witness: both directions of the amended round trip evaluated on
concrete well-formed data. -/
theorem C10_witness :
    matrixToList (buildLinkMatrix [⟨"a", "b", 3⟩, ⟨"b", "c", 4⟩]) = [⟨"a", "b", 3⟩, ⟨"b", "c", 4⟩] ∧
    buildLinkMatrix (matrixToList [("a|b", (3 : Rat)), ("c|d", 4)]) = [("a|b", 3), ("c|d", 4)] :=
  ⟨C10_roundtrip_wellformed.1 [⟨"a", "b", 3⟩, ⟨"b", "c", 4⟩] (by decide) (by decide),
   C10_roundtrip_wellformed.2 [("a|b", 3), ("c|d", 4)]
     (by
       intro p hp
       rcases List.mem_cons.mp hp with rfl | hp2
       · exact ⟨"a", "b", by decide, by decide, rfl⟩
       · rcases List.mem_singleton.mp hp2 with rfl
         exact ⟨"c", "d", by decide, by decide, rfl⟩)
     (by decide)⟩

/-! ### Archive lemmas (claims C2, C3, C5) -/

theorem mem_insertSolDesc (sc : Solution → Rat) (x z : Solution) :
    ∀ l : List Solution, z ∈ insertSolDesc sc x l ↔ z = x ∨ z ∈ l
  | [] => by simp [insertSolDesc]
  | y :: ys => by
      rw [insertSolDesc]
      split
      · simp [List.mem_cons]
      · rw [List.mem_cons, mem_insertSolDesc sc x z ys, List.mem_cons]
        tauto

theorem length_insertSolDesc (sc : Solution → Rat) (x : Solution) :
    ∀ l : List Solution, (insertSolDesc sc x l).length = l.length + 1
  | [] => rfl
  | y :: ys => by
      rw [insertSolDesc]
      split
      · simp
      · simp [length_insertSolDesc sc x ys]

theorem pairwise_insertSolDesc (sc : Solution → Rat) (x : Solution) :
    ∀ l : List Solution, l.Pairwise (fun a b => sc b ≤ sc a) →
      (insertSolDesc sc x l).Pairwise (fun a b => sc b ≤ sc a)
  | [], _ => by simp [insertSolDesc]
  | y :: ys, h => by
      rw [insertSolDesc]
      rw [List.pairwise_cons] at h
      split
      · rename_i hgt
        rw [List.pairwise_cons]
        refine ⟨?_, List.pairwise_cons.mpr h⟩
        intro z hz
        rcases List.mem_cons.mp hz with rfl | hz2
        · exact le_of_lt hgt
        · exact le_trans (h.1 z hz2) (le_of_lt hgt)
      · rename_i hng
        rw [List.pairwise_cons]
        refine ⟨?_, pairwise_insertSolDesc sc x ys h.2⟩
        intro z hz
        rcases (mem_insertSolDesc sc x z ys).mp hz with rfl | hz2
        · exact le_of_not_lt hng
        · exact h.1 z hz2

theorem sortSolutionsDesc_foldl_pairwise (sc : Solution → Rat) :
    ∀ (l acc : List Solution), acc.Pairwise (fun a b => sc b ≤ sc a) →
      (l.foldl (fun acc x => insertSolDesc sc x acc) acc).Pairwise (fun a b => sc b ≤ sc a)
  | [], acc, h => h
  | x :: xs, acc, h =>
      sortSolutionsDesc_foldl_pairwise sc xs (insertSolDesc sc x acc)
        (pairwise_insertSolDesc sc x acc h)

theorem sortSolutionsDesc_pairwise (sc : Solution → Rat) (l : List Solution) :
    (sortSolutionsDesc sc l).Pairwise (fun a b => sc b ≤ sc a) :=
  sortSolutionsDesc_foldl_pairwise sc l [] (by simp)

theorem mem_sortSolutionsDesc_foldl (sc : Solution → Rat) (z : Solution) :
    ∀ (l acc : List Solution),
      z ∈ l.foldl (fun acc x => insertSolDesc sc x acc) acc ↔ z ∈ acc ∨ z ∈ l
  | [], acc => by simp
  | x :: xs, acc => by
      rw [List.foldl_cons, mem_sortSolutionsDesc_foldl sc z xs (insertSolDesc sc x acc),
        mem_insertSolDesc sc x z acc, List.mem_cons]
      tauto

theorem mem_sortSolutionsDesc (sc : Solution → Rat) (z : Solution) (l : List Solution) :
    z ∈ sortSolutionsDesc sc l ↔ z ∈ l := by
  rw [sortSolutionsDesc, mem_sortSolutionsDesc_foldl sc z l []]
  simp

theorem length_sortSolutionsDesc_foldl (sc : Solution → Rat) :
    ∀ (l acc : List Solution),
      (l.foldl (fun acc x => insertSolDesc sc x acc) acc).length = acc.length + l.length
  | [], acc => rfl
  | x :: xs, acc => by
      rw [List.foldl_cons, length_sortSolutionsDesc_foldl sc xs (insertSolDesc sc x acc),
        length_insertSolDesc sc x acc]
      simp [Nat.add_assoc, Nat.add_comm 1 xs.length]

theorem length_sortSolutionsDesc (sc : Solution → Rat) (l : List Solution) :
    (sortSolutionsDesc sc l).length = l.length := by
  rw [sortSolutionsDesc, length_sortSolutionsDesc_foldl sc l []]
  simp

theorem addSolution_sols_cases (opts : Options) (m : ObjMap) (w : String → Rat)
    (n : Nat) (st : Archive) (gs : List (List String)) (free : List String) :
    ∀ sol ∈ (addSolution opts m w n st gs free).sols,
      sol ∈ st.sols ∨
      (sol = mkSolution m w opts.symmetricLinks gs free ∧
        solutionHasDuplicateNodes gs free n = false) := by
  intro sol hsol
  unfold addSolution at hsol
  split at hsol
  · exact Or.inl hsol
  · rename_i hdup
    dsimp only at hsol
    split at hsol
    · exact Or.inl hsol
    · simp only at hsol
      have hmem := List.mem_of_mem_take hsol
      rw [mem_sortSolutionsDesc] at hmem
      rcases List.mem_append.mp hmem with h2 | h2
      · exact Or.inl h2
      · exact Or.inr ⟨List.mem_singleton.mp h2, by simpa using hdup⟩

theorem addSolution_inv (opts : Options) (m : ObjMap) (w : String → Rat)
    (n : Nat) (st : Archive) (gs : List (List String)) (free : List String)
    (h : st.sols.Pairwise (fun a b => solutionScore opts b ≤ solutionScore opts a) ∧
      st.sols.length ≤ 10) :
    (addSolution opts m w n st gs free).sols.Pairwise
        (fun a b => solutionScore opts b ≤ solutionScore opts a) ∧
      (addSolution opts m w n st gs free).sols.length ≤ 10 := by
  unfold addSolution
  split
  · exact h
  · dsimp only
    split
    · exact h
    · constructor
      · exact (sortSolutionsDesc_pairwise (solutionScore opts) _).sublist
          (List.take_sublist 10 _)
      · rw [List.length_take]
        exact Nat.min_le_left _ _

theorem foldl_preserve_mem {α β : Type} (f : α → β → α) (P : α → Prop) :
    ∀ (l : List β), (∀ a b, b ∈ l → P a → P (f a b)) → ∀ a, P a → P (l.foldl f a)
  | [], _, a, hP => hP
  | b :: bs, hf, a, hP =>
      foldl_preserve_mem f P bs (fun a2 b2 hb2 => hf a2 b2 (List.mem_cons_of_mem b hb2))
        (f a b) (hf a b (List.mem_cons_self b bs) hP)

theorem seedStepFixed_ok_cases (nodes : List Node) (m : ObjMap) (minC maxC : Rat)
    (opts : Options) (ids freeIds : List String) (fixedGroups : List (List String))
    (arch arch2 : Archive) (seed : Nat)
    (h : seedStepFixed nodes m minC maxC opts ids freeIds fixedGroups arch seed = .ok arch2) :
    arch2 = arch ∨ ∃ res improved : GreedyResult,
      greedyBuildWithFixed freeIds fixedGroups (nodesByIdWeight nodes) m minC maxC seed
        opts.allowFreeNodes opts.symmetricLinks = some res ∧
      localSearch res.groups res.freeNodes ids (nodesByIdWeight nodes) m minC maxC
        opts.allowFreeNodes opts.symmetricLinks (FixedArg.arr fixedGroups) = .ok improved ∧
      arch2 = addSolution opts m (nodesByIdWeight nodes) ids.length
        (addSolution opts m (nodesByIdWeight nodes) ids.length arch res.groups res.freeNodes)
        improved.groups improved.freeNodes := by
  unfold seedStepFixed at h
  dsimp only at h
  cases hg : greedyBuildWithFixed freeIds fixedGroups (nodesByIdWeight nodes) m minC maxC seed
      opts.allowFreeNodes opts.symmetricLinks with
  | none =>
      rw [hg] at h
      cases h
      exact Or.inl rfl
  | some res =>
      rw [hg] at h
      dsimp only at h
      cases hls : localSearch res.groups res.freeNodes ids (nodesByIdWeight nodes) m minC maxC
          opts.allowFreeNodes opts.symmetricLinks (FixedArg.arr fixedGroups) with
      | error e => rw [hls] at h; exact Except.noConfusion h
      | ok improved =>
          rw [hls] at h
          cases h
          exact Or.inr ⟨res, improved, rfl, hls, rfl⟩

theorem solveArchive_ok_P (nodes : List Node) (m : ObjMap) (minC maxC : Rat)
    (opts : Options) (ids : List String) (fixedGroups : List (List String))
    (arch : Archive) (P : Archive → Prop)
    (hempty : P archEmpty)
    (hexh : ∀ st c, c ∈ exhaustiveCands ids (nodesByIdWeight nodes) minC maxC opts.allowFreeNodes →
      P st → P (addSolution opts m (nodesByIdWeight nodes) ids.length st c.groups c.free))
    (hgre : ∀ st seed res,
      greedyBuildWithFixed (ids.filter (fun id => id ∉ fixedGroups.flatten)) fixedGroups
        (nodesByIdWeight nodes) m minC maxC seed opts.allowFreeNodes opts.symmetricLinks = some res →
      P st → P (addSolution opts m (nodesByIdWeight nodes) ids.length st res.groups res.freeNodes))
    (hls : ∀ st seed res improved,
      greedyBuildWithFixed (ids.filter (fun id => id ∉ fixedGroups.flatten)) fixedGroups
        (nodesByIdWeight nodes) m minC maxC seed opts.allowFreeNodes opts.symmetricLinks = some res →
      localSearch res.groups res.freeNodes ids (nodesByIdWeight nodes) m minC maxC
        opts.allowFreeNodes opts.symmetricLinks (FixedArg.arr fixedGroups) = .ok improved →
      P st → P (addSolution opts m (nodesByIdWeight nodes) ids.length st
        improved.groups improved.freeNodes))
    (hok : solveArchive nodes m minC maxC opts ids fixedGroups = .ok arch) : P arch := by
  unfold solveArchive at hok
  dsimp only at hok
  split at hok
  · refine foldlM_except_inv _ P ?_ (List.range 20) _ arch ?_ hok
    · intro a b a2 hPa hstep
      rcases seedStep_ok nodes m minC maxC opts ids a a2 b hstep with ⟨rfl, _⟩
      exact hPa
    · split
      · exact foldl_preserve_mem _ P _ (fun st c hc hP => hexh st c hc hP) archEmpty hempty
      · exact hempty
  · refine foldlM_except_inv _ P ?_ (List.range 20) _ arch hempty hok
    intro a b a2 hPa hstep
    rcases seedStepFixed_ok_cases nodes m minC maxC opts ids _ fixedGroups a a2 b hstep with
      rfl | ⟨res, improved, hg, hl, rfl⟩
    · exact hPa
    · exact hls _ b res improved hg hl (hgre a b res hg hPa)

/-! ### Claim C5 -/

/-- C5: `computeGroups` returns at most 10 solutions, ordered by score
descending (score as computed by `solutionScore`: totalWeight plus the
per-group bonus minus the balance factor times the population variance of
the groups' combined weights), and the ordering still holds after the
wasteful-solution filter has pruned the archive: the archive is re-sorted
and truncated at every insertion, pruning only removes elements, and a
positive balance factor triggers a final re-sort. -/
theorem C5_at_most_ten_and_sorted (nodes : List Node) (m : ObjMap) (minC maxC : Rat)
    (opts : Options) (r : SolveResult)
    (hok : computeGroups nodes m minC maxC opts = .ok r) :
    r.solutions.length ≤ 10 ∧
    r.solutions.Pairwise (fun a b => solutionScore opts b ≤ solutionScore opts a) := by
  rcases computeGroups_ok_cases nodes m minC maxC opts r hok with
    ⟨_, hs, _⟩ | ⟨_, arch, harch, hs, _⟩
  · rw [hs]; exact ⟨by simp, by simp⟩
  · have hinv : arch.sols.Pairwise (fun a b => solutionScore opts b ≤ solutionScore opts a) ∧
        arch.sols.length ≤ 10 := by
      refine solveArchive_ok_P nodes m minC maxC opts _ _ arch
        (fun a => a.sols.Pairwise (fun x y => solutionScore opts y ≤ solutionScore opts x) ∧
          a.sols.length ≤ 10) ⟨by simp [archEmpty], by simp [archEmpty]⟩
        ?_ ?_ ?_ harch
      · intro st c _ hP; exact addSolution_inv opts m _ _ st c.groups c.free hP
      · intro st seed res _ hP; exact addSolution_inv opts m _ _ st res.groups res.freeNodes hP
      · intro st seed res improved _ _ hP
        exact addSolution_inv opts m _ _ st improved.groups improved.freeNodes hP
    rw [hs]
    unfold finishSolve pruneWastefulSolutions
    dsimp only
    constructor
    · split
      · rw [length_sortSolutionsDesc]
        split
        · exact le_trans (List.length_filter_le _ _) hinv.2
        · exact hinv.2
      · split
        · exact le_trans (List.length_filter_le _ _) hinv.2
        · exact hinv.2
    · split
      · exact sortSolutionsDesc_pairwise _ _
      · split
        · exact hinv.1.filter _
        · exact hinv.1

/-- C5 witness: the bound and ordering evaluated on the 4-node instance. -/
theorem C5_witness :
    resultFour.solutions.length ≤ 10 ∧
    resultFour.solutions.Pairwise
      (fun a b => solutionScore defaultOptions b ≤ solutionScore defaultOptions a) :=
  C5_at_most_ten_and_sorted nodesFour linksFour 7 7 defaultOptions resultFour (by decide)

/-! ### Guard and counting lemmas (claim C2) -/

theorem firstDedupAux_length_le [DecidableEq α] (seen : List α) :
    ∀ l : List α, (firstDedupAux seen l).length ≤ l.length := by
  intro l
  induction l generalizing seen with
  | nil => simp [firstDedupAux]
  | cons x xs ih =>
      rw [firstDedupAux]
      split
      · exact le_trans (ih seen) (Nat.le_succ _)
      · simpa using ih (x :: seen)

theorem firstDedupAux_length_eq [DecidableEq α] (seen : List α) :
    ∀ l : List α, (firstDedupAux seen l).length = l.length →
      (∀ x ∈ l, x ∉ seen) ∧ l.Nodup := by
  intro l
  induction l generalizing seen with
  | nil => intro _; exact ⟨by simp, List.nodup_nil⟩
  | cons x xs ih =>
      intro h
      rw [firstDedupAux] at h
      split at h
      · exact absurd h (Nat.ne_of_lt (Nat.lt_succ_of_le (firstDedupAux_length_le seen xs)))
      · rename_i hx
        simp only [List.length_cons, Nat.succ.injEq] at h
        rcases ih (x :: seen) h with ⟨hseen, hnodup⟩
        refine ⟨?_, List.nodup_cons.mpr ⟨?_, hnodup⟩⟩
        · intro z hz
          rcases List.mem_cons.mp hz with rfl | hz2
          · exact hx
          · intro hzs
            exact hseen z hz2 (List.mem_cons_of_mem x hzs)
        · intro hxs
          exact hseen x hxs (List.mem_cons_self x seen)

theorem guard_false_spec (gs : List (List String)) (free : List String) (n : Nat)
    (h : solutionHasDuplicateNodes gs free n = false) :
    (gs.flatten ++ free).length = n ∧ (gs.flatten ++ free).Nodup := by
  unfold solutionHasDuplicateNodes at h
  dsimp only at h
  split at h
  · exact Bool.noConfusion h
  · rename_i hlen
    rw [Decidable.not_not] at hlen
    refine ⟨hlen, ?_⟩
    have h2 : (firstDedup (gs.flatten ++ free)).length = (gs.flatten ++ free).length := by
      by_contra hne
      rw [hlen] at hne
      simp [hne] at h
    exact (firstDedupAux_length_eq [] _ h2).2

theorem perm_of_nodup_subset_length (l ids : List String)
    (hnodup : l.Nodup) (hsub : ∀ x ∈ l, x ∈ ids) (hlen : l.length = ids.length) :
    l.Perm ids := by
  have hsp : l.Subperm ids := hnodup.subperm hsub
  exact hsp.perm_of_length_le (le_of_eq hlen.symm)

theorem membersAt_subset (ids : List String) (a : List Int) (g : Int) :
    ∀ x ∈ membersAt ids a g, x ∈ ids := by
  intro x hx
  unfold membersAt at hx
  rcases List.mem_map.mp hx with ⟨p, hp, rfl⟩
  exact (List.of_mem_zip (List.mem_of_mem_filter hp)).2

theorem exhRec_subset (ids : List String) (w : String → Rat) (minC maxC : Rat)
    (allowFree : Bool) :
    ∀ (fuel : Nat) (pre : List Int) (c : Cand), c ∈ exhRec ids w minC maxC allowFree fuel pre →
      ∀ x ∈ c.groups.flatten ++ c.free, x ∈ ids
  | 0, a, c, hc => by
      rw [exhRec] at hc
      split at hc
      · rcases List.mem_singleton.mp hc with rfl
        intro x hx
        rcases List.mem_append.mp hx with hx2 | hx2
        · rcases List.mem_flatten.mp hx2 with ⟨g, hg, hxg⟩
          rcases List.mem_map.mp hg with ⟨gi, _, rfl⟩
          exact membersAt_subset ids a gi x hxg
        · exact membersAt_subset ids a (-1) x hx2
      · exact absurd hc (List.not_mem_nil c)
  | fuel + 1, pre, c, hc => by
      rw [exhRec] at hc
      rcases List.mem_append.mp hc with hc2 | hc2
      · rcases List.mem_append.mp hc2 with hc3 | hc3
        · split at hc3
          · exact exhRec_subset ids w minC maxC allowFree fuel _ c hc3
          · exact absurd hc3 (List.not_mem_nil c)
        · rcases List.mem_flatMap.mp hc3 with ⟨g, _, hcg⟩
          split at hcg
          · exact exhRec_subset ids w minC maxC allowFree fuel _ c hcg
          · exact absurd hcg (List.not_mem_nil c)
      · dsimp only at hc2
        split at hc2
        · exact exhRec_subset ids w minC maxC allowFree fuel _ c hc2
        · exact absurd hc2 (List.not_mem_nil c)

theorem mem_firstDedupAux [DecidableEq α] (seen : List α) :
    ∀ (l : List α) (x : α), x ∈ firstDedupAux seen l → x ∈ l
  | [], x, h => absurd h (List.not_mem_nil x)
  | y :: ys, x, h => by
      rw [firstDedupAux] at h
      split at h
      · exact List.mem_cons_of_mem y (mem_firstDedupAux seen ys x h)
      · rcases List.mem_cons.mp h with rfl | h2
        · exact List.mem_cons_self x ys
        · exact List.mem_cons_of_mem y (mem_firstDedupAux (y :: seen) ys x h2)

theorem mem_firstDedup [DecidableEq α] (l : List α) (x : α) (h : x ∈ firstDedup l) :
    x ∈ l := mem_firstDedupAux [] l x h

theorem buildEdges_mem (m : ObjMap) (sym : Bool) :
    ∀ (l : List String) (e : Edge), e ∈ buildEdges m sym l → e.a ∈ l ∧ e.b ∈ l
  | [], e, h => absurd h (List.not_mem_nil e)
  | x :: rest, e, h => by
      rw [buildEdges] at h
      rcases List.mem_append.mp h with h2 | h2
      · rcases List.mem_filterMap.mp h2 with ⟨y, hy, he⟩
        dsimp only at he
        split at he
        · cases Option.some.injEq _ _ ▸ he
          exact ⟨List.mem_cons_self x rest, List.mem_cons_of_mem x hy⟩
        · exact Option.noConfusion he
      · rcases buildEdges_mem m sym rest e h2 with ⟨ha, hb⟩
        exact ⟨List.mem_cons_of_mem x ha, List.mem_cons_of_mem x hb⟩

theorem mem_insertEdgeDesc (x z : Edge) :
    ∀ l : List Edge, z ∈ insertEdgeDesc x l → z = x ∨ z ∈ l
  | [], h => Or.inl (List.mem_singleton.mp h)
  | y :: ys, h => by
      rw [insertEdgeDesc] at h
      split at h
      · rcases List.mem_cons.mp h with rfl | h2
        · exact Or.inl rfl
        · exact Or.inr h2
      · rcases List.mem_cons.mp h with rfl | h2
        · exact Or.inr (List.mem_cons_self z ys)
        · rcases mem_insertEdgeDesc x z ys h2 with h3 | h3
          · exact Or.inl h3
          · exact Or.inr (List.mem_cons_of_mem y h3)

theorem mem_sortEdgesDesc_foldl (z : Edge) :
    ∀ (l acc : List Edge), z ∈ l.foldl (fun acc x => insertEdgeDesc x acc) acc →
      z ∈ acc ∨ z ∈ l
  | [], acc, h => Or.inl h
  | x :: xs, acc, h => by
      rcases mem_sortEdgesDesc_foldl z xs (insertEdgeDesc x acc) h with h2 | h2
      · rcases mem_insertEdgeDesc x z acc h2 with h3 | h3
        · exact Or.inr (h3 ▸ List.mem_cons_self x xs)
        · exact Or.inl h3
      · exact Or.inr (List.mem_cons_of_mem x h2)

theorem mem_sortEdgesDesc (z : Edge) (l : List Edge) (h : z ∈ sortEdgesDesc l) : z ∈ l := by
  rcases mem_sortEdgesDesc_foldl z l [] h with h2 | h2
  · exact absurd h2 (List.not_mem_nil z)
  · exact h2

theorem mem_listSwap {α : Type} [DecidableEq α] (l : List α) (i j : Nat) (x : α)
    (h : x ∈ listSwap l i j) : x ∈ l := by
  unfold listSwap at h
  cases hi : l.get? i with
  | none => rw [hi] at h; exact h
  | some a =>
      cases hj : l.get? j with
      | none => rw [hi, hj] at h; exact h
      | some b =>
          rw [hi, hj] at h
          rcases List.mem_or_eq_of_mem_set h with h2 | rfl
          · rcases List.mem_or_eq_of_mem_set h2 with h3 | rfl
            · exact h3
            · exact List.get?_mem hj
          · exact List.get?_mem hi

theorem mem_shuffleAux {α : Type} [DecidableEq α] (x : α) :
    ∀ (t : Nat) (l : List α) (i : Nat), x ∈ shuffleAux t l i → x ∈ l := by
  intro t l i
  induction i generalizing t l with
  | zero => intro h; exact h
  | succ k ih =>
      intro h
      rw [shuffleAux] at h
      exact mem_listSwap l _ _ x (ih _ _ h)

theorem mem_shuffleWithSeed {α : Type} [DecidableEq α] (l : List α) (seed : Nat) (x : α)
    (h : x ∈ shuffleWithSeed l seed) : x ∈ l :=
  mem_shuffleAux x _ l _ h

theorem tryAppend_subset (w : String → Rat) (maxC : Rat) (inG outside : String) :
    ∀ (gs gs2 : List (List String)), tryAppendToGroupContaining w maxC inG outside gs = some gs2 →
      ∀ x ∈ gs2.flatten, x ∈ gs.flatten ∨ x = outside
  | [], gs2, h => Option.noConfusion h
  | g :: rest, gs2, h => by
      rw [tryAppendToGroupContaining] at h
      split at h
      · cases Option.some.injEq _ _ ▸ h
        intro x hx
        simp only [List.flatten_cons, List.mem_append] at hx ⊢
        rcases hx with hx2 | hx2
        · rcases hx2 with h3 | h3
          · exact Or.inl (Or.inl h3)
          · exact Or.inr (List.mem_singleton.mp h3)
        · exact Or.inl (Or.inr hx2)
      · cases hrec : tryAppendToGroupContaining w maxC inG outside rest with
        | none => rw [hrec] at h; exact Option.noConfusion h
        | some gs3 =>
            rw [hrec] at h
            cases Option.some.injEq _ _ ▸ h
            intro x hx
            simp only [List.flatten_cons, List.mem_append] at hx ⊢
            rcases hx with hx2 | hx2
            · exact Or.inl (Or.inl hx2)
            · rcases tryAppend_subset w maxC inG outside rest gs3 hrec x hx2 with h3 | h3
              · exact Or.inl (Or.inr h3)
              · exact Or.inr h3

theorem firstGroupWithCapacity_subset (w : String → Rat) (maxC : Rat) (id : String) :
    ∀ (gs gs2 : List (List String)), firstGroupWithCapacity w maxC id gs = some gs2 →
      ∀ x ∈ gs2.flatten, x ∈ gs.flatten ∨ x = id
  | [], gs2, h => Option.noConfusion h
  | g :: rest, gs2, h => by
      rw [firstGroupWithCapacity] at h
      split at h
      · cases Option.some.injEq _ _ ▸ h
        intro x hx
        simp only [List.flatten_cons, List.mem_append] at hx ⊢
        rcases hx with hx2 | hx2
        · rcases hx2 with h3 | h3
          · exact Or.inl (Or.inl h3)
          · exact Or.inr (List.mem_singleton.mp h3)
        · exact Or.inl (Or.inr hx2)
      · cases hrec : firstGroupWithCapacity w maxC id rest with
        | none => rw [hrec] at h; exact Option.noConfusion h
        | some gs3 =>
            rw [hrec] at h
            cases Option.some.injEq _ _ ▸ h
            intro x hx
            simp only [List.flatten_cons, List.mem_append] at hx ⊢
            rcases hx with hx2 | hx2
            · exact Or.inl (Or.inl hx2)
            · rcases firstGroupWithCapacity_subset w maxC id rest gs3 hrec x hx2 with h3 | h3
              · exact Or.inl (Or.inr h3)
              · exact Or.inr h3

theorem applyMerge_subset (merged : List (List String)) (a b : Nat) (combined : List String)
    (hcomb : ∀ x ∈ combined, x ∈ merged.flatten) :
    ∀ x ∈ ((merged.set a combined).eraseIdx b).flatten, x ∈ merged.flatten := by
  intro x hx
  rcases List.mem_flatten.mp hx with ⟨g, hg, hxg⟩
  have hg2 : g ∈ merged.set a combined :=
    (List.eraseIdx_sublist (merged.set a combined) b).mem hg
  rcases List.mem_or_eq_of_mem_set hg2 with hg3 | rfl
  · exact List.mem_flatten.mpr ⟨g, hg3, hxg⟩
  · exact hcomb x hxg

theorem getD_subset (merged : List (List String)) (j : Nat) :
    ∀ x ∈ merged.getD j [], x ∈ merged.flatten := by
  intro x hx
  rw [List.getD_eq_getElem?_getD] at hx
  cases hj : merged[j]? with
  | none => rw [hj] at hx; exact absurd hx (List.not_mem_nil x)
  | some g =>
      rw [hj] at hx
      exact List.mem_flatten.mpr ⟨g, List.getElem?_mem hj, hx⟩

theorem mergeScan_subset (w : String → Rat) (minC maxC : Rat) (af : Bool)
    (fixedIds : Option (List String)) (merged : List (List String)) (fr : List String) :
    ∀ (fuel i : Nat) (m2 : List (List String)) (fr2 : List String),
      mergeScan w minC maxC af fixedIds merged fr fuel i = some (m2, fr2) →
      (∀ x ∈ m2.flatten, x ∈ merged.flatten) ∧ (∀ x ∈ fr2, x ∈ fr ∨ x ∈ merged.flatten)
  | 0, i, m2, fr2, h => by simp [mergeScan] at h
  | fuel + 1, i, m2, fr2, h => by
      rw [mergeScan] at h
      dsimp only at h
      split at h
      · rename_i hi
        split at h
        · exact mergeScan_subset w minC maxC af fixedIds merged fr fuel (i + 1) m2 fr2 h
        · split at h
          · rename_i j hj
            have hcomb : ∀ x ∈ merged[i] ++ merged.getD j [], x ∈ merged.flatten := by
              intro x hx
              rcases List.mem_append.mp hx with h2 | h2
              · exact List.mem_flatten.mpr ⟨_, List.getElem_mem hi, h2⟩
              · exact getD_subset merged j x h2
            split at h
            · obtain ⟨h1, h2⟩ := Prod.mk.inj (Option.some.inj h)
              subst h1
              subst h2
              exact ⟨applyMerge_subset merged i j _ hcomb, fun x hx => Or.inl hx⟩
            · obtain ⟨h1, h2⟩ := Prod.mk.inj (Option.some.inj h)
              subst h1
              subst h2
              exact ⟨applyMerge_subset merged _ _ _ hcomb, fun x hx => Or.inl hx⟩
          · split at h
            · obtain ⟨h1, h2⟩ := Prod.mk.inj (Option.some.inj h)
              subst h1
              subst h2
              refine ⟨?_, ?_⟩
              · intro x hx
                rcases List.mem_flatten.mp hx with ⟨g, hg, hxg⟩
                exact List.mem_flatten.mpr
                  ⟨g, (List.eraseIdx_sublist merged i).mem hg, hxg⟩
              · intro x hx
                rcases List.mem_append.mp hx with h2 | h2
                · exact Or.inl h2
                · exact Or.inr (List.mem_flatten.mpr ⟨_, List.getElem_mem hi, h2⟩)
            · exact mergeScan_subset w minC maxC af fixedIds merged fr fuel (i + 1) m2 fr2 h
      · exact Option.noConfusion h

theorem mergeLoop_subset (w : String → Rat) (minC maxC : Rat) (af : Bool)
    (fixedIds : Option (List String)) :
    ∀ (fuel : Nat) (st : List (List String) × List String),
      (∀ x ∈ (mergeLoop w minC maxC af fixedIds fuel st).1.flatten, x ∈ st.1.flatten) ∧
      (∀ x ∈ (mergeLoop w minC maxC af fixedIds fuel st).2, x ∈ st.2 ∨ x ∈ st.1.flatten)
  | 0, st => ⟨fun x hx => hx, fun x hx => Or.inl hx⟩
  | fuel + 1, (merged, fr) => by
      rw [mergeLoop]
      cases hscan : mergeScan w minC maxC af fixedIds merged fr (merged.length + 1) 0 with
      | none => exact ⟨fun x hx => hx, fun x hx => Or.inl hx⟩
      | some st2 =>
          have hrec := mergeLoop_subset w minC maxC af fixedIds fuel st2
          have hsc := mergeScan_subset w minC maxC af fixedIds merged fr
            (merged.length + 1) 0 st2.1 st2.2 (by rw [hscan])
          refine ⟨fun x hx => hsc.1 x (hrec.1 x hx), fun x hx => ?_⟩
          rcases hrec.2 x hx with h2 | h2
          · exact hsc.2 x h2
          · exact Or.inr (hsc.1 x h2)

theorem mergeSmallGroupsWithFixed_subset (groups : List (List String))
    (w : String → Rat) (minC maxC : Rat) (af : Bool) (freeNodes : List String)
    (fgs : List (List String)) (res : GreedyResult)
    (h : mergeSmallGroupsWithFixed groups w minC maxC af freeNodes fgs = some res) :
    (∀ x ∈ res.groups.flatten, x ∈ groups.flatten) ∧
      (∀ x ∈ res.freeNodes, x ∈ freeNodes ∨ x ∈ groups.flatten) := by
  unfold mergeSmallGroupsWithFixed at h
  dsimp only at h
  split at h
  · cases h
    exact mergeLoop_subset w minC maxC af (some fgs.flatten)
      (groups.length + 1) (groups, freeNodes)
  · exact Option.noConfusion h

theorem greedyFixedEdgeStep_subset (w : String → Rat) (maxC : Rat)
    (freeSet : List String) (S : List String) (st : GBState) (e : Edge)
    (hst : ∀ x ∈ st.groups.flatten, x ∈ S) (hea : e.a ∈ S) (heb : e.b ∈ S) :
    ∀ x ∈ (greedyFixedEdgeStep w maxC freeSet st e).groups.flatten, x ∈ S := by
  unfold greedyFixedEdgeStep
  split
  · exact hst
  · dsimp only
    split
    · rename_i inGroup hin
      cases htry : tryAppendToGroupContaining w maxC inGroup
          (if inGroup = e.a then e.b else e.a) st.groups with
      | none => exact hst
      | some gs =>
          intro x hx
          have hx2 : x ∈ gs.flatten := hx
          rcases tryAppend_subset w maxC inGroup _ st.groups gs htry x hx2 with h2 | h2
          · exact hst x h2
          · subst h2
            split
            · exact heb
            · exact hea
    · split
      · intro x hx
        simp only [List.flatten_append] at hx
        rcases List.mem_append.mp hx with h2 | h2
        · exact hst x h2
        · simp only [List.flatten_cons, List.flatten_nil, List.append_nil] at h2
          rcases List.mem_cons.mp h2 with rfl | h3
          · exact hea
          · rcases List.mem_singleton.mp h3 with rfl
            exact heb
      · exact hst

theorem placeLooseStep_subset (m : ObjMap) (sym : Bool) (w : String → Rat) (maxC : Rat)
    (af : Bool) (scanIds : List String) (S : List String)
    (acc : GBState × List String) (id : String)
    (hst : ∀ x ∈ acc.1.groups.flatten, x ∈ S) (hfr : ∀ x ∈ acc.2, x ∈ S) (hid : id ∈ S) :
    (∀ x ∈ (placeLooseStep m sym w maxC af scanIds acc id).1.groups.flatten, x ∈ S) ∧
    (∀ x ∈ (placeLooseStep m sym w maxC af scanIds acc id).2, x ∈ S) := by
  unfold placeLooseStep
  dsimp only
  split
  · exact ⟨hst, hfr⟩
  · split
    · refine ⟨hst, ?_⟩
      intro x hx
      rcases List.mem_append.mp hx with h2 | h2
      · exact hfr x h2
      · rcases List.mem_singleton.mp h2 with rfl
        exact hid
    · cases htry : firstGroupWithCapacity w maxC id acc.1.groups with
      | some gs =>
          refine ⟨?_, hfr⟩
          intro x hx
          have hx2 : x ∈ gs.flatten := hx
          rcases firstGroupWithCapacity_subset w maxC id acc.1.groups gs htry x hx2 with h2 | h2
          · exact hst x h2
          · exact h2 ▸ hid
      | none =>
          dsimp only
          split
          · refine ⟨hst, ?_⟩
            intro x hx
            rcases List.mem_append.mp hx with h2 | h2
            · exact hfr x h2
            · rcases List.mem_singleton.mp h2 with rfl
              exact hid
          · refine ⟨?_, hfr⟩
            intro x hx
            simp only [List.flatten_append, List.flatten_cons, List.flatten_nil,
              List.append_nil] at hx
            rcases List.mem_append.mp hx with h2 | h2
            · exact hst x h2
            · rcases List.mem_singleton.mp h2 with rfl
              exact hid

theorem greedyBuildWithFixed_subset (freeIds : List String) (fgs : List (List String))
    (w : String → Rat) (m : ObjMap) (minC maxC : Rat) (seed : Nat) (af sym : Bool)
    (res : GreedyResult)
    (h : greedyBuildWithFixed freeIds fgs w m minC maxC seed af sym = some res) :
    ∀ x ∈ res.groups.flatten ++ res.freeNodes, x ∈ freeIds ++ fgs.flatten := by
  unfold greedyBuildWithFixed at h
  dsimp only at h
  have hS : ∀ x ∈ firstDedup (freeIds ++ fgs.flatten), x ∈ freeIds ++ fgs.flatten :=
    fun x hx => mem_firstDedup _ x hx
  have hedge : ∀ st : GBState, (∀ x ∈ st.groups.flatten, x ∈ freeIds ++ fgs.flatten) →
      ∀ x ∈ ((sortEdgesDesc (buildEdges m sym (firstDedup (freeIds ++ fgs.flatten)))).foldl
        (greedyFixedEdgeStep w maxC freeIds) st).groups.flatten, x ∈ freeIds ++ fgs.flatten := by
    intro st hst
    refine foldl_preserve_mem (greedyFixedEdgeStep w maxC freeIds)
      (fun st2 => ∀ x ∈ st2.groups.flatten, x ∈ freeIds ++ fgs.flatten) _ ?_ st hst
    intro st2 e he hst2
    have hmem := buildEdges_mem m sym _ e (mem_sortEdgesDesc e _ he)
    exact greedyFixedEdgeStep_subset w maxC freeIds _ st2 e hst2
      (hS e.a hmem.1) (hS e.b hmem.2)
  have hst0 : ∀ x ∈ (GBState.mk fgs fgs.flatten).groups.flatten, x ∈ freeIds ++ fgs.flatten :=
    fun x hx => List.mem_append.mpr (Or.inr hx)
  have hloose : ∀ (l : List String) (acc : GBState × List String),
      (∀ y ∈ l, y ∈ freeIds ++ fgs.flatten) →
      (∀ x ∈ acc.1.groups.flatten, x ∈ freeIds ++ fgs.flatten) →
      (∀ x ∈ acc.2, x ∈ freeIds ++ fgs.flatten) →
      (∀ x ∈ (l.foldl (placeLooseStep m sym w maxC af (firstDedup (freeIds ++ fgs.flatten))) acc).1.groups.flatten,
          x ∈ freeIds ++ fgs.flatten) ∧
      (∀ x ∈ (l.foldl (placeLooseStep m sym w maxC af (firstDedup (freeIds ++ fgs.flatten))) acc).2,
          x ∈ freeIds ++ fgs.flatten) := by
    intro l
    induction l with
    | nil => intro acc _ h1 h2; exact ⟨h1, h2⟩
    | cons y ys ih =>
        intro acc hl h1 h2
        rw [List.foldl_cons]
        have hy := hl y (List.mem_cons_self y ys)
        have hstep := placeLooseStep_subset m sym w maxC af
          (firstDedup (freeIds ++ fgs.flatten)) (freeIds ++ fgs.flatten) acc y h1 h2 hy
        exact ih _ (fun z hz => hl z (List.mem_cons_of_mem y hz)) hstep.1 hstep.2
  have hshuffle : ∀ y ∈ shuffleWithSeed freeIds (seed + 1000), y ∈ freeIds ++ fgs.flatten :=
    fun y hy => List.mem_append.mpr (Or.inl (mem_shuffleWithSeed freeIds _ y hy))
  have hacc := hloose (shuffleWithSeed freeIds (seed + 1000))
    ((sortEdgesDesc (buildEdges m sym (firstDedup (freeIds ++ fgs.flatten)))).foldl
      (greedyFixedEdgeStep w maxC freeIds) ⟨fgs, fgs.flatten⟩, []) hshuffle
    (hedge ⟨fgs, fgs.flatten⟩ hst0) (by simp)
  split at h
  · rcases mergeSmallGroupsWithFixed_subset _ w minC maxC af _ fgs res h with ⟨hg, hf⟩
    intro x hx
    rcases List.mem_append.mp hx with h2 | h2
    · exact hacc.1 x (hg x h2)
    · rcases hf x h2 with h3 | h3
      · exact hacc.2 x h3
      · exact hacc.1 x h3
  · cases h
    intro x hx
    rcases List.mem_append.mp hx with h2 | h2
    · exact hacc.1 x h2
    · exact hacc.2 x h2

theorem ok_pair_inj {α β : Type} {a a2 : α} {c c2 : β}
    (h : (Except.ok (a, c) : Except String (α × β)) = .ok (a2, c2)) : a = a2 ∧ c = c2 :=
  Prod.mk.inj (Except.ok.inj h)

theorem jsMapIdxAux_flatten_subset (S : List String) (f : Nat → List String → List String) :
    ∀ (l : List (List String)) (i : Nat),
      (∀ k g, g ∈ l → ∀ x ∈ f k g, x ∈ S) →
      ∀ x ∈ (jsMapIdxAux f i l).flatten, x ∈ S
  | [], _, _ => by simp [jsMapIdxAux]
  | g :: gs, i, hf => by
      rw [jsMapIdxAux]
      intro x hx
      rw [List.flatten_cons] at hx
      rcases List.mem_append.mp hx with h2 | h2
      · exact hf i g (List.mem_cons_self g gs) x h2
      · exact jsMapIdxAux_flatten_subset S f gs (i + 1)
          (fun k g2 hg2 => hf k g2 (List.mem_cons_of_mem g hg2)) x h2

theorem jsMapIdx_flatten_subset (S : List String) (f : Nat → List String → List String)
    (l : List (List String)) (hf : ∀ k g, g ∈ l → ∀ x ∈ f k g, x ∈ S) :
    ∀ x ∈ (jsMapIdx f l).flatten, x ∈ S :=
  jsMapIdxAux_flatten_subset S f l 0 hf

theorem effectiveFixedGroups_flatten_subset (ids : List String)
    (raw : List (List String)) :
    ∀ x ∈ (effectiveFixedGroups ids raw).flatten, x ∈ ids := by
  intro x hx
  rcases List.mem_flatten.mp hx with ⟨g, hg, hxg⟩
  have hg2 := List.mem_of_mem_filter hg
  rcases List.mem_map.mp hg2 with ⟨g0, _, rfl⟩
  exact of_decide_eq_true (List.mem_filter.mp hxg).2

theorem relocStep_subset (m : ObjMap) (sym : Bool) (w : String → Rat) (minC maxC : Rat)
    (ntm : List String) (gi j : Nat) (st : LS) (S : List String) (st2 : LS) (b : Bool)
    (hok : relocStep m sym w minC maxC ntm gi j st = .ok (st2, b))
    (h1 : ∀ x ∈ st.best.flatten, x ∈ S) (h2 : ∀ x ∈ st.bestFree, x ∈ S)
    (hntm : ∀ x ∈ ntm, x ∈ S) :
    (∀ x ∈ st2.best.flatten, x ∈ S) ∧ (∀ x ∈ st2.bestFree, x ∈ S) := by
  unfold relocStep at hok
  split at hok
  · exact (ok_pair_inj hok).1 ▸ ⟨h1, h2⟩
  · cases hsrc : st.best.get? gi with
    | none => rw [hsrc] at hok; exact Except.noConfusion hok
    | some src =>
        rw [List.get?_eq_getElem?] at hsrc
        have hsrcmem : src ∈ st.best := List.getElem?_mem hsrc
        rw [← List.get?_eq_getElem?] at hsrc
        rw [hsrc] at hok
        cases hdst : st.best.get? j with
        | none => rw [hdst] at hok; exact (ok_pair_inj hok).1 ▸ ⟨h1, h2⟩
        | some dst =>
            rw [List.get?_eq_getElem?] at hdst
            have hdstmem : dst ∈ st.best := List.getElem?_mem hdst
            rw [← List.get?_eq_getElem?] at hdst
            rw [hdst] at hok
            dsimp only at hok
            have hsrcS : ∀ x ∈ src.filter (fun id => id ∉ ntm), x ∈ S := by
              intro x hx
              exact h1 x (List.mem_flatten.mpr ⟨src, hsrcmem, List.mem_of_mem_filter hx⟩)
            have hdstS : ∀ x ∈ dst ++ ntm, x ∈ S := by
              intro x hx
              rcases List.mem_append.mp hx with h3 | h3
              · exact h1 x (List.mem_flatten.mpr ⟨dst, hdstmem, h3⟩)
              · exact hntm x h3
            split at hok
            · split at hok
              · exact (ok_pair_inj hok).1 ▸ ⟨h1, h2⟩
              · split at hok
                · obtain ⟨he, _⟩ := ok_pair_inj hok
                  subst he
                  refine ⟨?_, h2⟩
                  refine jsMapIdx_flatten_subset S _ st.best ?_
                  intro k g hg x hx
                  split at hx
                  · exact hsrcS x hx
                  · split at hx
                    · exact hdstS x hx
                    · exact h1 x (List.mem_flatten.mpr ⟨g, hg, hx⟩)
                · exact (ok_pair_inj hok).1 ▸ ⟨h1, h2⟩
            · have hcand : ∀ aj : Nat,
                  ∀ x ∈ (jsMapIdx (fun idx g => if idx = aj then dst ++ ntm else g)
                    (st.best.eraseIdx gi)).flatten, x ∈ S := by
                intro aj
                refine jsMapIdx_flatten_subset S _ _ ?_
                intro k g hg x hx
                have hgmem : g ∈ st.best := (List.eraseIdx_sublist st.best gi).subset hg
                split at hx
                · exact hdstS x hx
                · exact h1 x (List.mem_flatten.mpr ⟨g, hgmem, hx⟩)
              split at hok
              · exact (ok_pair_inj hok).1 ▸ ⟨h1, h2⟩
              · split at hok
                · split at hok
                  · exact (ok_pair_inj hok).1 ▸ ⟨h1, h2⟩
                  · split at hok
                    · obtain ⟨he, _⟩ := ok_pair_inj hok
                      subst he
                      exact ⟨hcand _, h2⟩
                    · exact (ok_pair_inj hok).1 ▸ ⟨h1, h2⟩
                · split at hok
                  · exact (ok_pair_inj hok).1 ▸ ⟨h1, h2⟩
                  · split at hok
                    · obtain ⟨he, _⟩ := ok_pair_inj hok
                      subst he
                      exact ⟨hcand _, h2⟩
                    · exact (ok_pair_inj hok).1 ▸ ⟨h1, h2⟩

theorem gjLoop_subset (m : ObjMap) (sym : Bool) (w : String → Rat) (minC maxC : Rat)
    (ntm : List String) (gi : Nat) (S : List String) (hntm : ∀ x ∈ ntm, x ∈ S) :
    ∀ (fuel j : Nat) (st : LS) (impr : Bool) (st2 : LS) (b : Bool),
      gjLoop m sym w minC maxC ntm gi fuel j st impr = .ok (st2, b) →
      (∀ x ∈ st.best.flatten, x ∈ S) → (∀ x ∈ st.bestFree, x ∈ S) →
      (∀ x ∈ st2.best.flatten, x ∈ S) ∧ (∀ x ∈ st2.bestFree, x ∈ S)
  | 0, j, st, impr, st2, b, hok, h1, h2 => by
      rw [gjLoop] at hok
      exact (ok_pair_inj hok).1 ▸ ⟨h1, h2⟩
  | fuel + 1, j, st, impr, st2, b, hok, h1, h2 => by
      rw [gjLoop] at hok
      split at hok
      · cases hrs : relocStep m sym w minC maxC ntm gi j st with
        | error e => rw [hrs] at hok; exact Except.noConfusion hok
        | ok p =>
            obtain ⟨st1, acc⟩ := p
            rw [hrs] at hok
            dsimp only at hok
            have hstep := relocStep_subset m sym w minC maxC ntm gi j st S st1 acc hrs h1 h2 hntm
            exact gjLoop_subset m sym w minC maxC ntm gi S hntm fuel (j + 1) st1
              (impr || acc) st2 b hok hstep.1 hstep.2
      · exact (ok_pair_inj hok).1 ▸ ⟨h1, h2⟩

theorem niLoop_subset (m : ObjMap) (sym : Bool) (w : String → Rat) (minC maxC : Rat)
    (af : Bool) (fgs : List (List String)) (gi : Nat) (S : List String) :
    ∀ (fuel ni : Nat) (st st2 : LS) (b : Bool),
      niLoop m sym w minC maxC af fgs gi fuel ni st = .ok (st2, b) →
      (∀ x ∈ st.best.flatten, x ∈ S) → (∀ x ∈ st.bestFree, x ∈ S) →
      (∀ x ∈ st2.best.flatten, x ∈ S) ∧ (∀ x ∈ st2.bestFree, x ∈ S)
  | 0, ni, st, st2, b, hok, h1, h2 => by
      rw [niLoop] at hok
      exact (ok_pair_inj hok).1 ▸ ⟨h1, h2⟩
  | fuel + 1, ni, st, st2, b, hok, h1, h2 => by
      rw [niLoop] at hok
      cases hg : st.best.get? gi with
      | none => rw [hg] at hok; exact Except.noConfusion hok
      | some g =>
          rw [List.get?_eq_getElem?] at hg
          have hgmem : g ∈ st.best := List.getElem?_mem hg
          rw [← List.get?_eq_getElem?] at hg
          rw [hg] at hok
          dsimp only at hok
          split at hok
          · rename_i hni
            split at hok
            · exact niLoop_subset m sym w minC maxC af fgs gi S fuel (ni + 1) st st2 b hok h1 h2
            · have hgS : ∀ x ∈ g, x ∈ S :=
                fun x hx => h1 x (List.mem_flatten.mpr ⟨g, hgmem, hx⟩)
              have hntm : ∀ x ∈ (match nodeToFixedGroup fgs (g.get ⟨ni, hni⟩) with
                  | some fg => fg.filter (fun id => id ∈ g)
                  | none => [g.get ⟨ni, hni⟩]), x ∈ S := by
                cases hfg : nodeToFixedGroup fgs (g.get ⟨ni, hni⟩) with
                | some fg =>
                    intro x hx
                    exact hgS x (of_decide_eq_true (List.mem_filter.mp hx).2)
                | none =>
                    intro x hx
                    rcases List.mem_singleton.mp hx with rfl
                    exact hgS _ (List.get_mem g ni hni)
              split at hok
              · exact Except.noConfusion hok
              · rename_i st1 impr heq
                have hstep := gjLoop_subset m sym w minC maxC _ gi S hntm
                  (st.best.length + 1) 0 st false st1 impr heq h1 h2
                split at hok
                · exact Except.noConfusion hok
                · split at hok
                  · exact (ok_pair_inj hok).1 ▸ hstep
                  · exact niLoop_subset m sym w minC maxC af fgs gi S fuel (ni + 1) st1 st2 b
                      hok hstep.1 hstep.2
          · exact (ok_pair_inj hok).1 ▸ ⟨h1, h2⟩

theorem giLoop_subset (m : ObjMap) (sym : Bool) (w : String → Rat) (minC maxC : Rat)
    (af : Bool) (fgs : List (List String)) (S : List String) :
    ∀ (fuel gi : Nat) (st st2 : LS) (b : Bool),
      giLoop m sym w minC maxC af fgs fuel gi st = .ok (st2, b) →
      (∀ x ∈ st.best.flatten, x ∈ S) → (∀ x ∈ st.bestFree, x ∈ S) →
      (∀ x ∈ st2.best.flatten, x ∈ S) ∧ (∀ x ∈ st2.bestFree, x ∈ S)
  | 0, gi, st, st2, b, hok, h1, h2 => by
      rw [giLoop] at hok
      exact (ok_pair_inj hok).1 ▸ ⟨h1, h2⟩
  | fuel + 1, gi, st, st2, b, hok, h1, h2 => by
      rw [giLoop] at hok
      split at hok
      · dsimp only at hok
        split at hok
        · exact Except.noConfusion hok
        · rename_i st1 impr heq
          have hstep := niLoop_subset m sym w minC maxC af fgs gi S _ 0 st st1 impr heq h1 h2
          split at hok
          · exact (ok_pair_inj hok).1 ▸ hstep
          · exact giLoop_subset m sym w minC maxC af fgs S fuel (gi + 1) st1 st2 b hok
              hstep.1 hstep.2
      · exact (ok_pair_inj hok).1 ▸ ⟨h1, h2⟩

theorem freeGjLoop_subset (m : ObjMap) (sym : Bool) (w : String → Rat) (maxC : Rat)
    (node : String) (fi : Nat) (S : List String) (hnode : node ∈ S) :
    ∀ (fuel j : Nat) (st : LS),
      (∀ x ∈ st.best.flatten, x ∈ S) → (∀ x ∈ st.bestFree, x ∈ S) →
      (∀ x ∈ (freeGjLoop m sym w maxC node fi fuel j st).1.best.flatten, x ∈ S) ∧
        (∀ x ∈ (freeGjLoop m sym w maxC node fi fuel j st).1.bestFree, x ∈ S)
  | 0, j, st, h1, h2 => ⟨h1, h2⟩
  | fuel + 1, j, st, h1, h2 => by
      rw [freeGjLoop]
      split
      · rename_i hj
        dsimp only
        split
        · exact freeGjLoop_subset m sym w maxC node fi S hnode fuel (j + 1) st h1 h2
        · split
          · refine ⟨?_, ?_⟩
            · refine jsMapIdx_flatten_subset S _ st.best ?_
              intro k g hg x hx
              split at hx
              · rcases List.mem_append.mp hx with h3 | h3
                · exact h1 x (List.mem_flatten.mpr ⟨st.best.get ⟨j, hj⟩,
                    List.get_mem st.best j hj, h3⟩)
                · rcases List.mem_singleton.mp h3 with rfl
                  exact hnode
              · exact h1 x (List.mem_flatten.mpr ⟨g, hg, hx⟩)
            · intro x hx
              exact h2 x ((List.eraseIdx_sublist st.bestFree fi).subset hx)
          · exact freeGjLoop_subset m sym w maxC node fi S hnode fuel (j + 1) st h1 h2
      · exact ⟨h1, h2⟩

theorem freeFiLoop_subset (m : ObjMap) (sym : Bool) (w : String → Rat) (maxC : Rat)
    (S : List String) :
    ∀ (fuel fi : Nat) (st : LS),
      (∀ x ∈ st.best.flatten, x ∈ S) → (∀ x ∈ st.bestFree, x ∈ S) →
      (∀ x ∈ (freeFiLoop m sym w maxC fuel fi st).1.best.flatten, x ∈ S) ∧
        (∀ x ∈ (freeFiLoop m sym w maxC fuel fi st).1.bestFree, x ∈ S)
  | 0, fi, st, h1, h2 => ⟨h1, h2⟩
  | fuel + 1, fi, st, h1, h2 => by
      rw [freeFiLoop]
      split
      · rename_i hfi
        dsimp only
        have hnode : st.bestFree.get ⟨fi, hfi⟩ ∈ S := h2 _ (List.get_mem st.bestFree fi hfi)
        have hr := freeGjLoop_subset m sym w maxC (st.bestFree.get ⟨fi, hfi⟩) fi S hnode
          (st.best.length + 1) 0 st h1 h2
        split
        · exact hr
        · exact freeFiLoop_subset m sym w maxC S fuel (fi + 1) _ hr.1 hr.2
      · exact ⟨h1, h2⟩

theorem lsIteration_subset (m : ObjMap) (sym : Bool) (w : String → Rat) (minC maxC : Rat)
    (af : Bool) (fgs : List (List String)) (st st2 : LS) (S : List String)
    (hok : lsIteration m sym w minC maxC af fgs st = .ok st2)
    (h1 : ∀ x ∈ st.best.flatten, x ∈ S) (h2 : ∀ x ∈ st.bestFree, x ∈ S) :
    (∀ x ∈ st2.best.flatten, x ∈ S) ∧ (∀ x ∈ st2.bestFree, x ∈ S) := by
  unfold lsIteration at hok
  split at hok
  · exact Except.noConfusion hok
  · rename_i st1 impr1 heq
    have hg := giLoop_subset m sym w minC maxC af fgs S _ 0 st st1 impr1 heq h1 h2
    split at hok
    · exact (Except.ok.inj hok) ▸ hg
    · dsimp only at hok
      split at hok
      · have hr := freeFiLoop_subset m sym w maxC S (st1.bestFree.length + 1) 0 st1 hg.1 hg.2
        split at hok
        · have he : (freeFiLoop m sym w maxC (st1.bestFree.length + 1) 0 st1).1 = st2 :=
            Except.ok.inj hok
          exact he ▸ hr
        · exact Except.noConfusion hok
      · split at hok
        · have he : st1 = st2 := Except.ok.inj hok
          exact he ▸ hg
        · exact Except.noConfusion hok

theorem lsLoop_subset (m : ObjMap) (sym : Bool) (w : String → Rat) (minC maxC : Rat)
    (af : Bool) (fgs : List (List String)) (S : List String) :
    ∀ (fuel : Nat) (st st2 : LS),
      lsLoop m sym w minC maxC af fgs fuel st = .ok st2 →
      (∀ x ∈ st.best.flatten, x ∈ S) → (∀ x ∈ st.bestFree, x ∈ S) →
      (∀ x ∈ st2.best.flatten, x ∈ S) ∧ (∀ x ∈ st2.bestFree, x ∈ S)
  | 0, st, st2, hok, h1, h2 => by
      rw [lsLoop] at hok
      exact (Except.ok.inj hok) ▸ ⟨h1, h2⟩
  | fuel + 1, st, st2, hok, h1, h2 => by
      rw [lsLoop] at hok
      split at hok
      · exact Except.noConfusion hok
      · rename_i st1 heq
        have hstep := lsIteration_subset m sym w minC maxC af fgs st st1 S heq h1 h2
        exact lsLoop_subset m sym w minC maxC af fgs S fuel st1 st2 hok hstep.1 hstep.2

theorem localSearch_subset (g0 : List (List String)) (f0 ids : List String)
    (w : String → Rat) (m : ObjMap) (minC maxC : Rat) (af sym : Bool)
    (fgs : List (List String)) (res : GreedyResult)
    (hok : localSearch g0 f0 ids w m minC maxC af sym (FixedArg.arr fgs) = .ok res) :
    ∀ x ∈ res.groups.flatten ++ res.freeNodes, x ∈ g0.flatten ++ f0 := by
  unfold localSearch at hok
  dsimp only at hok
  split at hok
  · exact Except.noConfusion hok
  · rename_i st heq
    have hls := lsLoop_subset m sym w minC maxC af fgs (g0.flatten ++ f0) 200
      ⟨g0, f0, solutionTotalWeight g0 m sym⟩ st heq
      (fun x hx => List.mem_append.mpr (Or.inl hx))
      (fun x hx => List.mem_append.mpr (Or.inr hx))
    cases Except.ok.inj hok
    intro x hx
    rcases List.mem_append.mp hx with h3 | h3
    · exact hls.1 x h3
    · exact hls.2 x h3

theorem addSolution_perm_inv (opts : Options) (m : ObjMap) (w : String → Rat)
    (ids : List String) (st : Archive) (gs : List (List String)) (free : List String)
    (hsub : ∀ x ∈ gs.flatten ++ free, x ∈ ids)
    (hP : ∀ sol ∈ st.sols, (sol.groups.flatten ++ sol.freeNodes).Perm ids) :
    ∀ sol ∈ (addSolution opts m w ids.length st gs free).sols,
      (sol.groups.flatten ++ sol.freeNodes).Perm ids := by
  intro sol hsol
  rcases addSolution_sols_cases opts m w ids.length st gs free sol hsol with h | ⟨rfl, hguard⟩
  · exact hP sol h
  · rcases guard_false_spec gs free ids.length hguard with ⟨hlen, hnodup⟩
    show (gs.flatten ++ free).Perm ids
    exact perm_of_nodup_subset_length _ ids hnodup hsub hlen

/-- C2: for every solution returned by `computeGroups`, the ids in its groups
together with its free-node list are a permutation of the input node-id list:
each input node id appears exactly once across the groups and the free list
and no other id appears.  Every registered candidate passes the
`solutionHasDuplicateNodes` guard (full count, no duplicates) and draws its
ids from the input ids, so it is a permutation of them; this holds for
exhaustive candidates, greedy results and local-search results alike, and the
final prune/re-sort only selects among archive members. -/
theorem C2_solutions_partition_ids (nodes : List Node) (m : ObjMap) (minC maxC : Rat)
    (opts : Options) (r : SolveResult)
    (hok : computeGroups nodes m minC maxC opts = .ok r) :
    ∀ sol ∈ r.solutions,
      (sol.groups.flatten ++ sol.freeNodes).Perm (nodes.map (·.id)) := by
  rcases computeGroups_ok_cases nodes m minC maxC opts r hok with
    ⟨_, hs, _⟩ | ⟨_, arch, harch, hs, _⟩
  · rw [hs]
    intro sol hsol
    exact absurd hsol (List.not_mem_nil sol)
  · have hP : ∀ sol ∈ arch.sols,
        (sol.groups.flatten ++ sol.freeNodes).Perm (nodes.map (·.id)) := by
      refine solveArchive_ok_P nodes m minC maxC opts _ _ arch
        (fun a => ∀ sol ∈ a.sols,
          (sol.groups.flatten ++ sol.freeNodes).Perm (nodes.map (·.id)))
        ?_ ?_ ?_ ?_ harch
      · intro sol hsol
        exact absurd hsol (List.not_mem_nil sol)
      · intro st c hc hP2
        refine addSolution_perm_inv opts m _ _ st c.groups c.free ?_ hP2
        have hc2 : c ∈ exhRec (nodes.map (·.id)) (nodesByIdWeight nodes) minC maxC
            opts.allowFreeNodes (nodes.map (·.id)).length [] := hc
        exact exhRec_subset (nodes.map (·.id)) (nodesByIdWeight nodes) minC maxC
          opts.allowFreeNodes (nodes.map (·.id)).length [] c hc2
      · intro st seed res hg hP2
        refine addSolution_perm_inv opts m _ _ st res.groups res.freeNodes ?_ hP2
        intro x hx
        have hx2 := greedyBuildWithFixed_subset _ _ _ m minC maxC seed _ _ res hg x hx
        rcases List.mem_append.mp hx2 with h3 | h3
        · exact List.mem_of_mem_filter h3
        · exact effectiveFixedGroups_flatten_subset (nodes.map (·.id)) opts.fixedGroups x h3
      · intro st seed res improved hg hl hP2
        refine addSolution_perm_inv opts m _ _ st improved.groups improved.freeNodes ?_ hP2
        intro x hx
        have hx1 := localSearch_subset res.groups res.freeNodes _ _ m minC maxC _ _ _
          improved hl x hx
        have hx2 := greedyBuildWithFixed_subset _ _ _ m minC maxC seed _ _ res hg x hx1
        rcases List.mem_append.mp hx2 with h3 | h3
        · exact List.mem_of_mem_filter h3
        · exact effectiveFixedGroups_flatten_subset (nodes.map (·.id)) opts.fixedGroups x h3
    have hprune : ∀ sol ∈ pruneWastefulSolutions m opts.symmetricLinks arch.sols,
        sol ∈ arch.sols := by
      intro sol hsol
      unfold pruneWastefulSolutions at hsol
      split at hsol
      · exact List.mem_of_mem_filter hsol
      · exact hsol
    rw [hs]
    unfold finishSolve
    dsimp only
    intro sol hsol
    split at hsol
    · exact hP sol (hprune sol ((mem_sortSolutionsDesc _ sol _).mp hsol))
    · exact hP sol (hprune sol hsol)

/-- C2 witness: the theorem applied to the concrete 4-node instance. -/
theorem C2_witness :
    computeGroups nodesFour linksFour 7 7 defaultOptions = .ok resultFour ∧
    ∀ sol ∈ resultFour.solutions,
      (sol.groups.flatten ++ sol.freeNodes).Perm (nodesFour.map (·.id)) :=
  ⟨by decide, C2_solutions_partition_ids nodesFour linksFour 7 7 defaultOptions resultFour
    (by decide)⟩

/-! ### Weight-sum arithmetic (claim C3) -/

theorem foldl_add_weight (w : String → Rat) :
    ∀ (l : List String) (a : Rat), l.foldl (fun s id => s + w id) a = a + (l.map w).sum
  | [], a => by simp
  | x :: xs, a => by
      rw [List.foldl_cons, foldl_add_weight w xs (a + w x)]
      simp [add_assoc]

theorem groupNodeWeightSum_eq (g : List String) (w : String → Rat) :
    groupNodeWeightSum g w = (g.map w).sum := by
  rw [groupNodeWeightSum, foldl_add_weight]
  simp

theorem groupNodeWeightSum_append (g1 g2 : List String) (w : String → Rat) :
    groupNodeWeightSum (g1 ++ g2) w = groupNodeWeightSum g1 w + groupNodeWeightSum g2 w := by
  simp [groupNodeWeightSum_eq]

theorem groupNodeWeightSum_pair (a b : String) (w : String → Rat) :
    groupNodeWeightSum [a, b] w = w a + w b := by
  simp [groupNodeWeightSum_eq]

theorem groupNodeWeightSum_single (a : String) (w : String → Rat) :
    groupNodeWeightSum [a] w = w a := by
  simp [groupNodeWeightSum_eq]

theorem groupNodeWeightSum_nonneg (g : List String) (w : String → Rat)
    (hw : ∀ id, 0 ≤ w id) : 0 ≤ groupNodeWeightSum g w := by
  rw [groupNodeWeightSum_eq]
  refine List.sum_nonneg ?_
  intro x hx
  rcases List.mem_map.mp hx with ⟨id, _, rfl⟩
  exact hw id

theorem groupNodeWeightSum_sublist_le (g1 g2 : List String) (w : String → Rat)
    (hw : ∀ id, 0 ≤ w id) (hs : g1.Sublist g2) :
    groupNodeWeightSum g1 w ≤ groupNodeWeightSum g2 w := by
  rw [groupNodeWeightSum_eq, groupNodeWeightSum_eq]
  refine List.Sublist.sum_le_sum (hs.map w) ?_
  intro x hx
  rcases List.mem_map.mp hx with ⟨id, _, rfl⟩
  exact hw id

theorem validate_nil_spec (nodes : List Node) (m : ObjMap) (minC maxC : Rat)
    (h : validate nodes m minC maxC = []) :
    nodes ≠ [] ∧ minC ≤ maxC ∧ ∀ n ∈ nodes, n.nodeWeight ≤ maxC := by
  unfold validate at h
  rcases List.append_eq_nil.mp h with ⟨h12, h3⟩
  rcases List.append_eq_nil.mp h12 with ⟨h1, h2⟩
  refine ⟨?_, ?_, ?_⟩
  · intro he
    rw [he] at h1
    simp at h1
  · by_contra hlt
    rw [if_pos (lt_of_not_le hlt)] at h2
    exact List.noConfusion h2
  · intro n hn
    by_contra hgt
    have hmem : n ∈ nodes.filter (fun n => n.nodeWeight > maxC) :=
      List.mem_filter.mpr ⟨hn, decide_eq_true (lt_of_not_le hgt)⟩
    rw [List.map_eq_nil] at h3
    rw [h3] at hmem
    exact absurd hmem (List.not_mem_nil n)

theorem nodesByIdWeight_nonneg (nodes : List Node) (hw : ∀ n ∈ nodes, 0 ≤ n.nodeWeight) :
    ∀ id, 0 ≤ nodesByIdWeight nodes id := by
  intro id
  unfold nodesByIdWeight
  cases hf : nodes.reverse.find? (fun n => n.id = id) with
  | none => simp
  | some n =>
      have hn : n ∈ nodes := List.mem_reverse.mp (List.mem_of_find?_eq_some hf)
      simpa using hw n hn

theorem nodesByIdWeight_le (nodes : List Node) (maxC : Rat) (h0 : 0 ≤ maxC)
    (hw : ∀ n ∈ nodes, n.nodeWeight ≤ maxC) :
    ∀ id, nodesByIdWeight nodes id ≤ maxC := by
  intro id
  unfold nodesByIdWeight
  cases hf : nodes.reverse.find? (fun n => n.id = id) with
  | none => simpa using h0
  | some n =>
      have hn : n ∈ nodes := List.mem_reverse.mp (List.mem_of_find?_eq_some hf)
      simpa using hw n hn

theorem tryAppend_bounds (w : String → Rat) (maxC : Rat) (inG out : String) :
    ∀ (gs gs2 : List (List String)),
      tryAppendToGroupContaining w maxC inG out gs = some gs2 →
      (∀ g ∈ gs, groupNodeWeightSum g w ≤ maxC) →
      ∀ g ∈ gs2, groupNodeWeightSum g w ≤ maxC
  | [], gs2, h, _ => by rw [tryAppendToGroupContaining] at h; exact Option.noConfusion h
  | g0 :: rest, gs2, h, hb => by
      rw [tryAppendToGroupContaining] at h
      split at h
      · rename_i hcond
        cases h
        intro g hg
        rcases List.mem_cons.mp hg with rfl | hg2
        · rw [groupNodeWeightSum_append, groupNodeWeightSum_single]
          exact hcond.2
        · exact hb g (List.mem_cons_of_mem g0 hg2)
      · cases hrec : tryAppendToGroupContaining w maxC inG out rest with
        | none => rw [hrec] at h; exact Option.noConfusion h
        | some gs3 =>
            rw [hrec] at h
            cases Option.some.inj h
            intro g hg
            rcases List.mem_cons.mp hg with rfl | hg2
            · exact hb g (List.mem_cons_self g rest)
            · exact tryAppend_bounds w maxC inG out rest gs3 hrec
                (fun g2 hg2 => hb g2 (List.mem_cons_of_mem g0 hg2)) g hg2

theorem firstGroupWithCapacity_bounds (w : String → Rat) (maxC : Rat) (id : String) :
    ∀ (gs gs2 : List (List String)),
      firstGroupWithCapacity w maxC id gs = some gs2 →
      (∀ g ∈ gs, groupNodeWeightSum g w ≤ maxC) →
      ∀ g ∈ gs2, groupNodeWeightSum g w ≤ maxC
  | [], gs2, h, _ => by rw [firstGroupWithCapacity] at h; exact Option.noConfusion h
  | g0 :: rest, gs2, h, hb => by
      rw [firstGroupWithCapacity] at h
      split at h
      · rename_i hcond
        cases h
        intro g hg
        rcases List.mem_cons.mp hg with rfl | hg2
        · rw [groupNodeWeightSum_append, groupNodeWeightSum_single]
          exact hcond
        · exact hb g (List.mem_cons_of_mem g0 hg2)
      · cases hrec : firstGroupWithCapacity w maxC id rest with
        | none => rw [hrec] at h; exact Option.noConfusion h
        | some gs3 =>
            rw [hrec] at h
            cases Option.some.inj h
            intro g hg
            rcases List.mem_cons.mp hg with rfl | hg2
            · exact hb g (List.mem_cons_self g rest)
            · exact firstGroupWithCapacity_bounds w maxC id rest gs3 hrec
                (fun g2 hg2 => hb g2 (List.mem_cons_of_mem g0 hg2)) g hg2

theorem greedyFixedEdgeStep_bounds (w : String → Rat) (maxC : Rat)
    (freeSet : List String) (st : GBState) (e : Edge)
    (hb : ∀ g ∈ st.groups, groupNodeWeightSum g w ≤ maxC) :
    ∀ g ∈ (greedyFixedEdgeStep w maxC freeSet st e).groups, groupNodeWeightSum g w ≤ maxC := by
  unfold greedyFixedEdgeStep
  split
  · exact hb
  · dsimp only
    split
    · rename_i inGroup hin
      cases htry : tryAppendToGroupContaining w maxC inGroup
          (if inGroup = e.a then e.b else e.a) st.groups with
      | none => exact hb
      | some gs => exact tryAppend_bounds w maxC inGroup _ st.groups gs htry hb
    · split
      · rename_i hcond
        intro g hg
        rcases List.mem_append.mp hg with h2 | h2
        · exact hb g h2
        · rcases List.mem_singleton.mp h2 with rfl
          rw [groupNodeWeightSum_pair]
          exact hcond.2.2
      · exact hb

theorem placeLooseStep_bounds (m : ObjMap) (sym : Bool) (w : String → Rat) (maxC : Rat)
    (af : Bool) (scanIds : List String) (acc : GBState × List String) (id : String)
    (hb : ∀ g ∈ acc.1.groups, groupNodeWeightSum g w ≤ maxC) (hid : w id ≤ maxC) :
    ∀ g ∈ (placeLooseStep m sym w maxC af scanIds acc id).1.groups,
      groupNodeWeightSum g w ≤ maxC := by
  unfold placeLooseStep
  dsimp only
  split
  · exact hb
  · split
    · exact hb
    · cases htry : firstGroupWithCapacity w maxC id acc.1.groups with
      | some gs => exact firstGroupWithCapacity_bounds w maxC id acc.1.groups gs htry hb
      | none =>
          dsimp only
          split
          · exact hb
          · intro g hg
            rcases List.mem_append.mp hg with h2 | h2
            · exact hb g h2
            · rcases List.mem_singleton.mp h2 with rfl
              rw [groupNodeWeightSum_single]
              exact hid

theorem mergeSmallGroupsWithFixed_bounds (groups : List (List String))
    (w : String → Rat) (minC maxC : Rat) (af : Bool) (freeNodes : List String)
    (fgs : List (List String)) (res : GreedyResult)
    (h : mergeSmallGroupsWithFixed groups w minC maxC af freeNodes fgs = some res) :
    ∀ g ∈ res.groups, minC ≤ groupNodeWeightSum g w ∧ groupNodeWeightSum g w ≤ maxC := by
  unfold mergeSmallGroupsWithFixed at h
  dsimp only at h
  split at h
  · rename_i hall
    cases Option.some.inj h
    intro g hg
    have := List.all_eq_true.mp hall g hg
    exact of_decide_eq_true this
  · exact Option.noConfusion h

theorem greedyBuildWithFixed_bounds (freeIds : List String) (fgs : List (List String))
    (w : String → Rat) (m : ObjMap) (minC maxC : Rat) (seed : Nat) (af sym : Bool)
    (res : GreedyResult)
    (h : greedyBuildWithFixed freeIds fgs w m minC maxC seed af sym = some res)
    (hfixU : ∀ g ∈ fgs, groupNodeWeightSum g w ≤ maxC)
    (hwid : ∀ id, w id ≤ maxC) :
    ∀ g ∈ res.groups, minC ≤ groupNodeWeightSum g w ∧ groupNodeWeightSum g w ≤ maxC := by
  unfold greedyBuildWithFixed at h
  dsimp only at h
  have hedge : ∀ g ∈ ((sortEdgesDesc (buildEdges m sym (firstDedup (freeIds ++ fgs.flatten)))).foldl
      (greedyFixedEdgeStep w maxC freeIds) ⟨fgs, fgs.flatten⟩).groups,
      groupNodeWeightSum g w ≤ maxC := by
    refine foldl_preserve_mem (greedyFixedEdgeStep w maxC freeIds)
      (fun st => ∀ g ∈ st.groups, groupNodeWeightSum g w ≤ maxC) _ ?_ _ hfixU
    intro st e _ hst
    exact greedyFixedEdgeStep_bounds w maxC freeIds st e hst
  have hloose : ∀ (l : List String) (acc : GBState × List String),
      (∀ g ∈ acc.1.groups, groupNodeWeightSum g w ≤ maxC) →
      ∀ g ∈ (l.foldl (placeLooseStep m sym w maxC af
          (firstDedup (freeIds ++ fgs.flatten))) acc).1.groups,
        groupNodeWeightSum g w ≤ maxC := by
    intro l
    induction l with
    | nil => intro acc hb; exact hb
    | cons y ys ih =>
        intro acc hb
        rw [List.foldl_cons]
        exact ih _ (placeLooseStep_bounds m sym w maxC af _ acc y hb (hwid y))
  have hacc := hloose (shuffleWithSeed freeIds (seed + 1000))
    ((sortEdgesDesc (buildEdges m sym (firstDedup (freeIds ++ fgs.flatten)))).foldl
      (greedyFixedEdgeStep w maxC freeIds) ⟨fgs, fgs.flatten⟩, []) hedge
  split at h
  · exact mergeSmallGroupsWithFixed_bounds _ w minC maxC af _ fgs res h
  · rename_i hany
    cases Option.some.inj h
    intro g hg
    refine ⟨?_, hacc g hg⟩
    by_contra hlt
    exact hany (List.any_eq_true.mpr ⟨g, hg, decide_eq_true (lt_of_not_le hlt)⟩)

theorem jsMapIdxAux_mem (f : Nat → List String → List String) :
    ∀ (l : List (List String)) (i : Nat) (g2 : List String),
      g2 ∈ jsMapIdxAux f i l → ∃ k g, g ∈ l ∧ g2 = f k g
  | [], _, g2, h => absurd h (List.not_mem_nil g2)
  | g :: gs, i, g2, h => by
      rw [jsMapIdxAux] at h
      rcases List.mem_cons.mp h with rfl | h2
      · exact ⟨i, g, List.mem_cons_self g gs, rfl⟩
      · rcases jsMapIdxAux_mem f gs (i + 1) g2 h2 with ⟨k, g3, hg3, he⟩
        exact ⟨k, g3, List.mem_cons_of_mem g hg3, he⟩

theorem jsMapIdx_mem (f : Nat → List String → List String) (l : List (List String))
    (g2 : List String) (h : g2 ∈ jsMapIdx f l) : ∃ k g, g ∈ l ∧ g2 = f k g :=
  jsMapIdxAux_mem f l 0 g2 h

theorem relocStep_bounds (m : ObjMap) (sym : Bool) (w : String → Rat) (minC maxC : Rat)
    (ntm : List String) (gi j : Nat) (st : LS) (st2 : LS) (b : Bool)
    (hok : relocStep m sym w minC maxC ntm gi j st = .ok (st2, b))
    (hw0 : ∀ id, 0 ≤ w id)
    (hb : ∀ g ∈ st.best, minC ≤ groupNodeWeightSum g w ∧ groupNodeWeightSum g w ≤ maxC) :
    ∀ g ∈ st2.best, minC ≤ groupNodeWeightSum g w ∧ groupNodeWeightSum g w ≤ maxC := by
  unfold relocStep at hok
  split at hok
  · exact (ok_pair_inj hok).1 ▸ hb
  · cases hsrc : st.best.get? gi with
    | none => rw [hsrc] at hok; exact Except.noConfusion hok
    | some src =>
        rw [List.get?_eq_getElem?] at hsrc
        have hsrcmem : src ∈ st.best := List.getElem?_mem hsrc
        rw [← List.get?_eq_getElem?] at hsrc
        rw [hsrc] at hok
        cases hdst : st.best.get? j with
        | none => rw [hdst] at hok; exact (ok_pair_inj hok).1 ▸ hb
        | some dst =>
            rw [List.get?_eq_getElem?] at hdst
            have hdstmem : dst ∈ st.best := List.getElem?_mem hdst
            rw [← List.get?_eq_getElem?] at hdst
            rw [hdst] at hok
            dsimp only at hok
            split at hok
            · split at hok
              · exact (ok_pair_inj hok).1 ▸ hb
              · rename_i hcond
                push_neg at hcond
                split at hok
                · obtain ⟨he, _⟩ := ok_pair_inj hok
                  subst he
                  intro g2 hg2
                  rcases jsMapIdx_mem _ st.best g2 hg2 with ⟨k, g, hg, rfl⟩
                  split
                  · refine ⟨hcond.1, ?_⟩
                    exact le_trans (groupNodeWeightSum_sublist_le _ src w hw0
                      (List.filter_sublist src)) (hb src hsrcmem).2
                  · split
                    · refine ⟨?_, hcond.2⟩
                      rw [groupNodeWeightSum_append]
                      have h0 : (0 : Rat) ≤ groupNodeWeightSum ntm w :=
                        groupNodeWeightSum_nonneg ntm w hw0
                      linarith [(hb dst hdstmem).1]
                    · exact hb g hg
                · exact (ok_pair_inj hok).1 ▸ hb
            · split at hok
              · exact (ok_pair_inj hok).1 ▸ hb
              · split at hok
                · split at hok
                  · exact (ok_pair_inj hok).1 ▸ hb
                  · rename_i hany
                    split at hok
                    · obtain ⟨he, _⟩ := ok_pair_inj hok
                      subst he
                      intro g2 hg2
                      have hcon : ¬ (groupNodeWeightSum g2 w < minC ∨
                          groupNodeWeightSum g2 w > maxC) := by
                        intro hcon
                        exact hany (List.any_eq_true.mpr ⟨g2, hg2, decide_eq_true hcon⟩)
                      push_neg at hcon
                      exact hcon
                    · exact (ok_pair_inj hok).1 ▸ hb
                · split at hok
                  · exact (ok_pair_inj hok).1 ▸ hb
                  · rename_i hany
                    split at hok
                    · obtain ⟨he, _⟩ := ok_pair_inj hok
                      subst he
                      intro g2 hg2
                      have hcon : ¬ (groupNodeWeightSum g2 w < minC ∨
                          groupNodeWeightSum g2 w > maxC) := by
                        intro hcon
                        exact hany (List.any_eq_true.mpr ⟨g2, hg2, decide_eq_true hcon⟩)
                      push_neg at hcon
                      exact hcon
                    · exact (ok_pair_inj hok).1 ▸ hb

theorem gjLoop_bounds (m : ObjMap) (sym : Bool) (w : String → Rat) (minC maxC : Rat)
    (ntm : List String) (gi : Nat) (hw0 : ∀ id, 0 ≤ w id) :
    ∀ (fuel j : Nat) (st : LS) (impr : Bool) (st2 : LS) (b : Bool),
      gjLoop m sym w minC maxC ntm gi fuel j st impr = .ok (st2, b) →
      (∀ g ∈ st.best, minC ≤ groupNodeWeightSum g w ∧ groupNodeWeightSum g w ≤ maxC) →
      ∀ g ∈ st2.best, minC ≤ groupNodeWeightSum g w ∧ groupNodeWeightSum g w ≤ maxC
  | 0, j, st, impr, st2, b, hok, hb => by
      rw [gjLoop] at hok
      exact (ok_pair_inj hok).1 ▸ hb
  | fuel + 1, j, st, impr, st2, b, hok, hb => by
      rw [gjLoop] at hok
      split at hok
      · cases hrs : relocStep m sym w minC maxC ntm gi j st with
        | error e => rw [hrs] at hok; exact Except.noConfusion hok
        | ok p =>
            obtain ⟨st1, acc⟩ := p
            rw [hrs] at hok
            dsimp only at hok
            exact gjLoop_bounds m sym w minC maxC ntm gi hw0 fuel (j + 1) st1
              (impr || acc) st2 b hok
              (relocStep_bounds m sym w minC maxC ntm gi j st st1 acc hrs hw0 hb)
      · exact (ok_pair_inj hok).1 ▸ hb

theorem niLoop_bounds (m : ObjMap) (sym : Bool) (w : String → Rat) (minC maxC : Rat)
    (af : Bool) (fgs : List (List String)) (gi : Nat) (hw0 : ∀ id, 0 ≤ w id) :
    ∀ (fuel ni : Nat) (st st2 : LS) (b : Bool),
      niLoop m sym w minC maxC af fgs gi fuel ni st = .ok (st2, b) →
      (∀ g ∈ st.best, minC ≤ groupNodeWeightSum g w ∧ groupNodeWeightSum g w ≤ maxC) →
      ∀ g ∈ st2.best, minC ≤ groupNodeWeightSum g w ∧ groupNodeWeightSum g w ≤ maxC
  | 0, ni, st, st2, b, hok, hb => by
      rw [niLoop] at hok
      exact (ok_pair_inj hok).1 ▸ hb
  | fuel + 1, ni, st, st2, b, hok, hb => by
      rw [niLoop] at hok
      cases hg : st.best.get? gi with
      | none => rw [hg] at hok; exact Except.noConfusion hok
      | some g =>
          rw [hg] at hok
          dsimp only at hok
          split at hok
          · split at hok
            · exact niLoop_bounds m sym w minC maxC af fgs gi hw0 fuel (ni + 1) st st2 b hok hb
            · split at hok
              · exact Except.noConfusion hok
              · rename_i st1 impr heq
                have hstep := gjLoop_bounds m sym w minC maxC _ gi hw0
                  (st.best.length + 1) 0 st false st1 impr heq hb
                split at hok
                · exact Except.noConfusion hok
                · split at hok
                  · exact (ok_pair_inj hok).1 ▸ hstep
                  · exact niLoop_bounds m sym w minC maxC af fgs gi hw0 fuel (ni + 1) st1 st2 b
                      hok hstep
          · exact (ok_pair_inj hok).1 ▸ hb

theorem giLoop_bounds (m : ObjMap) (sym : Bool) (w : String → Rat) (minC maxC : Rat)
    (af : Bool) (fgs : List (List String)) (hw0 : ∀ id, 0 ≤ w id) :
    ∀ (fuel gi : Nat) (st st2 : LS) (b : Bool),
      giLoop m sym w minC maxC af fgs fuel gi st = .ok (st2, b) →
      (∀ g ∈ st.best, minC ≤ groupNodeWeightSum g w ∧ groupNodeWeightSum g w ≤ maxC) →
      ∀ g ∈ st2.best, minC ≤ groupNodeWeightSum g w ∧ groupNodeWeightSum g w ≤ maxC
  | 0, gi, st, st2, b, hok, hb => by
      rw [giLoop] at hok
      exact (ok_pair_inj hok).1 ▸ hb
  | fuel + 1, gi, st, st2, b, hok, hb => by
      rw [giLoop] at hok
      split at hok
      · dsimp only at hok
        split at hok
        · exact Except.noConfusion hok
        · rename_i st1 impr heq
          have hstep := niLoop_bounds m sym w minC maxC af fgs gi hw0 _ 0 st st1 impr heq hb
          split at hok
          · exact (ok_pair_inj hok).1 ▸ hstep
          · exact giLoop_bounds m sym w minC maxC af fgs hw0 fuel (gi + 1) st1 st2 b hok hstep
      · exact (ok_pair_inj hok).1 ▸ hb

theorem freeGjLoop_bounds (m : ObjMap) (sym : Bool) (w : String → Rat) (maxC : Rat)
    (minC : Rat) (node : String) (fi : Nat) (hw0 : ∀ id, 0 ≤ w id) :
    ∀ (fuel j : Nat) (st : LS),
      (∀ g ∈ st.best, minC ≤ groupNodeWeightSum g w ∧ groupNodeWeightSum g w ≤ maxC) →
      ∀ g ∈ (freeGjLoop m sym w maxC node fi fuel j st).1.best,
        minC ≤ groupNodeWeightSum g w ∧ groupNodeWeightSum g w ≤ maxC
  | 0, j, st, hb => hb
  | fuel + 1, j, st, hb => by
      rw [freeGjLoop]
      split
      · rename_i hj
        dsimp only
        split
        · exact freeGjLoop_bounds m sym w maxC minC node fi hw0 fuel (j + 1) st hb
        · rename_i hgt
          split
          · intro g2 hg2
            rcases jsMapIdx_mem _ st.best g2 hg2 with ⟨k, g, hg, rfl⟩
            split
            · refine ⟨?_, le_of_not_lt hgt⟩
              rw [groupNodeWeightSum_append, groupNodeWeightSum_single]
              have h0 := hw0 node
              have hmem : st.best[j] ∈ st.best := List.get_mem st.best j hj
              have h1 := (hb _ hmem).1
              linarith
            · exact hb g hg
          · exact freeGjLoop_bounds m sym w maxC minC node fi hw0 fuel (j + 1) st hb
      · exact hb

theorem freeFiLoop_bounds (m : ObjMap) (sym : Bool) (w : String → Rat) (maxC : Rat)
    (minC : Rat) (hw0 : ∀ id, 0 ≤ w id) :
    ∀ (fuel fi : Nat) (st : LS),
      (∀ g ∈ st.best, minC ≤ groupNodeWeightSum g w ∧ groupNodeWeightSum g w ≤ maxC) →
      ∀ g ∈ (freeFiLoop m sym w maxC fuel fi st).1.best,
        minC ≤ groupNodeWeightSum g w ∧ groupNodeWeightSum g w ≤ maxC
  | 0, fi, st, hb => hb
  | fuel + 1, fi, st, hb => by
      rw [freeFiLoop]
      split
      · rename_i hfi
        dsimp only
        have hr := freeGjLoop_bounds m sym w maxC minC (st.bestFree.get ⟨fi, hfi⟩) fi hw0
          (st.best.length + 1) 0 st hb
        split
        · exact hr
        · exact freeFiLoop_bounds m sym w maxC minC hw0 fuel (fi + 1) _ hr
      · exact hb

theorem lsIteration_bounds (m : ObjMap) (sym : Bool) (w : String → Rat) (minC maxC : Rat)
    (af : Bool) (fgs : List (List String)) (st st2 : LS) (hw0 : ∀ id, 0 ≤ w id)
    (hok : lsIteration m sym w minC maxC af fgs st = .ok st2)
    (hb : ∀ g ∈ st.best, minC ≤ groupNodeWeightSum g w ∧ groupNodeWeightSum g w ≤ maxC) :
    ∀ g ∈ st2.best, minC ≤ groupNodeWeightSum g w ∧ groupNodeWeightSum g w ≤ maxC := by
  unfold lsIteration at hok
  split at hok
  · exact Except.noConfusion hok
  · rename_i st1 impr1 heq
    have hg := giLoop_bounds m sym w minC maxC af fgs hw0 _ 0 st st1 impr1 heq hb
    split at hok
    · exact (Except.ok.inj hok) ▸ hg
    · dsimp only at hok
      split at hok
      · have hr := freeFiLoop_bounds m sym w maxC minC hw0 (st1.bestFree.length + 1) 0 st1 hg
        split at hok
        · have he : (freeFiLoop m sym w maxC (st1.bestFree.length + 1) 0 st1).1 = st2 :=
            Except.ok.inj hok
          exact he ▸ hr
        · exact Except.noConfusion hok
      · split at hok
        · have he : st1 = st2 := Except.ok.inj hok
          exact he ▸ hg
        · exact Except.noConfusion hok

theorem lsLoop_bounds (m : ObjMap) (sym : Bool) (w : String → Rat) (minC maxC : Rat)
    (af : Bool) (fgs : List (List String)) (hw0 : ∀ id, 0 ≤ w id) :
    ∀ (fuel : Nat) (st st2 : LS),
      lsLoop m sym w minC maxC af fgs fuel st = .ok st2 →
      (∀ g ∈ st.best, minC ≤ groupNodeWeightSum g w ∧ groupNodeWeightSum g w ≤ maxC) →
      ∀ g ∈ st2.best, minC ≤ groupNodeWeightSum g w ∧ groupNodeWeightSum g w ≤ maxC
  | 0, st, st2, hok, hb => by
      rw [lsLoop] at hok
      exact (Except.ok.inj hok) ▸ hb
  | fuel + 1, st, st2, hok, hb => by
      rw [lsLoop] at hok
      split at hok
      · exact Except.noConfusion hok
      · rename_i st1 heq
        exact lsLoop_bounds m sym w minC maxC af fgs hw0 fuel st1 st2 hok
          (lsIteration_bounds m sym w minC maxC af fgs st st1 hw0 heq hb)

theorem localSearch_bounds (g0 : List (List String)) (f0 ids : List String)
    (w : String → Rat) (m : ObjMap) (minC maxC : Rat) (af sym : Bool)
    (fgs : List (List String)) (res : GreedyResult) (hw0 : ∀ id, 0 ≤ w id)
    (hok : localSearch g0 f0 ids w m minC maxC af sym (FixedArg.arr fgs) = .ok res)
    (hb : ∀ g ∈ g0, minC ≤ groupNodeWeightSum g w ∧ groupNodeWeightSum g w ≤ maxC) :
    ∀ g ∈ res.groups, minC ≤ groupNodeWeightSum g w ∧ groupNodeWeightSum g w ≤ maxC := by
  unfold localSearch at hok
  dsimp only at hok
  split at hok
  · exact Except.noConfusion hok
  · rename_i st heq
    have hls := lsLoop_bounds m sym w minC maxC af fgs hw0 200
      ⟨g0, f0, solutionTotalWeight g0 m sym⟩ st heq hb
    cases Except.ok.inj hok
    exact hls

theorem exhRec_bounds (ids : List String) (w : String → Rat) (minC maxC : Rat)
    (allowFree : Bool) :
    ∀ (fuel : Nat) (pre : List Int) (c : Cand), c ∈ exhRec ids w minC maxC allowFree fuel pre →
      ∀ g ∈ c.groups, minC ≤ groupNodeWeightSum g w ∧ groupNodeWeightSum g w ≤ maxC
  | 0, a, c, hc => by
      rw [exhRec] at hc
      split at hc
      · rename_i hall
        rcases List.mem_singleton.mp hc with rfl
        intro g hg
        exact of_decide_eq_true (List.all_eq_true.mp hall g hg)
      · exact absurd hc (List.not_mem_nil c)
  | fuel + 1, pre, c, hc => by
      rw [exhRec] at hc
      rcases List.mem_append.mp hc with hc2 | hc2
      · rcases List.mem_append.mp hc2 with hc3 | hc3
        · split at hc3
          · exact exhRec_bounds ids w minC maxC allowFree fuel _ c hc3
          · exact absurd hc3 (List.not_mem_nil c)
        · rcases List.mem_flatMap.mp hc3 with ⟨g, _, hcg⟩
          split at hcg
          · exact exhRec_bounds ids w minC maxC allowFree fuel _ c hcg
          · exact absurd hcg (List.not_mem_nil c)
      · dsimp only at hc2
        split at hc2
        · exact exhRec_bounds ids w minC maxC allowFree fuel _ c hc2
        · exact absurd hc2 (List.not_mem_nil c)

theorem addSolution_bounds_inv (opts : Options) (m : ObjMap) (w : String → Rat)
    (minC maxC : Rat) (n : Nat) (st : Archive) (gs : List (List String)) (free : List String)
    (hgb : ∀ g ∈ gs, minC ≤ groupNodeWeightSum g w ∧ groupNodeWeightSum g w ≤ maxC)
    (hP : ∀ sol ∈ st.sols, ∀ g ∈ sol.groups,
      minC ≤ groupNodeWeightSum g w ∧ groupNodeWeightSum g w ≤ maxC) :
    ∀ sol ∈ (addSolution opts m w n st gs free).sols, ∀ g ∈ sol.groups,
      minC ≤ groupNodeWeightSum g w ∧ groupNodeWeightSum g w ≤ maxC := by
  intro sol hsol
  rcases addSolution_sols_cases opts m w n st gs free sol hsol with h | ⟨rfl, _⟩
  · exact hP sol h
  · exact hgb

theorem computeGroups_ok_main (nodes : List Node) (m : ObjMap) (minC maxC : Rat)
    (opts : Options) (r : SolveResult)
    (h : computeGroups nodes m minC maxC opts = .ok r) :
    r.solutions = [] ∨
    (validate nodes m minC maxC = [] ∧
      ¬ (effectiveFixedGroups (nodes.map (·.id)) opts.fixedGroups).any
        (fun g => groupNodeWeightSum g (nodesByIdWeight nodes) > maxC) = true ∧
      ∃ arch,
        solveArchive nodes m minC maxC opts (nodes.map (·.id))
          (effectiveFixedGroups (nodes.map (·.id)) opts.fixedGroups) = .ok arch ∧
        r.solutions = (finishSolve m opts (isSmallInstance (nodes.map (·.id)) opts.allowFreeNodes)
          (effectiveFixedGroups (nodes.map (·.id)) opts.fixedGroups).length arch).1) := by
  unfold computeGroups at h
  by_cases h1 : (validate nodes m minC maxC).length > 0
  · rw [if_pos h1] at h
    cases h
    exact Or.inl rfl
  · rw [if_neg h1] at h
    have hval : validate nodes m minC maxC = [] := by
      cases hv : validate nodes m minC maxC with
      | nil => rfl
      | cons a l =>
          rw [hv] at h1
          exact absurd (by simp) h1
    by_cases h2 : ¬ (effectiveFixedGroups (nodes.map (·.id)) opts.fixedGroups).flatten.Nodup
    · rw [if_pos h2] at h
      cases h
      exact Or.inl rfl
    · rw [if_neg h2] at h
      by_cases h3 : (effectiveFixedGroups (nodes.map (·.id)) opts.fixedGroups).any
          (fun g => groupNodeWeightSum g (nodesByIdWeight nodes) > maxC)
      · rw [if_pos h3] at h
        cases h
        exact Or.inl rfl
      · rw [if_neg h3] at h
        cases harch : solveArchive nodes m minC maxC opts (nodes.map (·.id))
            (effectiveFixedGroups (nodes.map (·.id)) opts.fixedGroups) with
        | error e => rw [harch] at h; cases h
        | ok arch =>
            rw [harch] at h
            cases h
            exact Or.inr ⟨hval, h3, arch, rfl, rfl⟩

/-- C3: every group of every solution returned by `computeGroups` has a node
weight sum within `[min, max]`, for inputs whose node weights are
non-negative as the data model requires.  Exhaustive candidates pass the
emission bounds check; greedy-with-fixed results are bounded above by the
per-append capacity checks (seeded by the fixed-group weight guard and the
per-node validation) and below by the small-group repair's final check or
the `any`-below-min test; local-search moves re-check the bounds of every
changed group before acceptance. -/
theorem C3_group_weights_in_bounds (nodes : List Node) (m : ObjMap) (minC maxC : Rat)
    (opts : Options) (r : SolveResult)
    (hw : ∀ n ∈ nodes, 0 ≤ n.nodeWeight)
    (hok : computeGroups nodes m minC maxC opts = .ok r) :
    ∀ sol ∈ r.solutions, ∀ g ∈ sol.groups,
      minC ≤ groupNodeWeightSum g (nodesByIdWeight nodes) ∧
        groupNodeWeightSum g (nodesByIdWeight nodes) ≤ maxC := by
  rcases computeGroups_ok_main nodes m minC maxC opts r hok with hnil | ⟨hval, hfixg, arch, harch, hs⟩
  · rw [hnil]
    intro sol hsol
    exact absurd hsol (List.not_mem_nil sol)
  · rcases validate_nil_spec nodes m minC maxC hval with ⟨hne, _, hwle⟩
    have hw0 : ∀ id, 0 ≤ nodesByIdWeight nodes id := nodesByIdWeight_nonneg nodes hw
    have hmax0 : (0 : Rat) ≤ maxC := by
      cases hn : nodes with
      | nil => exact absurd hn hne
      | cons n rest =>
          have h1 := hw n (hn ▸ List.mem_cons_self n rest)
          have h2 := hwle n (hn ▸ List.mem_cons_self n rest)
          linarith
    have hwid : ∀ id, nodesByIdWeight nodes id ≤ maxC :=
      nodesByIdWeight_le nodes maxC hmax0 hwle
    have hfixU : ∀ g ∈ effectiveFixedGroups (nodes.map (·.id)) opts.fixedGroups,
        groupNodeWeightSum g (nodesByIdWeight nodes) ≤ maxC := by
      intro g hg
      by_contra hgt
      exact hfixg (List.any_eq_true.mpr ⟨g, hg, decide_eq_true (lt_of_not_le hgt)⟩)
    have hP : ∀ sol ∈ arch.sols, ∀ g ∈ sol.groups,
        minC ≤ groupNodeWeightSum g (nodesByIdWeight nodes) ∧
          groupNodeWeightSum g (nodesByIdWeight nodes) ≤ maxC := by
      refine solveArchive_ok_P nodes m minC maxC opts _ _ arch
        (fun a => ∀ sol ∈ a.sols, ∀ g ∈ sol.groups,
          minC ≤ groupNodeWeightSum g (nodesByIdWeight nodes) ∧
            groupNodeWeightSum g (nodesByIdWeight nodes) ≤ maxC)
        ?_ ?_ ?_ ?_ harch
      · intro sol hsol
        exact absurd hsol (List.not_mem_nil sol)
      · intro st c hc hP2
        refine addSolution_bounds_inv opts m _ minC maxC _ st c.groups c.free ?_ hP2
        have hc2 : c ∈ exhRec (nodes.map (·.id)) (nodesByIdWeight nodes) minC maxC
            opts.allowFreeNodes (nodes.map (·.id)).length [] := hc
        exact exhRec_bounds (nodes.map (·.id)) (nodesByIdWeight nodes) minC maxC
          opts.allowFreeNodes (nodes.map (·.id)).length [] c hc2
      · intro st seed res hg hP2
        refine addSolution_bounds_inv opts m _ minC maxC _ st res.groups res.freeNodes ?_ hP2
        exact greedyBuildWithFixed_bounds _ _ _ m minC maxC seed _ _ res hg hfixU hwid
      · intro st seed res improved hg hl hP2
        refine addSolution_bounds_inv opts m _ minC maxC _ st improved.groups
          improved.freeNodes ?_ hP2
        exact localSearch_bounds res.groups res.freeNodes _ _ m minC maxC _ _ _
          improved hw0 hl
          (greedyBuildWithFixed_bounds _ _ _ m minC maxC seed _ _ res hg hfixU hwid)
    have hprune : ∀ sol ∈ pruneWastefulSolutions m opts.symmetricLinks arch.sols,
        sol ∈ arch.sols := by
      intro sol hsol
      unfold pruneWastefulSolutions at hsol
      split at hsol
      · exact List.mem_of_mem_filter hsol
      · exact hsol
    rw [hs]
    unfold finishSolve
    dsimp only
    intro sol hsol
    split at hsol
    · exact hP sol (hprune sol ((mem_sortSolutionsDesc _ sol _).mp hsol))
    · exact hP sol (hprune sol hsol)

/-- C3 witness: the theorem applied to the concrete 4-node instance. -/
theorem C3_witness :
    (∀ n ∈ nodesFour, 0 ≤ n.nodeWeight) ∧
    computeGroups nodesFour linksFour 7 7 defaultOptions = .ok resultFour ∧
    ∀ sol ∈ resultFour.solutions, ∀ g ∈ sol.groups,
      7 ≤ groupNodeWeightSum g (nodesByIdWeight nodesFour) ∧
        groupNodeWeightSum g (nodesByIdWeight nodesFour) ≤ 7 :=
  ⟨by decide, by decide,
    C3_group_weights_in_bounds nodesFour linksFour 7 7 defaultOptions resultFour
      (by decide) (by decide)⟩

/-! ### Claim C4: list and enumeration lemmas -/

theorem firstDedupAux_mem_of_mem [DecidableEq α] (x : α) :
    ∀ (l seen : List α), x ∈ l → x ∉ seen → x ∈ firstDedupAux seen l
  | [], _, hx, _ => absurd hx (List.not_mem_nil x)
  | y :: ys, seen, hx, hseen => by
      rw [firstDedupAux]
      by_cases hxy : x = y
      · subst hxy
        rw [if_neg hseen]
        exact List.mem_cons_self x _
      · have hx2 : x ∈ ys := by
          rcases List.mem_cons.mp hx with h | h
          · exact absurd h hxy
          · exact h
        split
        · exact firstDedupAux_mem_of_mem x ys seen hx2 hseen
        · refine List.mem_cons_of_mem y ?_
          refine firstDedupAux_mem_of_mem x ys (y :: seen) hx2 ?_
          intro hc
          rcases List.mem_cons.mp hc with h | h
          · exact hxy h
          · exact hseen h

theorem mem_firstDedup_of_mem [DecidableEq α] (l : List α) (x : α) (h : x ∈ l) :
    x ∈ firstDedup l :=
  firstDedupAux_mem_of_mem x l [] h (List.not_mem_nil x)

theorem firstDedupAux_snoc_mem [DecidableEq α] (x : α) :
    ∀ (l seen : List α), x ∈ seen ∨ x ∈ l →
      firstDedupAux seen (l ++ [x]) = firstDedupAux seen l
  | [], seen, hx => by
      have hxs : x ∈ seen := by
        rcases hx with h | h
        · exact h
        · exact absurd h (List.not_mem_nil x)
      simp [firstDedupAux, hxs]
  | y :: ys, seen, hx => by
      rw [List.cons_append, firstDedupAux, firstDedupAux]
      split
      · rename_i hy
        refine firstDedupAux_snoc_mem x ys seen ?_
        rcases hx with h | h
        · exact Or.inl h
        · rcases List.mem_cons.mp h with rfl | h2
          · exact Or.inl hy
          · exact Or.inr h2
      · rw [firstDedupAux_snoc_mem x ys (y :: seen) ?_]
        rcases hx with h | h
        · exact Or.inl (List.mem_cons_of_mem y h)
        · rcases List.mem_cons.mp h with rfl | h2
          · exact Or.inl (List.mem_cons_self x seen)
          · exact Or.inr h2

theorem firstDedupAux_snoc_fresh [DecidableEq α] (x : α) :
    ∀ (l seen : List α), x ∉ seen → x ∉ l →
      firstDedupAux seen (l ++ [x]) = firstDedupAux seen l ++ [x]
  | [], seen, hxs, _ => by simp [firstDedupAux, hxs]
  | y :: ys, seen, hxs, hxl => by
      have hxy : x ≠ y := fun he => hxl (he ▸ List.mem_cons_self x ys)
      have hxys : x ∉ ys := fun h2 => hxl (List.mem_cons_of_mem y h2)
      rw [List.cons_append, firstDedupAux, firstDedupAux]
      split
      · exact firstDedupAux_snoc_fresh x ys seen hxs hxys
      · rw [firstDedupAux_snoc_fresh x ys (y :: seen) ?_ hxys, List.cons_append]
        intro hc
        rcases List.mem_cons.mp hc with h | h
        · exact hxy h
        · exact hxs h

theorem firstDedupAux_eq_self [DecidableEq α] :
    ∀ (l seen : List α), l.Nodup → (∀ x ∈ l, x ∉ seen) → firstDedupAux seen l = l
  | [], _, _, _ => rfl
  | y :: ys, seen, hnd, hdisj => by
      rw [firstDedupAux, if_neg (hdisj y (List.mem_cons_self y ys))]
      rw [firstDedupAux_eq_self ys (y :: seen) (List.nodup_cons.mp hnd).2 ?_]
      intro x hx hc
      rcases List.mem_cons.mp hc with rfl | h
      · exact (List.nodup_cons.mp hnd).1 hx
      · exact hdisj x (List.mem_cons_of_mem y hx) h

theorem firstDedup_eq_self [DecidableEq α] (l : List α) (h : l.Nodup) :
    firstDedup l = l :=
  firstDedupAux_eq_self l [] h (fun x _ => List.not_mem_nil x)

theorem zip_trunc : ∀ (pre : List Int) (done rest2 : List String),
    pre.length = done.length → pre.zip (done ++ rest2) = pre.zip done
  | [], _, _, _ => by simp
  | v :: vs, [], rest2, h => by simp at h
  | v :: vs, d :: ds, rest2, h => by
      simp only [List.cons_append, List.zip_cons_cons]
      rw [zip_trunc vs ds rest2 (by simpa using h)]

theorem zip_snoc : ∀ (pre : List Int) (done : List String) (v : Int) (id : String)
    (rest2 : List String), pre.length = done.length →
    (pre ++ [v]).zip (done ++ id :: rest2) = pre.zip done ++ [(v, id)]
  | [], [], v, id, rest2, _ => by simp
  | [], d :: ds, v, id, rest2, h => by simp at h
  | p :: ps, [], v, id, rest2, h => by simp at h
  | p :: ps, d :: ds, v, id, rest2, h => by
      simp only [List.cons_append, List.zip_cons_cons]
      rw [zip_snoc ps ds v id rest2 (by simpa using h)]

theorem membersAt_snoc (ids done rest2 : List String) (id : String) (pre : List Int)
    (v g : Int) (hids : ids = done ++ id :: rest2) (hlen : pre.length = done.length) :
    membersAt ids (pre ++ [v]) g
      = membersAt ids pre g ++ (if v = g then [id] else []) := by
  unfold membersAt
  rw [hids, zip_snoc pre done v id rest2 hlen, zip_trunc pre done (id :: rest2) hlen]
  rw [List.filter_append, List.map_append]
  congr 1
  by_cases hv : v = g
  · simp [hv]
  · simp [hv]

theorem zip_map_snd_sublist : ∀ (a : List Int) (ids : List String),
    ((a.zip ids).map (·.2)).Sublist ids
  | [], ids => by simp
  | v :: vs, [] => by simp
  | v :: vs, x :: xs => by
      simp only [List.zip_cons_cons, List.map_cons]
      exact (zip_map_snd_sublist vs xs).cons₂ x

theorem membersAt_sublist (ids : List String) (a : List Int) (g : Int) :
    (membersAt ids a g).Sublist ids := by
  unfold membersAt
  refine List.Sublist.trans ?_ (zip_map_snd_sublist a ids)
  exact ((a.zip ids).filter_sublist).map (·.2)

theorem membersAt_nodup (ids : List String) (a : List Int) (g : Int)
    (h : ids.Nodup) : (membersAt ids a g).Nodup :=
  (membersAt_sublist ids a g).nodup h

theorem membersAt_nil_left (ids : List String) (g : Int) :
    membersAt ids [] g = [] := by
  unfold membersAt
  simp

theorem usedGroupsOf_nil : usedGroupsOf [] = [] := rfl

theorem usedGroupsOf_snoc_neg (pre : List Int) :
    usedGroupsOf (pre ++ [-1]) = usedGroupsOf pre := by
  unfold usedGroupsOf
  rw [List.filter_append]
  simp

theorem usedGroupsOf_snoc_mem (pre : List Int) (v : Int) (h0 : 0 ≤ v)
    (h : v ∈ usedGroupsOf pre) : usedGroupsOf (pre ++ [v]) = usedGroupsOf pre := by
  unfold usedGroupsOf at h ⊢
  rw [List.filter_append]
  have : List.filter (fun x => decide (0 ≤ x)) [v] = [v] := by simp [h0]
  rw [this]
  exact firstDedupAux_snoc_mem v _ [] (Or.inr (mem_firstDedup _ v h))

theorem usedGroupsOf_snoc_fresh (pre : List Int) (v : Int) (h0 : 0 ≤ v)
    (h : v ∉ usedGroupsOf pre) : usedGroupsOf (pre ++ [v]) = usedGroupsOf pre ++ [v] := by
  unfold usedGroupsOf at h ⊢
  rw [List.filter_append]
  have : List.filter (fun x => decide (0 ≤ x)) [v] = [v] := by simp [h0]
  rw [this]
  refine firstDedupAux_snoc_fresh v _ [] (List.not_mem_nil v) ?_
  intro hc
  exact h (mem_firstDedup_of_mem _ v hc)

theorem insertIntLe_ge (x : Int) :
    ∀ l : List Int, (∀ y ∈ l, ¬ x < y) → insertIntLe x l = l ++ [x]
  | [], _ => rfl
  | y :: ys, h => by
      rw [insertIntLe, if_neg (h y (List.mem_cons_self y ys))]
      rw [insertIntLe_ge x ys (fun z hz => h z (List.mem_cons_of_mem y hz))]
      rfl

theorem sortIntsAsc_range : ∀ k : Nat,
    sortIntsAsc ((List.range k).map Int.ofNat) = (List.range k).map Int.ofNat
  | 0 => rfl
  | k + 1 => by
      rw [List.range_succ, List.map_append]
      unfold sortIntsAsc
      rw [List.foldl_append]
      have hfold : (List.range k |>.map Int.ofNat).foldl
          (fun acc x => insertIntLe x acc) [] = (List.range k).map Int.ofNat :=
        sortIntsAsc_range k
      rw [hfold]
      simp only [List.map_cons, List.map_nil, List.foldl_cons, List.foldl_nil]
      refine insertIntLe_ge _ _ ?_
      intro y hy
      rcases List.mem_map.mp hy with ⟨i, hi, rfl⟩
      have : i < k := List.mem_range.mp hi
      simp only [Int.ofNat_eq_coe, not_lt]
      exact_mod_cast Nat.le_of_lt this

theorem foldlMax_le (M : Int) : ∀ (xs : List Int) (x : Int), x ≤ M → (∀ y ∈ xs, y ≤ M) →
    xs.foldl (fun acc v => if v > acc then v else acc) x ≤ M
  | [], x, hx, _ => hx
  | y :: ys, x, hx, hys => by
      rw [List.foldl_cons]
      refine foldlMax_le M ys _ ?_ (fun z hz => hys z (List.mem_cons_of_mem y hz))
      split
      · exact hys y (List.mem_cons_self y ys)
      · exact hx

theorem foldlMax_ge_init : ∀ (xs : List Int) (x : Int),
    x ≤ xs.foldl (fun acc v => if v > acc then v else acc) x
  | [], x => le_refl x
  | y :: ys, x => by
      rw [List.foldl_cons]
      refine le_trans ?_ (foldlMax_ge_init ys _)
      split
      · rename_i hgt
        exact le_of_lt hgt
      · exact le_refl x

theorem foldlMax_ge_mem : ∀ (xs : List Int) (x y : Int), y ∈ xs →
    y ≤ xs.foldl (fun acc v => if v > acc then v else acc) x
  | [], x, y, hy => absurd hy (List.not_mem_nil y)
  | z :: zs, x, y, hy => by
      rw [List.foldl_cons]
      rcases List.mem_cons.mp hy with rfl | h2
      · refine le_trans ?_ (foldlMax_ge_init zs _)
        split
        · exact le_refl y
        · rename_i hng
          exact le_of_not_lt hng
      · exact foldlMax_ge_mem zs _ y h2

theorem nextNewOf_range : ∀ k : Nat,
    nextNewOf ((List.range k).map Int.ofNat) = (k : Int)
  | 0 => rfl
  | k + 1 => by
      rw [List.range_succ_eq_map]
      simp only [List.map_cons, List.map_map]
      unfold nextNewOf
      dsimp only
      have h1 : ((List.range k).map (Int.ofNat ∘ Nat.succ)).foldl
          (fun acc v => if v > acc then v else acc) (Int.ofNat 0) = (k : Int) := by
        refine le_antisymm ?_ ?_
        · refine foldlMax_le (k : Int) _ (Int.ofNat 0) (by simp) ?_
          intro y hy
          rcases List.mem_map.mp hy with ⟨i, hi, rfl⟩
          have : i < k := List.mem_range.mp hi
          simp only [Function.comp_apply, Int.ofNat_eq_coe]
          exact_mod_cast Nat.succ_le_of_lt this
        · cases k with
          | zero => simp
          | succ k2 =>
              refine foldlMax_ge_mem _ (Int.ofNat 0) _ ?_
              refine List.mem_map.mpr ⟨k2, ?_, ?_⟩
              · exact List.mem_range.mpr (Nat.lt_succ_self k2)
              · simp
      rw [h1]
      simp

theorem map_getD_range : ∀ l : List (List String),
    (List.range l.length).map (fun j => l.getD j []) = l
  | [] => rfl
  | x :: xs => by
      rw [List.length_cons, List.range_succ_eq_map, List.map_cons, List.map_map]
      have h2 : ((fun j => (x :: xs).getD j []) ∘ Nat.succ) = fun j => xs.getD j [] := by
        funext j
        simp
      rw [h2]
      simp only [List.getD_cons_zero]
      rw [map_getD_range xs]

theorem perm_insertSolDesc (sc : Solution → Rat) (x : Solution) :
    ∀ l : List Solution, (insertSolDesc sc x l).Perm (x :: l)
  | [] => List.Perm.refl _
  | y :: ys => by
      rw [insertSolDesc]
      split
      · exact List.Perm.refl _
      · exact List.Perm.trans ((perm_insertSolDesc sc x ys).cons y) (List.Perm.swap x y ys)

theorem perm_sortSolutionsDesc_foldl (sc : Solution → Rat) :
    ∀ (l acc : List Solution),
      (l.foldl (fun acc x => insertSolDesc sc x acc) acc).Perm (acc ++ l)
  | [], acc => by simp
  | x :: xs, acc => by
      rw [List.foldl_cons]
      refine List.Perm.trans (perm_sortSolutionsDesc_foldl sc xs (insertSolDesc sc x acc)) ?_
      refine List.Perm.trans (List.Perm.append_right xs (perm_insertSolDesc sc x acc)) ?_
      exact (List.perm_middle).symm

theorem perm_sortSolutionsDesc (sc : Solution → Rat) (l : List Solution) :
    (sortSolutionsDesc sc l).Perm l := by
  rw [sortSolutionsDesc]
  simpa using perm_sortSolutionsDesc_foldl sc l []

theorem foldl_add_generic {α : Type} (f : α → Rat) :
    ∀ (l : List α) (a : Rat), l.foldl (fun s x => s + f x) a = a + (l.map f).sum
  | [], a => by simp
  | x :: xs, a => by
      rw [List.foldl_cons, foldl_add_generic f xs (a + f x)]
      simp [add_assoc]

theorem groupCombinedWeight_cons (m : ObjMap) (sym : Bool) (a : String)
    (rest : List String) :
    groupCombinedWeight m sym (a :: rest)
      = (rest.map (fun b => getPairLinkWeight m a b sym)).sum
        + groupCombinedWeight m sym rest := by
  rw [groupCombinedWeight]
  rw [foldl_add_generic (fun b => getPairLinkWeight m a b sym) rest 0]
  simp

theorem groupCombinedWeight_perm (m : ObjMap) (sym : Bool)
    (hsym : ∀ a b, getPairLinkWeight m a b sym = getPairLinkWeight m b a sym)
    {g1 g2 : List String} (hp : g1.Perm g2) :
    groupCombinedWeight m sym g1 = groupCombinedWeight m sym g2 := by
  induction hp with
  | nil => rfl
  | cons x hp2 ih =>
      rw [groupCombinedWeight_cons, groupCombinedWeight_cons, ih,
        List.Perm.sum_eq (hp2.map (fun b => getPairLinkWeight m x b sym))]
  | swap x y l =>
      rw [groupCombinedWeight_cons, groupCombinedWeight_cons,
        groupCombinedWeight_cons, groupCombinedWeight_cons]
      simp only [List.map_cons, List.sum_cons]
      rw [hsym y x]
      ring
  | trans h1 h2 ih1 ih2 => rw [ih1, ih2]

theorem solutionTotalWeight_eq_sum (gs : List (List String)) (m : ObjMap) (sym : Bool) :
    solutionTotalWeight gs m sym = (gs.map (groupCombinedWeight m sym)).sum := by
  rw [solutionTotalWeight, foldl_add_generic (groupCombinedWeight m sym) gs 0]
  simp

theorem forall₂_perm_map_gcw (m : ObjMap) (sym : Bool)
    (hsym : ∀ a b, getPairLinkWeight m a b sym = getPairLinkWeight m b a sym) :
    ∀ {l1 l2 : List (List String)}, List.Forall₂ (fun a b => a.Perm b) l1 l2 →
      l1.map (groupCombinedWeight m sym) = l2.map (groupCombinedWeight m sym) := by
  intro l1 l2 h
  induction h with
  | nil => rfl
  | cons hab h2 ih =>
      simp only [List.map_cons]
      rw [groupCombinedWeight_perm m sym hsym hab, ih]

theorem solutionTotalWeight_equiv (m : ObjMap) (sym : Bool)
    (hsym : ∀ a b, getPairLinkWeight m a b sym = getPairLinkWeight m b a sym)
    (gs1 gs2 : List (List String)) (h : groupsEquiv gs1 gs2) :
    solutionTotalWeight gs1 m sym = solutionTotalWeight gs2 m sym := by
  rcases h with ⟨mid, hf, hp⟩
  rw [solutionTotalWeight_eq_sum, solutionTotalWeight_eq_sum]
  rw [forall₂_perm_map_gcw m sym hsym hf]
  exact List.Perm.sum_eq (hp.map _)

theorem wasteful_group_perm (m : ObjMap) (sym : Bool) {g1 g2 : List String}
    (hp : g1.Perm g2)
    (h : 1 < g1.length ∧ ∃ id ∈ g1, ∀ other ∈ g1, other = id ∨ getLinkWeight m id other sym = 0) :
    1 < g2.length ∧ ∃ id ∈ g2, ∀ other ∈ g2, other = id ∨ getLinkWeight m id other sym = 0 := by
  rcases h with ⟨hlen, id, hid, hall⟩
  refine ⟨?_, id, hp.mem_iff.mp hid, fun other hother => hall other (hp.mem_iff.mpr hother)⟩
  rw [← hp.length_eq]
  exact hlen

theorem wastefulGroups_equiv (m : ObjMap) (sym : Bool) (gs1 gs2 : List (List String))
    (h : groupsEquiv gs1 gs2) :
    wastefulGroups m sym gs1 ↔ wastefulGroups m sym gs2 := by
  rcases h with ⟨mid, hf, hp⟩
  constructor
  · rintro ⟨g, hg, hprop⟩
    rcases (List.forall₂_iff_get.mp hf) with ⟨hlen, hget⟩
    rcases List.mem_iff_get.mp hg with ⟨i, rfl⟩
    have hi2 : (i : Nat) < mid.length := by rw [← hlen]; exact i.2
    refine ⟨mid.get ⟨i, hi2⟩, hp.mem_iff.mp (List.get_mem mid _ hi2), ?_⟩
    exact wasteful_group_perm m sym (hget i i.2 hi2) hprop
  · rintro ⟨g, hg, hprop⟩
    have hg2 : g ∈ mid := hp.mem_iff.mpr hg
    rcases (List.forall₂_iff_get.mp hf) with ⟨hlen, hget⟩
    rcases List.mem_iff_get.mp hg2 with ⟨i, rfl⟩
    have hi1 : (i : Nat) < gs1.length := by rw [hlen]; exact i.2
    refine ⟨gs1.get ⟨i, hi1⟩, List.get_mem gs1 _ hi1, ?_⟩
    exact wasteful_group_perm m sym (hget i hi1 i.2).symm hprop

theorem forall₂_perm_flatten :
    ∀ {l1 l2 : List (List String)}, List.Forall₂ (fun a b => a.Perm b) l1 l2 →
      l1.flatten.Perm l2.flatten := by
  intro l1 l2 h
  induction h with
  | nil => exact List.Perm.refl _
  | cons hab h2 ih =>
      simp only [List.flatten_cons]
      exact hab.append ih

theorem groupsEquiv_flatten_perm (gs1 gs2 : List (List String))
    (h : groupsEquiv gs1 gs2) : gs1.flatten.Perm gs2.flatten := by
  rcases h with ⟨mid, hf, hp⟩
  exact (forall₂_perm_flatten hf).trans hp.flatten

theorem foldl_add_details :
    ∀ (l : List GroupDetail) (a : Rat),
      l.foldl (fun s d => s + d.combinedWeight) a
        = a + (l.map (fun d => d.combinedWeight)).sum
  | [], a => by simp
  | x :: xs, a => by
      rw [List.foldl_cons, foldl_add_details xs (a + x.combinedWeight)]
      simp [add_assoc]

theorem mkSolution_totalWeight (m : ObjMap) (w : String → Rat) (sym : Bool)
    (gs : List (List String)) (free : List String) :
    (mkSolution m w sym gs free).totalWeight = solutionTotalWeight gs m sym := by
  unfold mkSolution buildGroupDetails
  dsimp only
  rw [foldl_add_details, solutionTotalWeight_eq_sum]
  rw [zero_add]
  simp only [List.map_map]
  rfl

theorem solutionScore_plain (opts : Options) (hbonus : opts.bonusPerGroup = 0)
    (hbal : opts.balanceGroupWeightsFactor = 0) (sol : Solution) :
    solutionScore opts sol = sol.totalWeight := by
  unfold solutionScore
  rw [hbonus, hbal]
  simp

theorem isWasteful_mkSolution (m : ObjMap) (w : String → Rat) (sym : Bool)
    (gs : List (List String)) (free : List String) :
    isWastefulSolution m sym (mkSolution m w sym gs free) = true ↔
      wastefulGroups m sym gs := by
  unfold isWastefulSolution mkSolution buildGroupDetails wastefulGroups
  dsimp only
  rw [List.any_eq_true]
  constructor
  · rintro ⟨gd, hgd, hprop⟩
    rcases List.mem_map.mp hgd with ⟨g, hg, rfl⟩
    dsimp only at hprop
    rcases of_decide_eq_true hprop with ⟨hlen, hany⟩
    rcases List.any_eq_true.mp hany with ⟨id, hid, hall⟩
    refine ⟨g, hg, hlen, id, hid, ?_⟩
    intro other hother
    exact of_decide_eq_true (List.all_eq_true.mp hall other hother)
  · rintro ⟨g, hg, hlen, id, hid, hall⟩
    refine ⟨⟨g, groupNodeWeightSum g w, groupCombinedWeight m sym g⟩,
      List.mem_map.mpr ⟨g, hg, rfl⟩, ?_⟩
    dsimp only
    refine decide_eq_true ⟨hlen, ?_⟩
    refine List.any_eq_true.mpr ⟨id, hid, ?_⟩
    refine List.all_eq_true.mpr ?_
    intro other hother
    exact decide_eq_true (hall other hother)

theorem groupNodeWeightSum_perm (w : String → Rat) {g1 g2 : List String}
    (hp : g1.Perm g2) : groupNodeWeightSum g1 w = groupNodeWeightSum g2 w := by
  rw [groupNodeWeightSum_eq, groupNodeWeightSum_eq]
  exact List.Perm.sum_eq (hp.map w)

theorem groupNodeWeightSum_subperm_le (g1 g2 : List String) (w : String → Rat)
    (hw : ∀ id, 0 ≤ w id) (hs : g1.Subperm g2) :
    groupNodeWeightSum g1 w ≤ groupNodeWeightSum g2 w := by
  rcases hs with ⟨l, hlp, hls⟩
  rw [← groupNodeWeightSum_perm w hlp]
  exact groupNodeWeightSum_sublist_le l g2 w hw hls

theorem membersAt_nil_of_not_used (ids : List String) (pre : List Int) (g : Int)
    (h0 : 0 ≤ g) (h : g ∉ usedGroupsOf pre) : membersAt ids pre g = [] := by
  unfold membersAt
  rw [List.filter_eq_nil_iff.mpr, List.map_nil]
  intro p hp
  simp only [decide_eq_true_eq]
  intro hpg
  refine h ?_
  refine mem_firstDedup_of_mem _ g ?_
  refine List.mem_filter.mpr ⟨?_, by simpa using h0⟩
  obtain ⟨p1, p2⟩ := p
  subst hpg
  exact (List.of_mem_zip hp).1

theorem exh_reach_base (ids : List String) (w : String → Rat) (minC maxC : Rat) (af : Bool)
    (gs : List (List String)) (free : List String) (pre : List Int) (seen : List Nat)
    (hidnd : ids.Nodup)
    (hflat : ∀ x ∈ gs.flatten ++ free, x ∈ ids)
    (hgnd : ∀ g ∈ gs, g.Nodup)
    (hfreend : free.Nodup)
    (hne : ∀ g ∈ gs, g ≠ [])
    (hbnd : ∀ g ∈ gs, minC ≤ groupNodeWeightSum g w ∧ groupNodeWeightSum g w ≤ maxC)
    (hI1 : usedGroupsOf pre = (List.range seen.length).map Int.ofNat)
    (hI2 : ∀ j ∈ seen, j < gs.length)
    (hI3 : seen.Nodup)
    (hI4 : ∀ j, j < gs.length → (∃ x ∈ gs.getD j [], x ∈ ids) → j ∈ seen)
    (hI6 : ∀ k, k < seen.length → ∀ x,
      (x ∈ membersAt ids pre ((k : Nat) : Int) ↔ x ∈ gs.getD (seen.getD k 0) [] ∧ x ∈ ids))
    (hI7 : ∀ x, x ∈ membersAt ids pre (-1) ↔ x ∈ free ∧ x ∈ ids) :
    ∃ c ∈ exhRec ids w minC maxC af 0 pre,
      groupsEquiv c.groups gs ∧ c.free.Perm free := by
  have hperm : ∀ k, ∀ hk : k < seen.length,
      (membersAt ids pre ((k : Nat) : Int)).Perm (gs.getD (seen.getD k 0) []) := by
    intro k hk
    have hmemseen : seen.getD k 0 ∈ seen := by
      rw [List.getD_eq_getElem seen 0 hk]
      exact List.get_mem seen k hk
    have hjlt : seen.getD k 0 < gs.length := hI2 _ hmemseen
    have hgrp : gs.getD (seen.getD k 0) [] ∈ gs := by
      rw [List.getD_eq_getElem gs [] hjlt]
      exact List.get_mem gs _ hjlt
    have hsub1 : (membersAt ids pre ((k : Nat) : Int)).Subperm (gs.getD (seen.getD k 0) []) := by
      refine (membersAt_nodup ids pre _ hidnd).subperm ?_
      intro x hx
      exact ((hI6 k hk x).mp hx).1
    have hsub2 : (gs.getD (seen.getD k 0) []).Subperm (membersAt ids pre ((k : Nat) : Int)) := by
      refine (hgnd _ hgrp).subperm ?_
      intro x hx
      refine (hI6 k hk x).mpr ⟨hx, ?_⟩
      exact hflat x (List.mem_append.mpr (Or.inl (List.mem_flatten.mpr ⟨_, hgrp, hx⟩)))
    exact hsub1.antisymm hsub2
  have hgroups : candGroupsOf ids pre
      = (List.range seen.length).map (fun k => membersAt ids pre (Int.ofNat k)) := by
    unfold candGroupsOf
    rw [hI1, sortIntsAsc_range, List.map_map]
    rfl
  have hmemgs : ∀ k, k < seen.length → gs.getD (seen.getD k 0) [] ∈ gs := by
    intro k hk
    have hmemseen : seen.getD k 0 ∈ seen := by
      rw [List.getD_eq_getElem seen 0 hk]
      exact List.get_mem seen k hk
    have hjlt : seen.getD k 0 < gs.length := hI2 _ hmemseen
    rw [List.getD_eq_getElem gs [] hjlt]
    exact List.get_mem gs _ hjlt
  have hcheck : ((candGroupsOf ids pre).all (fun g =>
      decide (minC ≤ groupNodeWeightSum g w ∧ groupNodeWeightSum g w ≤ maxC))) = true := by
    refine List.all_eq_true.mpr ?_
    intro g hg
    rw [hgroups] at hg
    rcases List.mem_map.mp hg with ⟨k, hk, rfl⟩
    have hklt : k < seen.length := List.mem_range.mp hk
    have hsum : groupNodeWeightSum (membersAt ids pre (Int.ofNat k)) w
        = groupNodeWeightSum (gs.getD (seen.getD k 0) []) w :=
      groupNodeWeightSum_perm w (hperm k hklt)
    refine decide_eq_true ?_
    rw [hsum]
    exact hbnd _ (hmemgs k hklt)
  have hequiv : groupsEquiv (candGroupsOf ids pre) gs := by
    refine ⟨seen.map (fun j => gs.getD j []), ?_, ?_⟩
    · rw [hgroups]
      refine List.forall₂_iff_get.mpr ⟨by simp, ?_⟩
      intro i h1 h2
      simp only [List.length_map, List.length_range] at h1
      have hgetl : ((List.range seen.length).map
          (fun k => membersAt ids pre (Int.ofNat k))).get ⟨i, by simpa using h1⟩
          = membersAt ids pre (Int.ofNat i) := by
        simp [List.get_map]
      have hgetr : (seen.map (fun j => gs.getD j [])).get ⟨i, by simpa using h1⟩
          = gs.getD (seen.getD i 0) [] := by
        simp only [List.get_map]
        rw [List.getD_eq_getElem seen 0 h1]
        rfl
      rw [hgetl, hgetr]
      exact hperm i h1
    · have hseenperm : seen.Perm (List.range gs.length) := by
        refine List.Subperm.antisymm ?_ ?_
        · exact hI3.subperm (fun j hj => List.mem_range.mpr (hI2 j hj))
        · refine (List.nodup_range gs.length).subperm ?_
          intro j hj
          have hjl : j < gs.length := List.mem_range.mp hj
          have hgrp : gs.getD j [] ∈ gs := by
            rw [List.getD_eq_getElem gs [] hjl]
            exact List.get_mem gs _ hjl
          refine hI4 j hjl ?_
          rcases List.exists_mem_of_ne_nil _ (hne _ hgrp) with ⟨x, hx⟩
          exact ⟨x, hx, hflat x (List.mem_append.mpr
            (Or.inl (List.mem_flatten.mpr ⟨_, hgrp, hx⟩)))⟩
      have := hseenperm.map (fun j => gs.getD j [])
      rw [map_getD_range gs] at this
      exact this
  have hfreeperm : (candFreeOf ids pre).Perm free := by
    unfold candFreeOf
    refine List.Subperm.antisymm ?_ ?_
    · refine (membersAt_nodup ids pre _ hidnd).subperm ?_
      intro x hx
      exact ((hI7 x).mp hx).1
    · refine hfreend.subperm ?_
      intro x hx
      exact (hI7 x).mpr ⟨hx, hflat x (List.mem_append.mpr (Or.inr hx))⟩
  refine ⟨⟨candGroupsOf ids pre, candFreeOf ids pre⟩, ?_, hequiv, hfreeperm⟩
  rw [exhRec]
  rw [if_pos hcheck]
  exact List.mem_singleton_self _

theorem exh_reach (ids : List String) (w : String → Rat) (minC maxC : Rat) (af : Bool)
    (gs : List (List String)) (free : List String)
    (hidnd : ids.Nodup)
    (hw0 : ∀ id, 0 ≤ w id)
    (hflat : ∀ x ∈ gs.flatten ++ free, x ∈ ids)
    (hcover : ∀ x ∈ ids, x ∈ gs.flatten ++ free)
    (hfnd : (gs.flatten ++ free).Nodup)
    (hne : ∀ g ∈ gs, g ≠ [])
    (hbnd : ∀ g ∈ gs, minC ≤ groupNodeWeightSum g w ∧ groupNodeWeightSum g w ≤ maxC)
    (haf : af = false → free = []) :
    ∀ (rest : List String), ∀ (done : List String) (pre : List Int) (seen : List Nat),
      ids = done ++ rest →
      pre.length = done.length →
      usedGroupsOf pre = (List.range seen.length).map Int.ofNat →
      (∀ j ∈ seen, j < gs.length) →
      seen.Nodup →
      (∀ j, j < gs.length → (∃ x ∈ gs.getD j [], x ∈ done) → j ∈ seen) →
      (∀ k, k < seen.length → ∀ x,
        (x ∈ membersAt ids pre ((k : Nat) : Int) ↔ x ∈ gs.getD (seen.getD k 0) [] ∧ x ∈ done)) →
      (∀ x, x ∈ membersAt ids pre (-1) ↔ x ∈ free ∧ x ∈ done) →
      seen.length ≤ pre.length →
      ∃ c ∈ exhRec ids w minC maxC af rest.length pre,
        groupsEquiv c.groups gs ∧ c.free.Perm free := by
  have hflnd : gs.flatten.Nodup := (List.nodup_append.mp hfnd).1
  have hfreend : free.Nodup := (List.nodup_append.mp hfnd).2.1
  have hdisjff : gs.flatten.Disjoint free := List.disjoint_of_nodup_append hfnd
  have hgnd : ∀ g ∈ gs, g.Nodup := (List.nodup_flatten.mp hflnd).1
  have hpairdisj : gs.Pairwise List.Disjoint := (List.nodup_flatten.mp hflnd).2
  have hdisj : ∀ j1 j2, j1 < gs.length → j2 < gs.length → j1 ≠ j2 →
      ∀ x, x ∈ gs.getD j1 [] → x ∈ gs.getD j2 [] → False := by
    intro j1 j2 hj1 hj2 hne12 x hx1 hx2
    rw [List.getD_eq_getElem gs [] hj1] at hx1
    rw [List.getD_eq_getElem gs [] hj2] at hx2
    rw [List.pairwise_iff_getElem] at hpairdisj
    rcases Nat.lt_or_ge j1 j2 with h | h
    · exact hpairdisj j1 j2 hj1 hj2 h hx1 hx2
    · have hlt : j2 < j1 := Nat.lt_of_le_of_ne h (fun he => hne12 he.symm)
      exact hpairdisj j2 j1 hj2 hj1 hlt hx2 hx1
  have hgetgs : ∀ j, j < gs.length → gs.getD j [] ∈ gs := by
    intro j hj
    rw [List.getD_eq_getElem gs [] hj]
    exact List.get_mem gs _ hj
  intro rest
  induction rest with
  | nil =>
      intro done pre seen hids hlen hI1 hI2 hI3 hI4 hI6 hI7 hI8
      rw [List.append_nil] at hids
      subst hids
      exact exh_reach_base ids w minC maxC af gs free pre seen hidnd hflat hgnd hfreend
        hne hbnd hI1 hI2 hI3 hI4 hI6 hI7
  | cons id rest2 ih =>
      intro done pre seen hids hlen hI1 hI2 hI3 hI4 hI6 hI7 hI8
      have hiddone : id ∉ done := by
        intro hc
        have h2 := hids ▸ hidnd
        rcases List.nodup_append.mp h2 with ⟨_, _, hdisj2⟩
        exact hdisj2 hc (List.mem_cons_self id rest2)
      have hids' : ids = (done ++ [id]) ++ rest2 := by
        rw [hids, List.append_assoc]
        rfl
      have hidmem : id ∈ ids := by
        rw [hids]
        exact List.mem_append.mpr (Or.inr (List.mem_cons_self id rest2))
      have hsnoc : ∀ (v g : Int), membersAt ids (pre ++ [v]) g
          = membersAt ids pre g ++ (if v = g then [id] else []) :=
        fun v g => membersAt_snoc ids done rest2 id pre v g hids hlen
      have hlen' : ∀ v : Int, (pre ++ [v]).length = (done ++ [id]).length := by
        intro v
        simp [hlen]
      have hdonelt : done.length < ids.length := by
        rw [hids]
        simp
      rcases List.mem_append.mp (hcover id hidmem) with hidflat | hidfree
      · -- id belongs to a group
        rcases List.mem_flatten.mp hidflat with ⟨g, hg, hidg⟩
        rcases List.mem_iff_getElem.mp hg with ⟨j, hj, rfl⟩
        have hidgD : id ∈ gs.getD j [] := by
          rw [List.getD_eq_getElem gs [] hj]
          exact hidg
        have hidnotfree : id ∉ free := fun hc => hdisjff hidflat hc
        by_cases hjseen : j ∈ seen
        · -- existing group: relocate into position k of seen
          rcases List.mem_iff_getElem.mp hjseen with ⟨k, hk, hjk⟩
          have hgetDk : seen.getD k 0 = j := by
            rw [List.getD_eq_getElem seen 0 hk]
            exact hjk
          -- the invariants for pre ++ [k]
          have hI1' : usedGroupsOf (pre ++ [((k : Nat) : Int)])
              = (List.range seen.length).map Int.ofNat := by
            rw [usedGroupsOf_snoc_mem pre _ (by positivity) ?_]
            · exact hI1
            · rw [hI1]
              exact List.mem_map.mpr ⟨k, List.mem_range.mpr hk, rfl⟩
          have hI4' : ∀ j2, j2 < gs.length →
              (∃ x ∈ gs.getD j2 [], x ∈ done ++ [id]) → j2 ∈ seen := by
            intro j2 hj2 ⟨x, hxg, hxd⟩
            rcases List.mem_append.mp hxd with hxd2 | hxd2
            · exact hI4 j2 hj2 ⟨x, hxg, hxd2⟩
            · rcases List.mem_singleton.mp hxd2 with rfl
              by_cases hj2j : j2 = j
              · exact hj2j ▸ hjseen
              · exact absurd (hdisj j2 j hj2 hj hj2j _ hxg hidgD) (fun h => h)
          have hI6' : ∀ k2, k2 < seen.length → ∀ x,
              (x ∈ membersAt ids (pre ++ [((k : Nat) : Int)]) ((k2 : Nat) : Int) ↔
                x ∈ gs.getD (seen.getD k2 0) [] ∧ x ∈ done ++ [id]) := by
            intro k2 hk2 x
            rw [hsnoc]
            by_cases hkk : k = k2
            · subst hkk
              rw [if_pos rfl]
              constructor
              · intro hx
                rcases List.mem_append.mp hx with hx2 | hx2
                · rcases (hI6 k hk2 x).mp hx2 with ⟨ha, hb⟩
                  exact ⟨ha, List.mem_append.mpr (Or.inl hb)⟩
                · rcases List.mem_singleton.mp hx2 with rfl
                  refine ⟨?_, List.mem_append.mpr (Or.inr (List.mem_singleton.mpr rfl))⟩
                  rw [hgetDk]
                  exact hidgD
              · intro ⟨ha, hb⟩
                rcases List.mem_append.mp hb with hb2 | hb2
                · exact List.mem_append.mpr (Or.inl ((hI6 k hk2 x).mpr ⟨ha, hb2⟩))
                · exact List.mem_append.mpr (Or.inr hb2)
            · rw [if_neg (by omega)]
              rw [List.append_nil]
              constructor
              · intro hx
                rcases (hI6 k2 hk2 x).mp hx with ⟨ha, hb⟩
                exact ⟨ha, List.mem_append.mpr (Or.inl hb)⟩
              · intro ⟨ha, hb⟩
                rcases List.mem_append.mp hb with hb2 | hb2
                · exact (hI6 k2 hk2 x).mpr ⟨ha, hb2⟩
                · rcases List.mem_singleton.mp hb2 with rfl
                  -- x = id in group seen.getD k2 0 ≠ j: contradiction
                  exfalso
                  have hmem2 : seen.getD k2 0 ∈ seen := by
                    rw [List.getD_eq_getElem seen 0 hk2]
                    exact List.get_mem seen k2 hk2
                  have hj2 : seen.getD k2 0 < gs.length := hI2 _ hmem2
                  have hne2 : seen.getD k2 0 ≠ j := by
                    intro he
                    have h1 : seen.get ⟨k2, hk2⟩ = seen.get ⟨k, hk⟩ := by
                      rw [List.getD_eq_getElem seen 0 hk2] at he
                      exact he.trans hjk.symm
                    have h2 := List.nodup_iff_injective_get.mp hI3 h1
                    exact hkk (congrArg Fin.val h2).symm
                  exact hdisj _ j hj2 hj hne2 _ ha hidgD
          have hI7' : ∀ x, x ∈ membersAt ids (pre ++ [((k : Nat) : Int)]) (-1) ↔
              x ∈ free ∧ x ∈ done ++ [id] := by
            intro x
            rw [hsnoc, if_neg (by omega), List.append_nil]
            constructor
            · intro hx
              rcases (hI7 x).mp hx with ⟨ha, hb⟩
              exact ⟨ha, List.mem_append.mpr (Or.inl hb)⟩
            · intro ⟨ha, hb⟩
              rcases List.mem_append.mp hb with hb2 | hb2
              · exact (hI7 x).mpr ⟨ha, hb2⟩
              · rcases List.mem_singleton.mp hb2 with rfl
                exact absurd ha hidnotfree
          rcases ih (done ++ [id]) (pre ++ [((k : Nat) : Int)]) seen hids' (hlen' _)
            hI1' hI2 hI3 hI4' hI6' hI7' (by simp only [List.length_append, List.length_singleton]; omega) with ⟨c, hc, hprops⟩
          refine ⟨c, ?_, hprops⟩
          simp only [List.length_cons]
          rw [exhRec]
          refine List.mem_append.mpr (Or.inl (List.mem_append.mpr (Or.inr ?_)))
          refine List.mem_flatMap.mpr ⟨((k : Nat) : Int), ?_, ?_⟩
          · rw [hI1]
            exact List.mem_map.mpr ⟨k, List.mem_range.mpr hk, rfl⟩
          · have hcheck : groupNodeWeightSum
                (membersAt ids (pre ++ [((k : Nat) : Int)]) ((k : Nat) : Int)) w ≤ maxC := by
              have hsp : (membersAt ids (pre ++ [((k : Nat) : Int)]) ((k : Nat) : Int)).Subperm
                  (gs.getD j []) := by
                refine (membersAt_nodup ids _ _ hidnd).subperm ?_
                intro x hx
                have := (hI6' k hk x).mp hx
                rw [hgetDk] at this
                exact this.1
              refine le_trans (groupNodeWeightSum_subperm_le _ _ w hw0 hsp) ?_
              exact (hbnd _ (hgetgs j hj)).2
            rw [if_pos hcheck]
            exact hc
        · -- new group: nextNew = seen.length
          have hfreshused : ((seen.length : Nat) : Int) ∉ usedGroupsOf pre := by
            rw [hI1]
            intro hc
            rcases List.mem_map.mp hc with ⟨i, hi, hie⟩
            have : i = seen.length := by
              simp only [Int.ofNat_eq_coe] at hie
              exact_mod_cast hie
            rw [this] at hi
            exact absurd (List.mem_range.mp hi) (lt_irrefl _)
          have hI1' : usedGroupsOf (pre ++ [((seen.length : Nat) : Int)])
              = (List.range (seen ++ [j]).length).map Int.ofNat := by
            rw [usedGroupsOf_snoc_fresh pre _ (by positivity) hfreshused, hI1]
            rw [List.length_append, List.length_singleton, List.range_succ, List.map_append]
            rfl
          have hI2' : ∀ j2 ∈ seen ++ [j], j2 < gs.length := by
            intro j2 hj2
            rcases List.mem_append.mp hj2 with h | h
            · exact hI2 j2 h
            · rcases List.mem_singleton.mp h with rfl
              exact hj
          have hI3' : (seen ++ [j]).Nodup := by
            rw [List.nodup_append]
            exact ⟨hI3, List.nodup_singleton j, by
              intro a ha hb
              rcases List.mem_singleton.mp hb with rfl
              exact hjseen ha⟩
          have hI4' : ∀ j2, j2 < gs.length →
              (∃ x ∈ gs.getD j2 [], x ∈ done ++ [id]) → j2 ∈ seen ++ [j] := by
            intro j2 hj2 ⟨x, hxg, hxd⟩
            rcases List.mem_append.mp hxd with hxd2 | hxd2
            · exact List.mem_append.mpr (Or.inl (hI4 j2 hj2 ⟨x, hxg, hxd2⟩))
            · rcases List.mem_singleton.mp hxd2 with rfl
              by_cases hj2j : j2 = j
              · exact List.mem_append.mpr (Or.inr (List.mem_singleton.mpr hj2j))
              · exact absurd (hdisj j2 j hj2 hj hj2j _ hxg hidgD) (fun h => h)
          have hI6' : ∀ k2, k2 < (seen ++ [j]).length → ∀ x,
              (x ∈ membersAt ids (pre ++ [((seen.length : Nat) : Int)]) ((k2 : Nat) : Int) ↔
                x ∈ gs.getD ((seen ++ [j]).getD k2 0) [] ∧ x ∈ done ++ [id]) := by
            intro k2 hk2 x
            rw [hsnoc]
            by_cases hkk : k2 = seen.length
            · subst hkk
              rw [if_pos rfl]
              have hnilm : membersAt ids pre ((seen.length : Nat) : Int) = [] :=
                membersAt_nil_of_not_used ids pre _ (by positivity) hfreshused
              rw [hnilm, List.nil_append]
              have hgetj : (seen ++ [j]).getD seen.length 0 = j := by simp
              rw [hgetj]
              constructor
              · intro hx
                rcases List.mem_singleton.mp hx with rfl
                exact ⟨hidgD, List.mem_append.mpr (Or.inr (List.mem_singleton.mpr rfl))⟩
              · intro ⟨ha, hb⟩
                rcases List.mem_append.mp hb with hb2 | hb2
                · exact absurd (hI4 j hj ⟨x, ha, hb2⟩) hjseen
                · exact hb2
            · have hk2lt : k2 < seen.length := by
                rw [List.length_append, List.length_singleton] at hk2
                omega
              rw [if_neg (by omega), List.append_nil]
              rw [List.getD_append seen [j] 0 k2 hk2lt]
              constructor
              · intro hx
                rcases (hI6 k2 hk2lt x).mp hx with ⟨ha, hb⟩
                exact ⟨ha, List.mem_append.mpr (Or.inl hb)⟩
              · intro ⟨ha, hb⟩
                rcases List.mem_append.mp hb with hb2 | hb2
                · exact (hI6 k2 hk2lt x).mpr ⟨ha, hb2⟩
                · rcases List.mem_singleton.mp hb2 with rfl
                  exfalso
                  have hmem2 : seen.getD k2 0 ∈ seen := by
                    rw [List.getD_eq_getElem seen 0 hk2lt]
                    exact List.get_mem seen k2 hk2lt
                  have hj2 : seen.getD k2 0 < gs.length := hI2 _ hmem2
                  have hne2 : seen.getD k2 0 ≠ j := fun he => hjseen (he ▸ hmem2)
                  exact hdisj _ j hj2 hj hne2 _ ha hidgD
          have hI7' : ∀ x, x ∈ membersAt ids (pre ++ [((seen.length : Nat) : Int)]) (-1) ↔
              x ∈ free ∧ x ∈ done ++ [id] := by
            intro x
            rw [hsnoc, if_neg (by omega), List.append_nil]
            constructor
            · intro hx
              rcases (hI7 x).mp hx with ⟨ha, hb⟩
              exact ⟨ha, List.mem_append.mpr (Or.inl hb)⟩
            · intro ⟨ha, hb⟩
              rcases List.mem_append.mp hb with hb2 | hb2
              · exact (hI7 x).mpr ⟨ha, hb2⟩
              · rcases List.mem_singleton.mp hb2 with rfl
                exact absurd ha hidnotfree
          rcases ih (done ++ [id]) (pre ++ [((seen.length : Nat) : Int)]) (seen ++ [j]) hids'
            (hlen' _) hI1' hI2' hI3' hI4' hI6' hI7' (by simp only [List.length_append, List.length_singleton]; omega)
            with ⟨c, hc, hprops⟩
          refine ⟨c, ?_, hprops⟩
          simp only [List.length_cons]
          rw [exhRec]
          refine List.mem_append.mpr (Or.inr ?_)
          dsimp only
          rw [hI1, nextNewOf_range]
          have hcond : ((seen.length : Nat) : Int) < (ids.length : Int) := by
            have h1 : seen.length ≤ done.length := hlen ▸ hI8
            omega
          rw [if_pos hcond]
          exact hc
      · -- id is free
        have haftrue : af = true := by
          cases haf2 : af with
          | true => rfl
          | false =>
              rw [haf haf2] at hidfree
              exact absurd hidfree (List.not_mem_nil id)
        have hidnotflat : id ∉ gs.flatten := fun hc => hdisjff hc hidfree
        have hI1' : usedGroupsOf (pre ++ [(-1 : Int)])
            = (List.range seen.length).map Int.ofNat := by
          rw [usedGroupsOf_snoc_neg]
          exact hI1
        have hI4' : ∀ j2, j2 < gs.length →
            (∃ x ∈ gs.getD j2 [], x ∈ done ++ [id]) → j2 ∈ seen := by
          intro j2 hj2 ⟨x, hxg, hxd⟩
          rcases List.mem_append.mp hxd with hxd2 | hxd2
          · exact hI4 j2 hj2 ⟨x, hxg, hxd2⟩
          · rcases List.mem_singleton.mp hxd2 with rfl
            exfalso
            refine hidnotflat (List.mem_flatten.mpr ⟨gs.getD j2 [], hgetgs j2 hj2, hxg⟩)
        have hI6' : ∀ k2, k2 < seen.length → ∀ x,
            (x ∈ membersAt ids (pre ++ [(-1 : Int)]) ((k2 : Nat) : Int) ↔
              x ∈ gs.getD (seen.getD k2 0) [] ∧ x ∈ done ++ [id]) := by
          intro k2 hk2 x
          rw [hsnoc, if_neg (by omega), List.append_nil]
          constructor
          · intro hx
            rcases (hI6 k2 hk2 x).mp hx with ⟨ha, hb⟩
            exact ⟨ha, List.mem_append.mpr (Or.inl hb)⟩
          · intro ⟨ha, hb⟩
            rcases List.mem_append.mp hb with hb2 | hb2
            · exact (hI6 k2 hk2 x).mpr ⟨ha, hb2⟩
            · rcases List.mem_singleton.mp hb2 with rfl
              exfalso
              have hmem2 : seen.getD k2 0 ∈ seen := by
                rw [List.getD_eq_getElem seen 0 hk2]
                exact List.get_mem seen k2 hk2
              have hj2 : seen.getD k2 0 < gs.length := hI2 _ hmem2
              exact hidnotflat (List.mem_flatten.mpr ⟨_, hgetgs _ hj2, ha⟩)
        have hI7' : ∀ x, x ∈ membersAt ids (pre ++ [(-1 : Int)]) (-1) ↔
            x ∈ free ∧ x ∈ done ++ [id] := by
          intro x
          rw [hsnoc, if_pos rfl]
          constructor
          · intro hx
            rcases List.mem_append.mp hx with hx2 | hx2
            · rcases (hI7 x).mp hx2 with ⟨ha, hb⟩
              exact ⟨ha, List.mem_append.mpr (Or.inl hb)⟩
            · rcases List.mem_singleton.mp hx2 with rfl
              exact ⟨hidfree, List.mem_append.mpr (Or.inr (List.mem_singleton.mpr rfl))⟩
          · intro ⟨ha, hb⟩
            rcases List.mem_append.mp hb with hb2 | hb2
            · exact List.mem_append.mpr (Or.inl ((hI7 x).mpr ⟨ha, hb2⟩))
            · exact List.mem_append.mpr (Or.inr hb2)
        rcases ih (done ++ [id]) (pre ++ [(-1 : Int)]) seen hids' (hlen' _)
          hI1' hI2 hI3 hI4' hI6' hI7' (by simp only [List.length_append, List.length_singleton]; omega) with ⟨c, hc, hprops⟩
        refine ⟨c, ?_, hprops⟩
        subst haftrue
        simp only [List.length_cons]
        rw [exhRec]
        refine List.mem_append.mpr (Or.inl (List.mem_append.mpr (Or.inl ?_)))
        rw [if_pos rfl]
        exact hc

theorem sort_take_mem_or_big (sc : Solution → Rat) (x : Solution) (l : List Solution)
    (hx : x ∈ l) :
    x ∈ (sortSolutionsDesc sc l).take 10 ∨
      (((sortSolutionsDesc sc l).take 10).length = 10 ∧
        ∀ s ∈ (sortSolutionsDesc sc l).take 10, sc x ≤ sc s) := by
  have hxs : x ∈ sortSolutionsDesc sc l := (mem_sortSolutionsDesc sc x l).mpr hx
  by_cases hmem : x ∈ (sortSolutionsDesc sc l).take 10
  · exact Or.inl hmem
  · right
    have hsplit := List.take_append_drop 10 (sortSolutionsDesc sc l)
    have hxdrop : x ∈ (sortSolutionsDesc sc l).drop 10 := by
      rw [← hsplit] at hxs
      rcases List.mem_append.mp hxs with h | h
      · exact absurd h hmem
      · exact h
    constructor
    · rw [List.length_take]
      have hlen : 10 < (sortSolutionsDesc sc l).length := by
        by_contra hle
        push_neg at hle
        rw [List.drop_eq_nil_of_le hle] at hxdrop
        exact absurd hxdrop (List.not_mem_nil x)
      omega
    · intro s hs
      have hpw := sortSolutionsDesc_pairwise sc l
      rw [← hsplit] at hpw
      exact (List.pairwise_append.mp hpw).2.2 s hs x hxdrop

theorem sort_take_all_big (sc : Solution → Rat) (thr : Rat) (old : List Solution)
    (nw : Solution) (hlen10 : old.length = 10)
    (hall : ∀ s ∈ old, thr ≤ sc s) :
    (∀ s ∈ (sortSolutionsDesc sc (old ++ [nw])).take 10, thr ≤ sc s) ∧
      ((sortSolutionsDesc sc (old ++ [nw])).take 10).length = 10 := by
  have hsl : (sortSolutionsDesc sc (old ++ [nw])).length = 11 := by
    rw [length_sortSolutionsDesc]
    simp [hlen10]
  have hperm : (sortSolutionsDesc sc (old ++ [nw])).Perm (old ++ [nw]) :=
    perm_sortSolutionsDesc sc (old ++ [nw])
  refine ⟨?_, by rw [List.length_take, hsl]; decide⟩
  intro k hk
  by_contra hlt
  push_neg at hlt
  have hknew : k = nw := by
    have hkmem : k ∈ old ++ [nw] := hperm.mem_iff.mp (List.mem_of_mem_take hk)
    rcases List.mem_append.mp hkmem with h | h
    · exact absurd (hall k h) (not_le.mpr hlt)
    · exact List.mem_singleton.mp h
  have hdlen : ((sortSolutionsDesc sc (old ++ [nw])).drop 10).length = 1 := by
    rw [List.length_drop, hsl]
  obtain ⟨d, hd⟩ : ∃ d, (sortSolutionsDesc sc (old ++ [nw])).drop 10 = [d] := by
    cases hdrop : (sortSolutionsDesc sc (old ++ [nw])).drop 10 with
    | nil => rw [hdrop] at hdlen; simp at hdlen
    | cons d t =>
        rw [hdrop] at hdlen
        simp only [List.length_cons, Nat.succ.injEq] at hdlen
        rw [List.length_eq_zero] at hdlen
        exact ⟨d, by rw [hdlen]⟩
  have hsplit := List.take_append_drop 10 (sortSolutionsDesc sc (old ++ [nw]))
  have hdmem : d ∈ sortSolutionsDesc sc (old ++ [nw]) := by
    rw [← hsplit]
    exact List.mem_append.mpr (Or.inr (hd ▸ List.mem_singleton_self d))
  have hdle : sc d ≤ sc k := by
    have hpw := sortSolutionsDesc_pairwise sc (old ++ [nw])
    rw [← hsplit] at hpw
    exact (List.pairwise_append.mp hpw).2.2 k hk d (hd ▸ List.mem_singleton_self d)
  have hdnew : d = nw := by
    rcases List.mem_append.mp (hperm.mem_iff.mp hdmem) with h | h
    · exact absurd (le_trans (hall d h) hdle) (not_le.mpr (hknew ▸ hlt))
    · exact List.mem_singleton.mp h
  have hcount2 : (sortSolutionsDesc sc (old ++ [nw])).count nw = old.count nw + 1 := by
    rw [hperm.count_eq nw]
    simp [List.count_append]
  have hctake : 1 ≤ ((sortSolutionsDesc sc (old ++ [nw])).take 10).count nw := by
    refine List.count_pos_iff_mem.mpr ?_
    exact hknew ▸ hk
  have hcdrop : 1 ≤ ((sortSolutionsDesc sc (old ++ [nw])).drop 10).count nw := by
    refine List.count_pos_iff_mem.mpr ?_
    rw [hd]
    exact hdnew ▸ List.mem_singleton_self d
  have hc2 : 2 ≤ (sortSolutionsDesc sc (old ++ [nw])).count nw := by
    rw [← hsplit, List.count_append]
    omega
  have hin : nw ∈ old := by
    refine List.count_pos_iff_mem.mp ?_
    omega
  exact absurd (hall nw hin) (not_le.mpr (hknew ▸ hlt))

theorem addSolution_cases3 (opts : Options) (m : ObjMap) (w : String → Rat) (n : Nat)
    (st : Archive) (gs2 : List (List String)) (free2 : List String) :
    (solutionHasDuplicateNodes gs2 free2 n = true ∧
      addSolution opts m w n st gs2 free2 = st) ∨
    (solutionKey gs2 free2 ∈ st.seen ∧ addSolution opts m w n st gs2 free2 = st) ∨
    (solutionHasDuplicateNodes gs2 free2 n = false ∧
      solutionKey gs2 free2 ∉ st.seen ∧
      addSolution opts m w n st gs2 free2 =
        ⟨solutionKey gs2 free2 :: st.seen,
          (sortSolutionsDesc (solutionScore opts)
            (st.sols ++ [mkSolution m w opts.symmetricLinks gs2 free2])).take 10⟩) := by
  unfold addSolution
  split
  · rename_i h
    exact Or.inl ⟨h, rfl⟩
  · rename_i h
    dsimp only
    split
    · rename_i h2
      exact Or.inr (Or.inl ⟨h2, rfl⟩)
    · rename_i h2
      exact Or.inr (Or.inr ⟨Bool.not_eq_true _ ▸ eq_false_of_ne_true h, h2, rfl⟩)

theorem addSolution_omega (opts : Options) (m : ObjMap) (w : String → Rat) (n : Nat)
    (thr : Rat) (st : Archive) (gs2 : List (List String)) (free2 : List String)
    (hom : archOmega opts m thr st) :
    archOmega opts m thr (addSolution opts m w n st gs2 free2) := by
  rcases addSolution_cases3 opts m w n st gs2 free2 with ⟨_, he⟩ | ⟨_, he⟩ | ⟨_, _, he⟩
  · rw [he]; exact hom
  · rw [he]; exact hom
  · rw [he]
    unfold archOmega at hom ⊢
    dsimp only
    rcases hom with ⟨s, hsmem, hsnw, hsge⟩ | ⟨hlen, hall⟩
    · rcases sort_take_mem_or_big (solutionScore opts) s
        (st.sols ++ [mkSolution m w opts.symmetricLinks gs2 free2])
        (List.mem_append.mpr (Or.inl hsmem)) with h | ⟨h1, h2⟩
      · exact Or.inl ⟨s, h, hsnw, hsge⟩
      · exact Or.inr ⟨h1, fun t ht => le_trans hsge (h2 t ht)⟩
    · rcases sort_take_all_big (solutionScore opts) thr st.sols
        (mkSolution m w opts.symmetricLinks gs2 free2) hlen hall with ⟨h1, h2⟩
      exact Or.inr ⟨h2, h1⟩

theorem addSolution_omega_insert (opts : Options) (m : ObjMap) (w : String → Rat) (n : Nat)
    (st : Archive) (cg : List (List String)) (cf : List String)
    (hguard : solutionHasDuplicateNodes cg cf n = false)
    (hkey : solutionKey cg cf ∉ st.seen)
    (hnw : isWastefulSolution m opts.symmetricLinks
      (mkSolution m w opts.symmetricLinks cg cf) = false) :
    archOmega opts m (solutionScore opts (mkSolution m w opts.symmetricLinks cg cf))
      (addSolution opts m w n st cg cf) := by
  rcases addSolution_cases3 opts m w n st cg cf with ⟨hg, _⟩ | ⟨hk, _⟩ | ⟨_, _, he⟩
  · rw [hguard] at hg; exact Bool.noConfusion hg
  · exact absurd hk hkey
  · rw [he]
    unfold archOmega
    dsimp only
    rcases sort_take_mem_or_big (solutionScore opts)
      (mkSolution m w opts.symmetricLinks cg cf)
      (st.sols ++ [mkSolution m w opts.symmetricLinks cg cf])
      (List.mem_append.mpr (Or.inr (List.mem_singleton_self _))) with h | ⟨h1, h2⟩
    · exact Or.inl ⟨_, h, hnw, le_refl _⟩
    · exact Or.inr ⟨h1, h2⟩

theorem fold_archive_omega (opts : Options) (m : ObjMap) (w : String → Rat) (n : Nat)
    (cands : List Cand) (cstar : Cand)
    (hkeys : KeysInjective cands)
    (hcstar : cstar ∈ cands)
    (hguard : solutionHasDuplicateNodes cstar.groups cstar.free n = false)
    (hnw : isWastefulSolution m opts.symmetricLinks
      (mkSolution m w opts.symmetricLinks cstar.groups cstar.free) = false) :
    ∀ (l : List Cand) (arch : Archive),
      (∀ c ∈ l, c ∈ cands) →
      (solutionKey cstar.groups cstar.free ∈ arch.seen →
        archOmega opts m
          (solutionScore opts (mkSolution m w opts.symmetricLinks cstar.groups cstar.free)) arch) →
      (cstar ∈ l ∨ archOmega opts m
          (solutionScore opts (mkSolution m w opts.symmetricLinks cstar.groups cstar.free)) arch) →
      archOmega opts m
        (solutionScore opts (mkSolution m w opts.symmetricLinks cstar.groups cstar.free))
        (l.foldl (fun st c => addSolution opts m w n st c.groups c.free) arch)
  | [], arch, _, _, hprog => by
      rcases hprog with h | h
      · exact absurd h (List.not_mem_nil cstar)
      · exact h
  | c :: l2, arch, hsub, hJ2, hprog => by
      rw [List.foldl_cons]
      have hcmem : c ∈ cands := hsub c (List.mem_cons_self c l2)
      have hsub2 : ∀ d ∈ l2, d ∈ cands := fun d hd => hsub d (List.mem_cons_of_mem c hd)
      have hJ2' : solutionKey cstar.groups cstar.free ∈
          (addSolution opts m w n arch c.groups c.free).seen →
          archOmega opts m
            (solutionScore opts (mkSolution m w opts.symmetricLinks cstar.groups cstar.free))
            (addSolution opts m w n arch c.groups c.free) := by
        intro hkmem
        rcases addSolution_cases3 opts m w n arch c.groups c.free with
          ⟨_, he⟩ | ⟨_, he⟩ | ⟨hg, hk, he⟩
        · rw [he] at hkmem ⊢
          exact hJ2 hkmem
        · rw [he] at hkmem ⊢
          exact hJ2 hkmem
        · rw [he] at hkmem
          rcases List.mem_cons.mp hkmem with hke | hke
          · have hceq : c = cstar := hkeys c hcmem cstar hcstar hke.symm
            subst hceq
            exact addSolution_omega_insert opts m w n arch c.groups c.free hguard hk hnw
          · exact addSolution_omega opts m w n _ arch c.groups c.free (hJ2 hke)
      have hprog' : cstar ∈ l2 ∨ archOmega opts m
          (solutionScore opts (mkSolution m w opts.symmetricLinks cstar.groups cstar.free))
          (addSolution opts m w n arch c.groups c.free) := by
        rcases hprog with hmem | hom
        · rcases List.mem_cons.mp hmem with hce | hmem2
          · right
            subst hce
            by_cases hkin : solutionKey cstar.groups cstar.free ∈ arch.seen
            · exact addSolution_omega opts m w n _ arch cstar.groups cstar.free (hJ2 hkin)
            · exact addSolution_omega_insert opts m w n arch cstar.groups cstar.free
                hguard hkin hnw
          · exact Or.inl hmem2
        · exact Or.inr (addSolution_omega opts m w n _ arch c.groups c.free hom)
      exact fold_archive_omega opts m w n cands cstar hkeys hcstar hguard hnw l2
        (addSolution opts m w n arch c.groups c.free) hsub2 hJ2' hprog'

theorem effectiveFixedGroups_nil (ids : List String) :
    effectiveFixedGroups ids [] = [] := rfl

theorem guard_false_of (gs2 : List (List String)) (free2 : List String) (n : Nat)
    (hlen : (gs2.flatten ++ free2).length = n) (hnd : (gs2.flatten ++ free2).Nodup) :
    solutionHasDuplicateNodes gs2 free2 n = false := by
  unfold solutionHasDuplicateNodes
  dsimp only
  rw [if_neg (by rw [hlen]; exact fun h => h rfl)]
  rw [firstDedup_eq_self _ hnd, hlen]
  simp

theorem solveArchive_nofixed_small (nodes : List Node) (m : ObjMap) (minC maxC : Rat)
    (opts : Options) (ids : List String) (arch : Archive)
    (hsmall : isSmallInstance ids opts.allowFreeNodes = true)
    (hok : solveArchive nodes m minC maxC opts ids [] = .ok arch) :
    arch = (exhaustiveCands ids (nodesByIdWeight nodes) minC maxC opts.allowFreeNodes).foldl
      (fun st c => addSolution opts m (nodesByIdWeight nodes) ids.length st c.groups c.free)
      archEmpty := by
  unfold solveArchive at hok
  dsimp only at hok
  rw [if_pos (show ([] : List (List String)).length = 0 from rfl), if_pos hsmall] at hok
  have hstep : ∀ (a : Archive) (b : Nat) (a' : Archive),
      a = (exhaustiveCands ids (nodesByIdWeight nodes) minC maxC opts.allowFreeNodes).foldl
        (fun st c => addSolution opts m (nodesByIdWeight nodes) ids.length st c.groups c.free)
        archEmpty →
      seedStep nodes m minC maxC opts ids a b = .ok a' →
      a' = (exhaustiveCands ids (nodesByIdWeight nodes) minC maxC opts.allowFreeNodes).foldl
        (fun st c => addSolution opts m (nodesByIdWeight nodes) ids.length st c.groups c.free)
        archEmpty := by
    intro a b a' hPa hstep2
    rw [(seedStep_ok nodes m minC maxC opts ids a a' b hstep2).1]
    exact hPa
  exact foldlM_except_inv (seedStep nodes m minC maxC opts ids) _ hstep
    (List.range 20) _ arch rfl hok

/-- C4 (amended): for a valid input with no fixed groups, a node count within
the small-instance threshold, default `bonusPerGroup = 0` and
`balanceGroupWeightsFactor = 0`, distinct node ids, non-negative node
weights, a symmetric pair-weight table and an injectively-keyed exhaustive
candidate list, the FIRST returned solution's total weight is at least the
total weight of every valid partition that is NOT wasteful (no group of size
above one with a member unlinked to all other members).  The restriction to
non-wasteful partitions is necessary: `pruneWastefulSolutions` discards
wasteful archive entries even when they carry the highest total weight (see
the counterexample). -/
theorem C4_first_solution_optimal (nodes : List Node) (m : ObjMap) (minC maxC : Rat)
    (opts : Options) (r : SolveResult)
    (gs : List (List String)) (free : List String)
    (hok : computeGroups nodes m minC maxC opts = .ok r)
    (herr : r.errors = [])
    (hfix : opts.fixedGroups = [])
    (hbonus : opts.bonusPerGroup = 0)
    (hbal : opts.balanceGroupWeightsFactor = 0)
    (hw : ∀ n2 ∈ nodes, 0 ≤ n2.nodeWeight)
    (hnodup : (nodes.map (·.id)).Nodup)
    (hsmall : isSmallInstance (nodes.map (·.id)) opts.allowFreeNodes = true)
    (hsym : ∀ a b, getPairLinkWeight m a b opts.symmetricLinks
      = getPairLinkWeight m b a opts.symmetricLinks)
    (hkeys : KeysInjective (exhaustiveCands (nodes.map (·.id)) (nodesByIdWeight nodes)
      minC maxC opts.allowFreeNodes))
    (hpart : validPartition (nodes.map (·.id)) (nodesByIdWeight nodes) minC maxC gs free)
    (hfreeemp : opts.allowFreeNodes = false → free = [])
    (hnw : ¬ wastefulGroups m opts.symmetricLinks gs) :
    ∃ s0 rest, r.solutions = s0 :: rest ∧
      solutionTotalWeight gs m opts.symmetricLinks ≤ s0.totalWeight := by
  rcases computeGroups_ok_cases nodes m minC maxC opts r hok with
    ⟨hne0, _, _⟩ | ⟨_, arch, harch, hs, _⟩
  · exact absurd herr hne0
  · rw [hfix, effectiveFixedGroups_nil] at harch hs
    have harcheq := solveArchive_nofixed_small nodes m minC maxC opts (nodes.map (·.id))
      arch hsmall harch
    rcases hpart with ⟨hperm, hne2, hbnd2⟩
    have hflat2 : ∀ x ∈ gs.flatten ++ free, x ∈ nodes.map (·.id) :=
      fun x hx => hperm.mem_iff.mp hx
    have hcover : ∀ x ∈ nodes.map (·.id), x ∈ gs.flatten ++ free :=
      fun x hx => hperm.mem_iff.mpr hx
    have hfnd : (gs.flatten ++ free).Nodup := hperm.nodup_iff.mpr hnodup
    have hw0 : ∀ id, 0 ≤ nodesByIdWeight nodes id := nodesByIdWeight_nonneg nodes hw
    obtain ⟨cstar, hcstar, hequiv, hfreeperm⟩ :=
      exh_reach (nodes.map (·.id)) (nodesByIdWeight nodes) minC maxC opts.allowFreeNodes
        gs free hnodup hw0 hflat2 hcover hfnd hne2 hbnd2 hfreeemp
        (nodes.map (·.id)) [] [] [] (by simp) rfl (by rfl) (by simp) List.nodup_nil
        (by intro j hj hex; rcases hex with ⟨x, _, hx⟩; exact absurd hx (List.not_mem_nil x))
        (by intro k hk; simp at hk)
        (by intro x; rw [membersAt_nil_left]; simp)
        (by simp)
    have hcstar2 : cstar ∈ exhaustiveCands (nodes.map (·.id)) (nodesByIdWeight nodes)
        minC maxC opts.allowFreeNodes := by
      rw [exhaustiveCands]
      simpa using hcstar
    have hcflat : (cstar.groups.flatten ++ cstar.free).Perm (gs.flatten ++ free) :=
      (groupsEquiv_flatten_perm _ _ hequiv).append hfreeperm
    have hcperm : (cstar.groups.flatten ++ cstar.free).Perm (nodes.map (·.id)) :=
      hcflat.trans hperm
    have hguardc : solutionHasDuplicateNodes cstar.groups cstar.free
        (nodes.map (·.id)).length = false :=
      guard_false_of cstar.groups cstar.free _ hcperm.length_eq (hcperm.nodup_iff.mpr hnodup)
    have hnwc : ¬ wastefulGroups m opts.symmetricLinks cstar.groups :=
      fun hc => hnw ((wastefulGroups_equiv m opts.symmetricLinks _ _ hequiv).mp hc)
    have hnwsol : isWastefulSolution m opts.symmetricLinks
        (mkSolution m (nodesByIdWeight nodes) opts.symmetricLinks cstar.groups cstar.free)
          = false := by
      by_contra hc
      rw [Bool.not_eq_false] at hc
      exact hnwc ((isWasteful_mkSolution m (nodesByIdWeight nodes) opts.symmetricLinks
        cstar.groups cstar.free).mp hc)
    have homega := fold_archive_omega opts m (nodesByIdWeight nodes)
      (nodes.map (·.id)).length
      (exhaustiveCands (nodes.map (·.id)) (nodesByIdWeight nodes) minC maxC opts.allowFreeNodes)
      cstar hkeys hcstar2 hguardc hnwsol
      (exhaustiveCands (nodes.map (·.id)) (nodesByIdWeight nodes) minC maxC opts.allowFreeNodes)
      archEmpty (fun c hc => hc)
      (by intro hc; exact absurd hc (List.not_mem_nil _))
      (Or.inl hcstar2)
    rw [← harcheq] at homega
    have hsort : arch.sols.Pairwise
        (fun a b => solutionScore opts b ≤ solutionScore opts a) ∧ arch.sols.length ≤ 10 := by
      rw [harcheq]
      refine foldl_preserve_mem _ (fun a => a.sols.Pairwise
        (fun x y => solutionScore opts y ≤ solutionScore opts x) ∧ a.sols.length ≤ 10) _
        ?_ archEmpty ⟨by simp [archEmpty], by simp [archEmpty]⟩
      intro st c _ hP
      exact addSolution_inv opts m _ _ st c.groups c.free hP
    have hthr : solutionScore opts (mkSolution m (nodesByIdWeight nodes)
          opts.symmetricLinks cstar.groups cstar.free)
        = solutionTotalWeight gs m opts.symmetricLinks := by
      rw [solutionScore_plain opts hbonus hbal, mkSolution_totalWeight]
      exact solutionTotalWeight_equiv m opts.symmetricLinks hsym _ _ hequiv
    have hsols : r.solutions = pruneWastefulSolutions m opts.symmetricLinks arch.sols := by
      rw [hs]
      unfold finishSolve
      dsimp only
      rw [hbal, if_neg (lt_irrefl (0 : Rat))]
    unfold archOmega at homega
    rcases homega with ⟨s, hsmem, hsnw, hsge⟩ | ⟨hlen10, hall⟩
    · -- a non-wasteful archive entry at least as good as cstar
      have hcond : (arch.sols.any (fun t => ¬ isWastefulSolution m opts.symmetricLinks t))
          = true := by
        refine List.any_eq_true.mpr ⟨s, hsmem, ?_⟩
        simp [hsnw]
      have hfilt : r.solutions
          = arch.sols.filter (fun t => ¬ isWastefulSolution m opts.symmetricLinks t) := by
        rw [hsols]
        unfold pruneWastefulSolutions
        rw [if_pos hcond]
      have hsin : s ∈ r.solutions := by
        rw [hfilt]
        refine List.mem_filter.mpr ⟨hsmem, ?_⟩
        simp [hsnw]
      have hpwf : r.solutions.Pairwise
          (fun a b => solutionScore opts b ≤ solutionScore opts a) := by
        rw [hfilt]
        exact hsort.1.filter _
      cases hsol0 : r.solutions with
      | nil => rw [hsol0] at hsin; exact absurd hsin (List.not_mem_nil s)
      | cons s0 rest =>
          refine ⟨s0, rest, rfl, ?_⟩
          have hle : solutionScore opts s ≤ solutionScore opts s0 := by
            rw [hsol0] at hsin hpwf
            rcases List.mem_cons.mp hsin with rfl | hsin2
            · exact le_refl _
            · exact (List.pairwise_cons.mp hpwf).1 s hsin2
          have := le_trans hsge hle
          rw [hthr, solutionScore_plain opts hbonus hbal] at this
          exact this
    · -- the archive is full and every retained solution beats cstar
      have hsub : ∀ t ∈ r.solutions, t ∈ arch.sols := by
        intro t ht
        rw [hsols] at ht
        unfold pruneWastefulSolutions at ht
        split at ht
        · exact List.mem_of_mem_filter ht
        · exact ht
      have hnonempty : r.solutions ≠ [] := by
        rw [hsols]
        unfold pruneWastefulSolutions
        split
        · rename_i hany
          rcases List.any_eq_true.mp hany with ⟨t, htmem, htpred⟩
          intro hnil
          have : t ∈ arch.sols.filter (fun t => ¬ isWastefulSolution m opts.symmetricLinks t) :=
            List.mem_filter.mpr ⟨htmem, htpred⟩
          rw [hnil] at this
          exact absurd this (List.not_mem_nil t)
        · intro hnil
          rw [hnil] at hlen10
          simp at hlen10
      cases hsol0 : r.solutions with
      | nil => exact absurd hsol0 hnonempty
      | cons s0 rest =>
          refine ⟨s0, rest, rfl, ?_⟩
          have hs0mem : s0 ∈ arch.sols := hsub s0 (hsol0 ▸ List.mem_cons_self s0 rest)
          have := hall s0 hs0mem
          rw [hthr, solutionScore_plain opts hbonus hbal] at this
          exact this

theorem getPairLinkWeight_comm_false (m : ObjMap) (a b : String) :
    getPairLinkWeight m a b false = getPairLinkWeight m b a false := by
  unfold getPairLinkWeight
  simp [add_comm]

/-- C4 counterexample: on the 4-node instance with default options the
partition `{a,c},{b,d}` is valid (both sums equal 7) and has total weight 8,
yet the only returned solution has total weight 3: the exhaustive search
registered the weight-8 partition, but `pruneWastefulSolutions` discarded it
(`b` and `d` share no link), so the first returned solution does NOT have
maximal total weight over every capacity-feasible partition, contradicting
the claim as stated. -/
theorem C4_counterexample :
    computeGroups nodesFour linksFour 7 7 defaultOptions = .ok resultFour ∧
    validPartition (nodesFour.map (·.id)) (nodesByIdWeight nodesFour) 7 7
      [["a", "c"], ["b", "d"]] [] ∧
    resultFour.solutions.map (·.totalWeight) = [3] ∧
    solutionTotalWeight [["a", "c"], ["b", "d"]] linksFour defaultOptions.symmetricLinks = 8 :=
  ⟨by decide, by unfold validPartition; decide, by decide, by decide⟩

/-- C4 witness: the amended theorem applied to the 4-node instance with
`symmetricLinks` off (the `ab + ba` pair weight is symmetric for every
table) and the non-wasteful valid partition `{a,d},{b,c}`. -/
theorem C4_witness :
    computeGroups nodesFour linksFour 7 7 optsAsym = .ok resultFour ∧
    validPartition (nodesFour.map (·.id)) (nodesByIdWeight nodesFour) 7 7
      [["a", "d"], ["b", "c"]] [] ∧
    ¬ wastefulGroups linksFour optsAsym.symmetricLinks [["a", "d"], ["b", "c"]] ∧
    ∃ s0 rest, resultFour.solutions = s0 :: rest ∧
      solutionTotalWeight [["a", "d"], ["b", "c"]] linksFour optsAsym.symmetricLinks
        ≤ s0.totalWeight :=
  ⟨by decide, by unfold validPartition; decide, by unfold wastefulGroups; decide,
    C4_first_solution_optimal nodesFour linksFour 7 7 optsAsym resultFour
      [["a", "d"], ["b", "c"]] [] (by decide) rfl rfl rfl rfl (by decide) (by decide)
      (by decide) (fun a b => getPairLinkWeight_comm_false linksFour a b)
      (by unfold KeysInjective; decide)
      (by unfold validPartition; decide) (fun _ => rfl)
      (by unfold wastefulGroups; decide)⟩
